import Mathlib

/-!
Incremental predicate abstraction of one guarded command.

A shallow embedding of `storm::prism::menu_games::AbstractCommand`
(`src/storage/prism/menu_games/AbstractCommand.cpp`).

* `std::set<uint_fast64_t>` is an ascending duplicate-free `List Nat`
  (`IsIndexSet`); `std::vector` is `List`.
* The member fields that the methods mutate are the fields of the record
  `AbstractCommand`; every method takes the record and returns the new one.
* The decision-diagram library, the expression library and the SMT solver are
  not part of the translated file. Their operations are the fields of
  `AbstractionDdInformation`, `AbstractionExpressionInformation` and
  `Services`; the general theorems hold for all of them, the evaluations use
  the term algebras `DdTerm` and `ExprTerm`.
* `static_cast<uint_fast64_t>(std::ceil(std::log2(n)))` is double-precision
  floating point arithmetic; its value on the platform is the field
  `Services.ceilLog2`, and `choiceWidth` gives it for the `std::log2` of a
  platform.
-/

namespace Storm

/-! ## Data model -/

/-- A `storm::expressions::Variable`, identified by the number under which the
expression manager declared it. -/
abbrev Variable := Nat

/-- A `SmtSolver::ModelReference`: `getBooleanValue` of every variable. -/
abbrev Model := Variable → Bool

/-- The invariant of a `std::set<uint_fast64_t>`: strictly ascending. -/
def IsIndexSet (s : List Nat) : Prop := s.Pairwise (· < ·)

instance (s : List Nat) : Decidable (IsIndexSet s) := by
  unfold IsIndexSet; infer_instance

/-- The method `std::set::insert(x)` on an ascending list. -/
def setInsert (x : Nat) : List Nat → List Nat
  | [] => [x]
  | y :: ys => if x < y then x :: y :: ys else if x = y then y :: ys else y :: setInsert x ys

/-- The range insertion `s.insert(t.begin(), t.end())`. -/
def setInsertRange (s t : List Nat) : List Nat :=
  t.foldl (fun acc x => setInsert x acc) s

/-- A `storm::prism::Assignment`. -/
structure Assignment (Expr : Type) where
  getVariable : Variable
  getExpression : Expr

/-- A `storm::prism::Update`; the probability is not read by the engine. -/
structure Update (Expr : Type) where
  assignments : List (Assignment Expr)

/-- A `storm::prism::Command`. -/
structure Command (Expr : Type) where
  guardExpression : Expr
  updates : List (Update Expr)

/-- The method `Command::getNumberOfUpdates`. -/
def Command.getNumberOfUpdates {Expr : Type} (c : Command Expr) : Nat := c.updates.length

/-- The method `Update::getAsVariableToExpressionMap`. -/
def Update.getAsVariableToExpressionMap {Expr : Type} (u : Update Expr) : List (Variable × Expr) :=
  u.assignments.map (fun a => (a.getVariable, a.getExpression))

/-- The three queries of `VariablePartition` that the engine uses (the class is
not part of the translated file). -/
structure VariablePartition where
  getExpressionsUsingVariables : List Variable → List Nat
  getExpressionsUsingVariable : Variable → List Nat
  getRelatedExpressions : List Variable → List Nat

/-- The part of `AbstractionExpressionInformation` and of the expression
library that the engine uses. -/
structure AbstractionExpressionInformation (Expr : Type) where
  rangeExpressions : List Expr
  predicates : Nat → Expr
  getVariables : Expr → List Variable
  iff : Variable → Expr → Expr
  substitute : Expr → List (Variable × Expr) → Expr

/-- The part of `AbstractionDdInformation` and of the decision-diagram manager
that the engine uses. `getEncoding i` is
`manager->getEncoding(updateDdVariable, i)`. -/
structure AbstractionDdInformation (Bdd : Type) where
  bddZero : Bdd
  bddOne : Bdd
  and : Bdd → Bdd → Bdd
  or : Bdd → Bdd → Bdd
  not : Bdd → Bdd
  predicateBdds : Nat → Bdd × Bdd
  predicateIdentities : Nat → Bdd
  getEncoding : Nat → Bdd
  encodeDistributionIndex : Nat → Nat → Bdd

/-- The collaborators of an engine. `allSat assertions variables` is the list
of models the solver enumerates, or `none` when the solver fails; `ceilLog2 n`
is the value that `static_cast<uint_fast64_t>(std::ceil(std::log2(n)))` has on
the platform. For `n = 0` that is the conversion of minus infinity, which the
language leaves undefined. -/
structure Services (Expr Bdd : Type) where
  expressionInformation : AbstractionExpressionInformation Expr
  ddInformation : AbstractionDdInformation Bdd
  allSat : List Expr → List Variable → Option (List Model)
  ceilLog2 : Nat → Nat

/-- The mutable state of an `AbstractCommand`, together with the state of the
collaborators that its methods change: the assertions of `smtSolver`, the
number of `allSat` calls made, and the next variable of the expression
manager. -/
structure AbstractCommand (Expr Bdd : Type) where
  command : Command Expr
  variablePartition : VariablePartition
  assertions : List Expr
  allSatCalls : Nat
  nextFreshVariable : Nat
  relevantPredicatesAndVariables : List (Variable × Nat) × List (List (Variable × Nat))
  cachedDd : Bdd × Nat
  decisionVariables : List Variable

variable {Expr Bdd : Type}

/-! ## The constructor -/

/-- The constructor `AbstractCommand::AbstractCommand` (lines 17-27). -/
def AbstractCommand.create (svc : Services Expr Bdd) (command : Command Expr)
    (variablePartition : VariablePartition) (nextFreshVariable : Nat) : AbstractCommand Expr Bdd :=
  { command := command
    variablePartition := variablePartition
    assertions := svc.expressionInformation.rangeExpressions.foldl (fun acc e => acc ++ [e]) []
    allSatCalls := 0
    nextFreshVariable := nextFreshVariable
    relevantPredicatesAndVariables := ([], List.replicate command.getNumberOfUpdates [])
    cachedDd := (svc.ddInformation.bddZero, 0)
    decisionVariables := [] }

/-! ## Relevant predicates -/

/-- The body of the loop of `computeRelevantPredicates(assignments)` (lines 37-49);
the accumulator is `(result.first, result.second, assignedVariables)`. -/
def relevantStep (svc : Services Expr Bdd) (vp : VariablePartition)
    (acc : List Nat × List Nat × List Variable) (a : Assignment Expr) :
    List Nat × List Nat × List Variable :=
  (setInsertRange acc.1
      (vp.getExpressionsUsingVariables (svc.expressionInformation.getVariables a.getExpression)),
   setInsertRange acc.2.1 (vp.getExpressionsUsingVariable a.getVariable),
   setInsert a.getVariable acc.2.2)

/-- The method `computeRelevantPredicates(assignments)` (lines 29-55). -/
def computeRelevantPredicatesOf (svc : Services Expr Bdd) (s : AbstractCommand Expr Bdd)
    (assignments : List (Assignment Expr)) : List Nat × List Nat :=
  let first := s.variablePartition.getExpressionsUsingVariables
    (svc.expressionInformation.getVariables s.command.guardExpression)
  let acc := assignments.foldl (relevantStep svc s.variablePartition) (first, [], [])
  (setInsertRange acc.1 (s.variablePartition.getRelatedExpressions acc.2.2), acc.2.1)

/-- The method `computeRelevantPredicates()` (lines 57-68). -/
def computeRelevantPredicates (svc : Services Expr Bdd) (s : AbstractCommand Expr Bdd) :
    List Nat × List (List Nat) :=
  s.command.updates.foldl
    (fun result update =>
      let relevantUpdatePredicates := computeRelevantPredicatesOf svc s update.assignments
      (setInsertRange result.1 relevantUpdatePredicates.1,
       result.2 ++ [relevantUpdatePredicates.2]))
    ([], [])

/-- The method `relevantPredicatesChanged` (lines 70-83). -/
def relevantPredicatesChanged (s : AbstractCommand Expr Bdd)
    (newRelevantPredicates : List Nat × List (List Nat)) : Bool :=
  if newRelevantPredicates.1.length > s.relevantPredicatesAndVariables.1.length then true
  else (List.range s.command.getNumberOfUpdates).any (fun index =>
    decide ((newRelevantPredicates.2.getD index []).length
      > (s.relevantPredicatesAndVariables.2.getD index []).length))

/-! ## Declaring decision variables -/

/-- The loop of `declareNewVariables` (lines 91-96). `oldIt` is the remaining
range `[oldIt, oldIte)`; the loop body never advances it. The state is the
next fresh variable of the expression manager and `result`. -/
def declareNewVariablesLoop (oldIt : List (Variable × Nat)) :
    List Nat → Nat → List (Variable × Nat) → List (Variable × Nat) × Nat
  | [], fresh, result => (result, fresh)
  | newIt :: rest, fresh, result =>
    match oldIt with
    | [] => declareNewVariablesLoop oldIt rest (fresh + 1) (result ++ [(fresh, newIt)])
    | old :: _ =>
      if old.2 ≠ newIt then
        declareNewVariablesLoop oldIt rest (fresh + 1) (result ++ [(fresh, newIt)])
      else declareNewVariablesLoop oldIt rest fresh result

/-- The method `declareNewVariables` (lines 85-99): the declared pairs and the
next fresh variable of the expression manager. -/
def declareNewVariables (fresh : Nat) (oldRelevantPredicates : List (Variable × Nat))
    (newRelevantPredicates : List Nat) : List (Variable × Nat) × Nat :=
  declareNewVariablesLoop oldRelevantPredicates newRelevantPredicates fresh []

/-- The comparator of the two `std::sort` calls of `addMissingPredicates`, as
the non-strict order a stable sort needs. `std::sort` leaves the order of
pairs with the same index open; the embedding keeps them in their order. -/
def indexLe (first second : Variable × Nat) : Prop := first.2 ≤ second.2

instance : DecidableRel indexLe := fun a b => by unfold indexLe; infer_instance

/-- The call `std::sort(list.begin(), list.end(), by index)`. -/
def sortByIndex (l : List (Variable × Nat)) : List (Variable × Nat) :=
  l.insertionSort indexLe

/-- The source part of `addMissingPredicates` (lines 103-112). -/
def addMissingSource (svc : Services Expr Bdd) (s : AbstractCommand Expr Bdd)
    (newSource : List Nat) : AbstractCommand Expr Bdd :=
  let declared := declareNewVariables s.nextFreshVariable s.relevantPredicatesAndVariables.1 newSource
  let newSourceVariables := declared.1
  { s with
    nextFreshVariable := declared.2
    assertions := newSourceVariables.foldl
      (fun acc element => acc ++
        [svc.expressionInformation.iff element.1 (svc.expressionInformation.predicates element.2)])
      s.assertions
    decisionVariables := newSourceVariables.foldl (fun acc element => acc ++ [element.1])
      s.decisionVariables
    relevantPredicatesAndVariables :=
      (sortByIndex (s.relevantPredicatesAndVariables.1 ++ newSourceVariables),
       s.relevantPredicatesAndVariables.2) }

/-- One iteration of the loop over the updates of `addMissingPredicates`
(lines 116-123). -/
def addMissingUpdate (svc : Services Expr Bdd) (newSuccessors : List (List Nat))
    (s : AbstractCommand Expr Bdd) (index : Nat) : AbstractCommand Expr Bdd :=
  let old := s.relevantPredicatesAndVariables.2.getD index []
  let declared := declareNewVariables s.nextFreshVariable old (newSuccessors.getD index [])
  let newSuccessorVariables := declared.1
  let updateMap := ((s.command.updates.get? index).map Update.getAsVariableToExpressionMap).getD []
  { s with
    nextFreshVariable := declared.2
    assertions := newSuccessorVariables.foldl
      (fun acc element => acc ++
        [svc.expressionInformation.iff element.1
          (svc.expressionInformation.substitute
            (svc.expressionInformation.predicates element.2) updateMap)])
      s.assertions
    decisionVariables := newSuccessorVariables.foldl (fun acc element => acc ++ [element.1])
      s.decisionVariables
    relevantPredicatesAndVariables :=
      (s.relevantPredicatesAndVariables.1,
       s.relevantPredicatesAndVariables.2.set index (sortByIndex (old ++ newSuccessorVariables))) }

/-- The method `addMissingPredicates` (lines 101-125). -/
def addMissingPredicates (svc : Services Expr Bdd) (s : AbstractCommand Expr Bdd)
    (newRelevantPredicates : List Nat × List (List Nat)) : AbstractCommand Expr Bdd :=
  (List.range s.command.getNumberOfUpdates).foldl
    (addMissingUpdate svc newRelevantPredicates.2)
    (addMissingSource svc s newRelevantPredicates.1)

/-! ## Symbolic encoding of a model -/

/-- The method `getSourceStateBdd` (lines 127-138). -/
def getSourceStateBdd (svc : Services Expr Bdd) (s : AbstractCommand Expr Bdd) (model : Model) : Bdd :=
  s.relevantPredicatesAndVariables.1.foldl
    (fun result variableIndexPair =>
      if model variableIndexPair.1 then
        svc.ddInformation.and result (svc.ddInformation.predicateBdds variableIndexPair.2).1
      else
        svc.ddInformation.and result
          (svc.ddInformation.not (svc.ddInformation.predicateBdds variableIndexPair.2).1))
    svc.ddInformation.bddOne

/-- The first inner loop of `getDistributionBdd` (lines 145-154): the value of
`updateBdd` after it. -/
def updateBddOf (dd : AbstractionDdInformation Bdd) (model : Model) (updateIndex : Nat)
    (successors : List (Variable × Nat)) : Bdd :=
  successors.foldl
    (fun updateBdd variableIndexPair =>
      let literal :=
        if model variableIndexPair.1 then
          dd.and updateBdd (dd.predicateBdds variableIndexPair.2).2
        else dd.and updateBdd (dd.not (dd.predicateBdds variableIndexPair.2).2)
      dd.and literal (dd.getEncoding updateIndex))
    dd.bddOne

/-- The second inner loop of `getDistributionBdd` (lines 157-168), on the ranges
`[firstIt, firstIte)` and `[secondIt, secondIte)`: the value of `result`
after it. -/
def identityLoop (dd : AbstractionDdInformation Bdd) :
    List (Variable × Nat) → List (Variable × Nat) → Bdd → Bdd
  | [], _, result => result
  | first :: firstRest, [], result =>
    identityLoop dd firstRest [] (dd.and result (dd.predicateIdentities first.2))
  | first :: firstRest, second :: secondRest, result =>
    if first.2 ≠ second.2 then
      identityLoop dd firstRest (second :: secondRest)
        (dd.and result (dd.predicateIdentities first.2))
    else identityLoop dd firstRest secondRest result

/-- The body of the loop over the updates of `getDistributionBdd`
(lines 145-170). -/
def distributionStep (dd : AbstractionDdInformation Bdd) (s : AbstractCommand Expr Bdd)
    (model : Model) (result : Bdd) (updateIndex : Nat) : Bdd :=
  let successors := s.relevantPredicatesAndVariables.2.getD updateIndex []
  let updateBdd := updateBddOf dd model updateIndex successors
  dd.or (identityLoop dd s.relevantPredicatesAndVariables.1 successors result) updateBdd

/-- The method `getDistributionBdd` (lines 140-174). -/
def getDistributionBdd (svc : Services Expr Bdd) (s : AbstractCommand Expr Bdd) (model : Model) : Bdd :=
  (List.range s.command.getNumberOfUpdates).foldl
    (distributionStep svc.ddInformation s model) svc.ddInformation.bddZero

/-! ## The orchestrator -/

/-- The statement `map[key].push_back(value)` on a
`std::unordered_map<Bdd, std::vector<Bdd>>`, kept as an association list in
the order in which the keys were first inserted. -/
def mapPushBack [DecidableEq Bdd] (key value : Bdd) : List (Bdd × List Bdd) → List (Bdd × List Bdd)
  | [] => [(key, [value])]
  | entry :: rest =>
    if entry.1 = key then (entry.1, entry.2 ++ [value]) :: rest
    else entry :: mapPushBack key value rest

/-- Modelled from the spec: the enumeration loop of `SmtSolver::allSat`, which
is missing from the sources: the handler is invoked once per model and the
enumeration stops when it returns `false`. -/
def allSatLoop {σ : Type} (handler : σ → Model → σ × Bool) : σ → List Model → σ
  | acc, [] => acc
  | acc, model :: rest =>
    let r := handler acc model
    if r.2 then allSatLoop handler r.1 rest else r.1

/-- The handler that `computeDd` passes to `allSat` (line 194). -/
def allSatHandler [DecidableEq Bdd] (svc : Services Expr Bdd) (s : AbstractCommand Expr Bdd)
    (sourceToDistributionsMap : List (Bdd × List Bdd)) (model : Model) :
    List (Bdd × List Bdd) × Bool :=
  (mapPushBack (getSourceStateBdd svc s model) (getDistributionBdd svc s model)
    sourceToDistributionsMap, true)

/-- The loop of `computeDd` that determines `maximalNumberOfChoices`
(lines 198-201). -/
def maximalNumberOfChoices (sourceToDistributionsMap : List (Bdd × List Bdd)) : Nat :=
  sourceToDistributionsMap.foldl (fun m sourceDistributionsPair => max m sourceDistributionsPair.2.length) 0

/-- The inner loop of `computeDd` (lines 208-212): the value of
`allDistributions` after it. The loop reads `distributionIndex` and never
assigns it. -/
def allDistributionsOf (dd : AbstractionDdInformation Bdd) (numberOfVariablesNeeded : Nat)
    (distributions : List Bdd) : Bdd :=
  let distributionIndex := 0
  distributions.foldl
    (fun allDistributions distribution =>
      dd.or allDistributions
        (dd.and distribution (dd.encodeDistributionIndex numberOfVariablesNeeded distributionIndex)))
    dd.bddZero

/-- The loop of `computeDd` that builds `resultBdd` (lines 206-214). -/
def buildResultBdd (dd : AbstractionDdInformation Bdd) (numberOfVariablesNeeded : Nat)
    (sourceToDistributionsMap : List (Bdd × List Bdd)) : Bdd :=
  sourceToDistributionsMap.foldl
    (fun resultBdd sourceDistributionsPair =>
      dd.or resultBdd
        (dd.and sourceDistributionsPair.1
          (allDistributionsOf dd numberOfVariablesNeeded sourceDistributionsPair.2)))
    dd.bddZero

/-- The method `computeDd` (lines 176-219): the state after the call and the
returned pair, `none` when the solver's enumeration failed. -/
def computeDd [DecidableEq Bdd] (svc : Services Expr Bdd) (s : AbstractCommand Expr Bdd) :
    AbstractCommand Expr Bdd × Option (Bdd × Nat) :=
  let newRelevantPredicates := computeRelevantPredicates svc s
  let recomputeDd := relevantPredicatesChanged s newRelevantPredicates
  if !recomputeDd then (s, some s.cachedDd)
  else
    let s1 := addMissingPredicates svc s newRelevantPredicates
    let s2 := { s1 with allSatCalls := s1.allSatCalls + 1 }
    match svc.allSat s2.assertions s2.decisionVariables with
    | none => (s2, none)
    | some models =>
      let sourceToDistributionsMap := allSatLoop (allSatHandler svc s2) [] models
      let numberOfVariablesNeeded := svc.ceilLog2 (maximalNumberOfChoices sourceToDistributionsMap)
      let resultBdd := buildResultBdd svc.ddInformation numberOfVariablesNeeded sourceToDistributionsMap
      ({ s2 with cachedDd := (resultBdd, numberOfVariablesNeeded) },
       some (resultBdd, numberOfVariablesNeeded))

/-! ## Collaborators for concrete evaluation

A term algebra for the decision-diagram service and for the expressions, so
that the terms the engine builds can be read off, and two small commands. -/

/-- Decision-diagram terms: `source p` and `successor p` are
`predicateBdds[p].first` and `.second`, `identity p` is
`predicateIdentities[p]`, `update i` is `getEncoding(updateDdVariable, i)` and
`choice w j` is `encodeDistributionIndex(w, j)`. -/
inductive DdTerm where
  | zero : DdTerm
  | one : DdTerm
  | source (p : Nat) : DdTerm
  | successor (p : Nat) : DdTerm
  | identity (p : Nat) : DdTerm
  | update (i : Nat) : DdTerm
  | choice (w j : Nat) : DdTerm
  | and (a b : DdTerm) : DdTerm
  | or (a b : DdTerm) : DdTerm
  | not (a : DdTerm) : DdTerm
  deriving DecidableEq

/-- The decision-diagram service that builds `DdTerm`s. -/
def termDd : AbstractionDdInformation DdTerm :=
  { bddZero := DdTerm.zero
    bddOne := DdTerm.one
    and := DdTerm.and
    or := DdTerm.or
    not := DdTerm.not
    predicateBdds := fun p => (DdTerm.source p, DdTerm.successor p)
    predicateIdentities := DdTerm.identity
    getEncoding := DdTerm.update
    encodeDistributionIndex := DdTerm.choice }

/-- A full valuation of the decision-diagram variables: the truth value of
every predicate in the source and in the successor state, the update and the
choice index. -/
structure Valuation where
  source : Nat → Bool
  successor : Nat → Bool
  update : Nat
  choice : Nat

/-- The truth value of a term under a valuation; the identity of a predicate
holds when its source and successor values are the same. -/
def DdTerm.eval (ρ : Valuation) : DdTerm → Bool
  | DdTerm.zero => false
  | DdTerm.one => true
  | DdTerm.source p => ρ.source p
  | DdTerm.successor p => ρ.successor p
  | DdTerm.identity p => ρ.source p == ρ.successor p
  | DdTerm.update i => ρ.update == i
  | DdTerm.choice _ j => ρ.choice == j
  | DdTerm.and a b => a.eval ρ && b.eval ρ
  | DdTerm.or a b => a.eval ρ || b.eval ρ
  | DdTerm.not a => !(a.eval ρ)

/-- Expression terms: an atom names the variables it reads. -/
inductive ExprTerm where
  | atom (id : Nat) (reads : List Variable) : ExprTerm
  | iff (v : Variable) (e : ExprTerm) : ExprTerm
  | substituted (e : ExprTerm) (assigned : List Variable) : ExprTerm
  deriving DecidableEq

/-- The variables of an expression term. -/
def ExprTerm.getVariables : ExprTerm → List Variable
  | ExprTerm.atom _ reads => reads
  | ExprTerm.iff v e => v :: e.getVariables
  | ExprTerm.substituted e _ => e.getVariables

/-- Expression information over `ExprTerm`: no range expression, predicate
`p` is the atom `p` over the program variable `1`. -/
def termExpressions : AbstractionExpressionInformation ExprTerm :=
  { rangeExpressions := []
    predicates := fun p => ExprTerm.atom p [1]
    getVariables := ExprTerm.getVariables
    iff := ExprTerm.iff
    substitute := fun e m => ExprTerm.substituted e (m.map Prod.fst) }

/-- The ceiling of the binary logarithm for `n ≥ 1`, the value of
`std::ceil(std::log2(n))` for the small `n` of the examples; 0 for `n = 0`. -/
def ceilLog2Exact (n : Nat) : Nat := if n ≤ 1 then 0 else Nat.log2 (n - 1) + 1

/-- A conversion that agrees with `ceilLog2Exact` for `n ≥ 1` and yields `2^63`
for `n = 0`, where `std::log2` is minus infinity: the value that the x86-64
instruction `cvttsd2si` produces for an operand out of range. -/
def ceilLog2Indefinite (n : Nat) : Nat := if n = 0 then 2 ^ 63 else ceilLog2Exact n

/-- Services over the term algebras, for a given floating point conversion and
a solver that enumerates the given models. -/
def termServices (ceilLog2 : Nat → Nat) (models : List Model) : Services ExprTerm DdTerm :=
  { expressionInformation := termExpressions
    ddInformation := termDd
    allSat := fun _ _ => some models
    ceilLog2 := ceilLog2 }

/-- The command `[] guard(y) -> 1 : (x' = e(x))` over the program variables
`x = 0` and `y = 1`. -/
def guardedCommand : Command ExprTerm :=
  { guardExpression := ExprTerm.atom 100 [1]
    updates := [{ assignments := [{ getVariable := 0, getExpression := ExprTerm.atom 101 [0] }] }] }

/-- A partition in which the predicates `0, ..., k-1` mention the variable `y = 1`
and no other variable. -/
def guardPartition (k : Nat) : VariablePartition :=
  { getExpressionsUsingVariables := fun vs => if 1 ∈ vs then List.range k else []
    getExpressionsUsingVariable := fun v => if v = 1 then List.range k else []
    getRelatedExpressions := fun vs => if 1 ∈ vs then List.range k else [] }

/-- The command `[] guard(y) -> 1 : (x' = z)` over the program variables
`x = 0`, `y = 1` and `z = 2`. -/
def copyCommand : Command ExprTerm :=
  { guardExpression := ExprTerm.atom 100 [1]
    updates := [{ assignments := [{ getVariable := 0, getExpression := ExprTerm.atom 102 [2] }] }] }

/-- A partition with the predicate `0` over `y = 1` and the predicate `1` over
`x = 0`. -/
def copyPartition : VariablePartition :=
  { getExpressionsUsingVariables := fun vs =>
      (if 1 ∈ vs then [0] else []) ++ (if 0 ∈ vs then [1] else [])
    getExpressionsUsingVariable := fun v => if v = 1 then [0] else if v = 0 then [1] else []
    getRelatedExpressions := fun vs =>
      (if 1 ∈ vs then [0] else []) ++ (if 0 ∈ vs then [1] else []) }

/-- The model that assigns `true` to every decision variable. -/
def allTrue : Model := fun _ => true

/-- The model that assigns `false` to the decision variable `12` only. -/
def allBut12 : Model := fun v => v != 12

/-- The engine for `copyCommand` after it was constructed and `computeDd` was
called once, with a solver that enumerates the given models. -/
def copyEngine (models : List Model) : AbstractCommand ExprTerm DdTerm :=
  (computeDd (termServices ceilLog2Exact models)
    (AbstractCommand.create (termServices ceilLog2Exact models) copyCommand copyPartition 10)).1

/-- The engine for `guardedCommand`, freshly constructed, with `k` predicates
over the variable y. -/
def guardEngine0 (k : Nat) : AbstractCommand ExprTerm DdTerm :=
  AbstractCommand.create (termServices ceilLog2Exact []) guardedCommand (guardPartition k) 10

/-- The engine `guardEngine0 2` after a call of `computeDd`. -/
def guardEngine1 : AbstractCommand ExprTerm DdTerm :=
  (computeDd (termServices ceilLog2Exact []) (guardEngine0 2)).1

/-- The engine `guardEngine1` after a third predicate over y was added and
`computeDd` was called again. -/
def guardEngine2 : AbstractCommand ExprTerm DdTerm :=
  (computeDd (termServices ceilLog2Exact []) { guardEngine1 with variablePartition := guardPartition 3 }).1

/-- The engine `guardEngine2` after a fourth predicate over y was added. -/
def guardEngine3 : AbstractCommand ExprTerm DdTerm :=
  { guardEngine2 with variablePartition := guardPartition 4 }

/-- The test of line 93 as the loop of `declareNewVariables` evaluates it for
a new index: `oldIt` is the first declared pair in every iteration. -/
def differsFromFirst (old : List (Variable × Nat)) (n : Nat) : Bool :=
  match old with
  | [] => true
  | o :: _ => decide (o.2 ≠ n)

/-- The invariant that the constructor establishes: one declared successor
list per update of the command. -/
def AbstractCommand.WellFormed {Expr Bdd : Type} (s : AbstractCommand Expr Bdd) : Prop :=
  s.relevantPredicatesAndVariables.2.length = s.command.getNumberOfUpdates

/-- The vector that a `std::unordered_map<Bdd, std::vector<Bdd>>` holds for a
key: the group of the key, empty when the key is absent. -/
def mapGroup {Bdd : Type} [DecidableEq Bdd] (key : Bdd) : List (Bdd × List Bdd) → List Bdd
  | [] => []
  | entry :: rest => if entry.1 = key then entry.2 else mapGroup key rest

/-- The literal of a declared pair in the source-state term of the
specification. -/
def sourceLiteral {Bdd : Type} (dd : AbstractionDdInformation Bdd) (model : Model)
    (variableIndexPair : Variable × Nat) : Bdd :=
  if model variableIndexPair.1 then (dd.predicateBdds variableIndexPair.2).1
  else dd.not (dd.predicateBdds variableIndexPair.2).1

/-- The source-state term as the specification words it: the conjunction of
the literals of all declared source pairs, `bddOne` for no pair. -/
def specSourceStateTerm {Bdd : Type} (dd : AbstractionDdInformation Bdd) (model : Model)
    (declared : List (Variable × Nat)) : Bdd :=
  (declared.map (sourceLiteral dd model)).foldl dd.and dd.bddOne

/-! ## Relevance: the partition and the scenarios -/

/-- Modelled from the spec: `VariablePartition::getRelatedExpressions` of a set of
variables, which is missing from the sources, yields the predicates that are
related to any variable of the set. -/
def VariablePartition.RelatedPerVariable (vp : VariablePartition) : Prop :=
  ∀ (vs : List Variable) (p : Nat),
    p ∈ vp.getRelatedExpressions vs ↔ ∃ v ∈ vs, p ∈ vp.getRelatedExpressions [v]

/-- The successor relevance of one update as the specification words it: the
predicates that use a variable assigned by the update. -/
def specSuccessorRelevant {Expr : Type} (vp : VariablePartition) (u : Update Expr) (p : Nat) : Prop :=
  ∃ a ∈ u.assignments, p ∈ vp.getExpressionsUsingVariable a.getVariable

/-- The command `[] guard(y) -> ` without any update. -/
def noUpdateCommand : Command ExprTerm :=
  { guardExpression := ExprTerm.atom 100 [1]
    updates := [] }

/-- The command `[] x > 0 -> 1 : (x' = x - 1)` over the program variable `x = 0`. -/
def decrementCommand : Command ExprTerm :=
  { guardExpression := ExprTerm.atom 200 [0]
    updates := [{ assignments := [{ getVariable := 0, getExpression := ExprTerm.atom 201 [0] }] }] }

/-- Modelled from the spec: the `VariablePartition` of the predicate table
`P0: x > 0`, `P1: x > 1`, whose class is missing from the sources: both
predicates use the variable `x = 0` and are related to it. -/
def decrementPartition : VariablePartition :=
  { getExpressionsUsingVariables := fun vs => if 0 ∈ vs then [0, 1] else []
    getExpressionsUsingVariable := fun v => if v = 0 then [0, 1] else []
    getRelatedExpressions := fun vs => if 0 ∈ vs then [0, 1] else [] }

/-- Services over the term algebras with a solver whose enumeration fails. -/
def failingServices : Services ExprTerm DdTerm :=
  { expressionInformation := termExpressions
    ddInformation := termDd
    allSat := fun _ _ => none
    ceilLog2 := ceilLog2Exact }

/-- What `addMissingPredicates` makes of one declared list: the pairs that
`declareNewVariables` returns for some state of the expression manager are
appended and the list is sorted by index. -/
def ExtendsDeclared (old : List (Variable × Nat)) (new : List Nat)
    (l : List (Variable × Nat)) : Prop :=
  ∃ fresh, l = sortByIndex (old ++ (declareNewVariables fresh old new).1)

/-! ## Independent symmetries of a fault tree

A shallow embedding of `storm::storage::DFTIndependentSymmetries`
(`src/storm/storage/dft/SymmetricUnits.h`). A `size_t` is a `Nat`, an `int` is
an `Int` in the 32 bit two's complement range. A function returns `none` where
the code reads a vector out of bounds or `std::map::at` throws. -/

/-- The conversion of a `size_t` to a 32 bit `int`: the value modulo `2^32`, read
in two's complement. -/
def sizeToInt (x : Nat) : Int :=
  if x % 2 ^ 32 < 2 ^ 31 then ((x % 2 ^ 32 : Nat) : Int) else ((x % 2 ^ 32 : Nat) : Int) - 2 ^ 32

/-- The method `DFTIndependentSymmetries::applySymmetry` (lines 40-47). -/
def applySymmetry : List (List Nat) → Nat → Nat → Option Int
  | [], _, _ => some (-1)
  | element :: rest, value, index =>
    match element with
    | [] => none
    | first :: _ =>
      if first = value then (element[index]?).map sizeToInt
      else applySymmetry rest value index

/-- The member `groups`, a `std::map<size_t, std::vector<std::vector<size_t>>>`, as
the list of its entries in ascending key order. -/
abbrev SymmetryGroups := List (Nat × List (List Nat))

/-- The method `std::map::at`; `none` when it throws `std::out_of_range`. -/
def SymmetryGroups.mapAt (groups : SymmetryGroups) (key : Nat) : Option (List (List Nat)) :=
  (groups.find? (fun entry => entry.1 == key)).map Prod.snd

/-- The comparator that the constructor passes to `std::sort` (lines 110-112).
Its last operand compares `groups.at(left).front().front()` with itself. -/
def sortedGroupsLess (groups : SymmetryGroups) (left right : Nat) : Option Bool :=
  match groups.mapAt left, groups.mapAt right with
  | some l, some r =>
    if l.length < r.length then some true
    else if l.length = r.length then
      match l with
      | (first :: _) :: _ => some (decide (first < first))
      | _ => none
    else some false
  | _, _ => none

/-- The order of the group keys as the comment of line 109 and the
specification word it: fewer classes first, and for the same number of classes
the lower first element of the first class first. -/
def specGroupsLess (groups : SymmetryGroups) (a b : Nat) : Option Bool :=
  match groups.mapAt a, groups.mapAt b with
  | some (ca :: la), some (cb :: lb) =>
    match ca.head?, cb.head? with
    | some fa, some fb =>
      some (decide ((ca :: la).length < (cb :: lb).length ∨
        ((ca :: la).length = (cb :: lb).length ∧ fa < fb)))
    | _, _ => none
  | _, _ => none

/-! ## The identity merge of getDistributionBdd -/

/-- The predicates for which the second inner loop of `getDistributionBdd`
(lines 162-168) conjoins `predicateIdentities`, in the order of the loop: the
loop of `identityLoop` with the conjunction replaced by a record of the index. -/
def identityIndices : List (Variable × Nat) → List (Variable × Nat) → List Nat
  | [], _ => []
  | first :: firstRest, [] => first.2 :: identityIndices firstRest []
  | first :: firstRest, second :: secondRest =>
    if first.2 ≠ second.2 then first.2 :: identityIndices firstRest (second :: secondRest)
    else identityIndices firstRest secondRest

/-- The test whether an index is missing from a declared list. -/
def indexMissing (declared : List (Variable × Nat)) (p : Nat) : Bool :=
  decide (p ∉ declared.map Prod.snd)

/-- The source indices that do not occur in the successor list, in the order of
the source list. -/
def specIdentityIndices (source successors : List (Variable × Nat)) : List Nat :=
  (source.map Prod.snd).filter (indexMissing successors)

/-- The test whether a model has the given source-state term. -/
def hasSourceState {Expr Bdd : Type} [DecidableEq Bdd] (svc : Services Expr Bdd)
    (s : AbstractCommand Expr Bdd) (key : Bdd) (model : Model) : Bool :=
  decide (getSourceStateBdd svc s model = key)

/-- The map that the enumeration of `computeDd` builds from the models (line 194). -/
def sourceToDistributionsMapOf {Expr Bdd : Type} [DecidableEq Bdd] (svc : Services Expr Bdd)
    (s : AbstractCommand Expr Bdd) (models : List Model) : List (Bdd × List Bdd) :=
  allSatLoop (allSatHandler svc s) [] models

/-! ## Solver assertions and decision variables of addMissingPredicates -/

/-- The assertion that line 106 adds for a new source pair. -/
def sourceAssertion {Expr Bdd : Type} (svc : Services Expr Bdd) (element : Variable × Nat) : Expr :=
  svc.expressionInformation.iff element.1 (svc.expressionInformation.predicates element.2)

/-- The assertion that line 118 adds for a new successor pair of the update
`index`. -/
def successorAssertion {Expr Bdd : Type} (svc : Services Expr Bdd) (command : Command Expr)
    (index : Nat) (element : Variable × Nat) : Expr :=
  svc.expressionInformation.iff element.1
    (svc.expressionInformation.substitute (svc.expressionInformation.predicates element.2)
      (((command.updates.get? index).map Update.getAsVariableToExpressionMap).getD []))

/-- The variables of all declared pairs: those of the source list, then those
of the successor lists in the order of the updates. -/
def declaredVariables {Expr Bdd : Type} (s : AbstractCommand Expr Bdd) : List Variable :=
  s.relevantPredicatesAndVariables.1.map Prod.fst
    ++ (s.relevantPredicatesAndVariables.2.map (fun l => l.map Prod.fst)).flatten

/-- The engine states that are reachable from construction by calls of
`computeDd` and `addMissingPredicates`; between the calls the variable
partition may change. -/
inductive Reachable {Expr Bdd : Type} [DecidableEq Bdd] (svc : Services Expr Bdd) :
    AbstractCommand Expr Bdd → Prop where
  | constructed (command : Command Expr) (variablePartition : VariablePartition) (fresh : Nat) :
      Reachable svc (AbstractCommand.create svc command variablePartition fresh)
  | afterComputeDd (s : AbstractCommand Expr Bdd) :
      Reachable svc s → Reachable svc (computeDd svc s).1
  | afterAddMissingPredicates (s : AbstractCommand Expr Bdd) (new : List Nat × List (List Nat)) :
      Reachable svc s → Reachable svc (addMissingPredicates svc s new)
  | afterRefinement (s : AbstractCommand Expr Bdd) (variablePartition : VariablePartition) :
      Reachable svc s → Reachable svc { s with variablePartition := variablePartition }

/-- The invariant that ties the flat decision-variable list and the solver
assertions to the declared lists. -/
def InSync {Expr Bdd : Type} (svc : Services Expr Bdd) (s : AbstractCommand Expr Bdd) : Prop :=
  s.WellFormed ∧ List.Perm s.decisionVariables (declaredVariables s) ∧
  s.assertions.length = svc.expressionInformation.rangeExpressions.length + s.decisionVariables.length

/-! ## Partition refinement

A shallow embedding of `storm::dd::bisimulation::PartitionRefiner`
(`src/storm/storage/dd/bisimulation/PartitionRefiner.cpp`). The partition,
signature and decision-diagram classes are not part of the translated file;
their operations are the fields of `RefinerServices`, and `operator==` of a
partition is the equality of the type. The time measurements are left out. -/

/-- The enumeration `Status` of a refiner. -/
inductive Status where
  | Initialized : Status
  | InComputation : Status
  | FixedPoint : Status
  deriving DecidableEq

/-- The collaborators of a refiner: `compute mode partition` is the sequence of
signatures that the iterator of `signatureComputer.compute(partition)` yields
in the given mode, `refine` is `signatureRefiner.refine`, `defaultPartition`
is the default-constructed partition and `signatureOfAdd` is the constructor
of a signature from a reward vector. -/
structure RefinerServices (Partition Signature Mode Add : Type) where
  compute : Mode → Partition → List Signature
  refine : Partition → Signature → Partition
  getNumberOfBlocks : Partition → Nat
  defaultPartition : Partition
  signatureOfAdd : Add → Signature

/-- The state of a `PartitionRefiner`, together with the state of the signature
computer that its methods change: the signature mode that was set last, the
number of `compute` calls and the number of signatures taken from the
iterators. -/
structure PartitionRefiner (Partition Mode : Type) where
  status : Status
  refinements : Nat
  statePartition : Partition
  signatureMode : Option Mode
  computeCalls : Nat
  signaturesComputed : Nat

/-- The constructor `PartitionRefiner::PartitionRefiner` (lines 12-15). -/
def PartitionRefiner.create {Partition Mode : Type} (initialStatePartition : Partition) :
    PartitionRefiner Partition Mode :=
  { status := Status.Initialized
    refinements := 0
    statePartition := initialStatePartition
    signatureMode := none
    computeCalls := 0
    signaturesComputed := 0 }

/-- The loop of `internalRefine` (lines 45-64) over the signatures that the
iterator still has: the value of `newPartition` and the number of signatures
taken when the loop ends. -/
def internalRefineLoop {Partition Signature Mode Add : Type}
    (svc : RefinerServices Partition Signature Mode Add) (statePartition oldPartition : Partition) :
    List Signature → Partition → Nat → Partition × Nat
  | [], newPartition, taken => (newPartition, taken)
  | signature :: rest, _, taken =>
    if svc.getNumberOfBlocks (svc.refine statePartition signature)
        > svc.getNumberOfBlocks oldPartition then
      (svc.refine statePartition signature, taken + 1)
    else
      internalRefineLoop svc statePartition oldPartition rest
        (svc.refine statePartition signature) (taken + 1)

/-- The method `PartitionRefiner::internalRefine` (lines 29-73): the state after
the call and the returned partition. -/
def PartitionRefiner.internalRefine {Partition Signature Mode Add : Type}
    (svc : RefinerServices Partition Signature Mode Add) (r : PartitionRefiner Partition Mode)
    (oldPartition targetPartition : Partition) (mode : Mode) :
    PartitionRefiner Partition Mode × Partition :=
  if r.status ≠ Status.FixedPoint then
    let loop := internalRefineLoop svc r.statePartition oldPartition
      (svc.compute mode targetPartition) svc.defaultPartition r.signaturesComputed
    ({ r with
        status := Status.InComputation
        signatureMode := some mode
        computeCalls := r.computeCalls + 1
        signaturesComputed := loop.2
        refinements := r.refinements + 1 }, loop.1)
  else (r, oldPartition)

/-- The method `PartitionRefiner::refine` (lines 17-27). -/
def PartitionRefiner.refine {Partition Signature Mode Add : Type} [DecidableEq Partition]
    (svc : RefinerServices Partition Signature Mode Add) (r : PartitionRefiner Partition Mode)
    (mode : Mode) : PartitionRefiner Partition Mode × Bool :=
  let internal := r.internalRefine svc r.statePartition r.statePartition mode
  if internal.1.statePartition = internal.2 then
    ({ internal.1 with status := Status.FixedPoint }, false)
  else ({ internal.1 with statePartition := internal.2 }, true)

/-- A sequence of `refine` calls: the state after the last call and the values the
calls returned. -/
def PartitionRefiner.refineAll {Partition Signature Mode Add : Type} [DecidableEq Partition]
    (svc : RefinerServices Partition Signature Mode Add) :
    PartitionRefiner Partition Mode → List Mode → PartitionRefiner Partition Mode × List Bool
  | r, [] => (r, [])
  | r, mode :: rest =>
    (((r.refine svc mode).1.refineAll svc rest).1,
     (r.refine svc mode).2 :: ((r.refine svc mode).1.refineAll svc rest).2)

/-- The part of a `StandardRewardModel` that the refiner reads: the optional
state and state-action reward vectors and whether there are transition
rewards. -/
structure RewardModel (Add : Type) where
  stateRewards : Option Add
  stateActionRewards : Option Add
  hasTransitionRewards : Bool

/-- The exception that `STORM_LOG_THROW` throws in `refineWrtRewardModel`. -/
inductive RefinerException where
  | NotSupportedException : RefinerException
  deriving DecidableEq

/-- The method `PartitionRefiner::refineWrtStateRewards` (lines 89-99). -/
def PartitionRefiner.refineWrtStateRewards {Partition Signature Mode Add : Type}
    [DecidableEq Partition] (svc : RefinerServices Partition Signature Mode Add)
    (r : PartitionRefiner Partition Mode) (stateRewards : Add) :
    PartitionRefiner Partition Mode × Bool :=
  let newPartition := svc.refine r.statePartition (svc.signatureOfAdd stateRewards)
  if newPartition = r.statePartition then (r, false)
  else ({ r with statePartition := newPartition }, true)

/-- The method `PartitionRefiner::refineWrtRewardModel` (lines 75-87): the state
after the call, and the returned value or the exception thrown. -/
def PartitionRefiner.refineWrtRewardModel {Partition Signature Mode Add : Type}
    [DecidableEq Partition] (svc : RefinerServices Partition Signature Mode Add)
    (r : PartitionRefiner Partition Mode) (rewardModel : RewardModel Add) :
    PartitionRefiner Partition Mode × Except RefinerException Bool :=
  if rewardModel.hasTransitionRewards then (r, Except.error RefinerException.NotSupportedException)
  else
    let result := false
    let afterState : PartitionRefiner Partition Mode × Bool :=
      match rewardModel.stateRewards with
      | some stateRewardVector =>
        ((r.refineWrtStateRewards svc stateRewardVector).1,
         result || (r.refineWrtStateRewards svc stateRewardVector).2)
      | none => (r, result)
    let afterStateAction : PartitionRefiner Partition Mode × Bool :=
      match rewardModel.stateActionRewards with
      | some stateActionRewardVector =>
        ((afterState.1.refineWrtStateRewards svc stateActionRewardVector).1,
         afterState.2 || (afterState.1.refineWrtStateRewards svc stateActionRewardVector).2)
      | none => afterState
    (afterStateAction.1, Except.ok afterStateAction.2)

/-- Refiner services over partitions that are given by their number of blocks:
a signature asks for a number of blocks, refining takes the larger number,
and the signature of a partition asks for one block more, up to three. -/
def blockServices : RefinerServices Nat Nat Unit Nat :=
  { compute := fun _ partition => [min (partition + 1) 3]
    refine := fun partition signature => max partition signature
    getNumberOfBlocks := fun partition => partition
    defaultPartition := 0
    signatureOfAdd := fun rewards => rewards }

/-- The partition after refining with respect to an optional reward vector, as
the specification words it: refined by the signature of the vector when the
vector is present, unchanged otherwise. -/
def specRefinedBy {Partition Signature Mode Add : Type}
    (svc : RefinerServices Partition Signature Mode Add) (partition : Partition) :
    Option Add → Partition
  | some rewards => svc.refine partition (svc.signatureOfAdd rewards)
  | none => partition

/-! ## Independent symmetries of a fault tree: the hierarchical sort

The loops over positions of a vector are recursions over the list of the
elements at these positions. A function returns `none` where the code reads an
element of an empty vector or `candidates[i]` out of bounds, where
`std::map::at` throws, and where the recursion depth `fuel` is used up.

The read `element[index]` of `applySymmetry` beyond the end of a non-empty class
is undefined as well; a build without bounds checks returns what the memory
behind the class holds. In `createSymmetry` and its callers the value of such
a read is a parameter: `undefinedReads` has one value for every position of a
read in the run, given by the counters of the enclosing loops and calls, so
that no two reads share a value. The theorems hold for all `undefinedReads`. -/

/-- The values of the reads beyond the end of a class, by the position of the
read in the run. -/
abbrev UndefinedReads := List Nat → Nat

/-- The values of the reads below the position `k`. -/
def UndefinedReads.sub (undefinedReads : UndefinedReads) (k : Nat) : UndefinedReads :=
  fun position => undefinedReads (k :: position)

/-- The method `applySymmetry` (lines 40-47) where the read `element[index]`
beyond the end of a non-empty class yields the `size_t` value `undefinedRead`;
it agrees with `applySymmetry` where that is defined. -/
def applySymmetryWith (undefinedRead : Nat) : List (List Nat) → Nat → Nat → Option Int
  | [], _, _ => some (-1)
  | element :: rest, value, index =>
    match element with
    | [] => none
    | first :: _ =>
      if first = value then some (sizeToInt ((element[index]?).getD undefinedRead))
      else applySymmetryWith undefinedRead rest value index

/-- The keys of the map. -/
def SymmetryGroups.keys (groups : SymmetryGroups) : List Nat := groups.map Prod.fst

/-- The method `std::map::erase(key)`. -/
def SymmetryGroups.mapErase (groups : SymmetryGroups) (key : Nat) : SymmetryGroups :=
  groups.filter (fun entry => entry.1 != key)

/-- The entry `(key, {})` that `std::map::operator[]` inserts for a missing key,
at its place in the key order. -/
def SymmetryGroups.insertEmpty (key : Nat) : SymmetryGroups → SymmetryGroups
  | [] => [(key, [])]
  | entry :: rest =>
    if key < entry.1 then (key, []) :: entry :: rest
    else entry :: SymmetryGroups.insertEmpty key rest

/-- The method `std::map::operator[]`: the map after the access and the value. -/
def SymmetryGroups.mapIndex (groups : SymmetryGroups) (key : Nat) :
    SymmetryGroups × List (List Nat) :=
  match groups.mapAt key with
  | some symmetry => (groups, symmetry)
  | none => (SymmetryGroups.insertEmpty key groups, [])

/-- The state of a `DFTIndependentSymmetries`. -/
structure DFTIndependentSymmetries where
  groups : SymmetryGroups
  sortedSymmetries : List Nat
  deriving DecidableEq

/-- The method `existsInSymmetry` (lines 21-30): the map after the access
`groups[index]` and the returned value. -/
def existsInSymmetry (groups : SymmetryGroups) (index value : Nat) : SymmetryGroups × Bool :=
  ((groups.mapIndex index).1,
   (groups.mapIndex index).2.any (fun symmetry => symmetry.any (fun i => i == value)))

/-- The number of positions that the loop of line 69 visits: the counter is
`int i = candidates.size() - 1`, a `size_t` converted to `int`, and the loop
runs while `i >= 0`. -/
def scanCount (size : Nat) : Nat := (sizeToInt ((size + 2 ^ 64 - 1) % 2 ^ 64) + 1).toNat

/-- The first loop of `sortHierarchical` (lines 69-77); the first argument is
`i + 1` for the counter `i`. The result is `groups`, `candidates` and
`children` after the loop. -/
def findChildrenLoop (parent : Nat) :
    Nat → SymmetryGroups → List Nat → List Nat → Option (SymmetryGroups × List Nat × List Nat)
  | 0, groups, candidates, children => some (groups, candidates, children)
  | i + 1, groups, candidates, children =>
    match candidates[i]? with
    | none => none
    | some currentRoot =>
      if (existsInSymmetry groups parent currentRoot).2 then
        findChildrenLoop parent i (existsInSymmetry groups parent currentRoot).1
          (candidates.eraseIdx i) (currentRoot :: children)
      else
        findChildrenLoop parent i (existsInSymmetry groups parent currentRoot).1
          candidates children

/-- The inner loop of `createSymmetry` (lines 53-60) over the elements of one
class: `none` where `applySymmetry` reads the first element of an empty class,
`some none` when the function returns early at line 58, `some (some symmetry)`
when the loop ends. The position of a read is the number of elements after
the one it is made for. -/
def createSymmetryClass (undefinedReads : UndefinedReads) (parentSymmetry : List (List Nat))
    (index : Nat) : List Nat → List Nat → Option (Option (List Nat))
  | [], symmetry => some (some symmetry)
  | child :: rest, symmetry =>
    match applySymmetryWith (undefinedReads [rest.length]) parentSymmetry child index with
    | none => none
    | some bijectionValue =>
      if bijectionValue ≥ 0 then
        createSymmetryClass undefinedReads parentSymmetry index rest
          (symmetry ++ [bijectionValue.toNat])
      else some none

/-- The outer loop of `createSymmetry` (lines 51-62). The position of a class is
the number of classes after it. -/
def createSymmetryLoop (undefinedReads : UndefinedReads) (parentSymmetry : List (List Nat))
    (index : Nat) : List (List Nat) → List (List Nat) → Option (List (List Nat))
  | [], result => some result
  | childSym :: rest, result =>
    match createSymmetryClass (undefinedReads.sub rest.length) parentSymmetry index childSym [] with
    | none => none
    | some none => some result
    | some (some symmetry) =>
      createSymmetryLoop undefinedReads parentSymmetry index rest (result ++ [symmetry])

/-- The method `createSymmetry` (lines 49-64). -/
def createSymmetry (undefinedReads : UndefinedReads)
    (parentSymmetry childSymmetry : List (List Nat)) (index : Nat) :
    Option (List (List Nat)) :=
  createSymmetryLoop undefinedReads parentSymmetry index childSymmetry []

/-- The loop over `j` of `sortHierarchical` (lines 84-90) over the children at
the positions `j, j + 1, ...`: the map and these children after the loop.
After an erasure the child that moves to position `j` is skipped by `++j`:
the flag tells that the first child of the list is such a child. -/
def eraseCreatedLoop (possibleSymmetry : List (List Nat)) :
    Bool → SymmetryGroups → List Nat → Option (SymmetryGroups × List Nat)
  | _, groups, [] => some (groups, [])
  | true, groups, child :: rest =>
    match eraseCreatedLoop possibleSymmetry false groups rest with
    | none => none
    | some result => some (result.1, child :: result.2)
  | false, groups, child :: rest =>
    match groups.mapAt child with
    | none => none
    | some symmetry =>
      if possibleSymmetry = symmetry then
        eraseCreatedLoop possibleSymmetry true (groups.mapErase child) rest
      else
        match eraseCreatedLoop possibleSymmetry false groups rest with
        | none => none
        | some result => some (result.1, child :: result.2)

/-- The loop over `index` of `sortHierarchical` (lines 82-91) for the child at
position `i`; `later` are the children at the positions after `i`. The first
argument bounds the number of iterations. The position of a call of
`createSymmetry` is `index`. -/
def indexLoop (undefinedReads : UndefinedReads) (parent child : Nat) :
    Nat → Nat → SymmetryGroups → List Nat → Option (SymmetryGroups × List Nat)
  | bound, index, groups, later =>
    match groups.mapAt parent with
    | none => none
    | some [] => none
    | some (front :: parentRest) =>
      if index < front.length then
        match bound with
        | 0 => none
        | bound + 1 =>
          match groups.mapAt child with
          | none => none
          | some childSymmetry =>
            match createSymmetry (undefinedReads.sub index) (front :: parentRest)
                childSymmetry index with
            | none => none
            | some possibleSymmetry =>
              match eraseCreatedLoop possibleSymmetry false groups later with
              | none => none
              | some result =>
                indexLoop undefinedReads parent child bound (index + 1) result.1 result.2
      else some (groups, later)

/-- The number of iterations that the loop over `index` makes at most: the size
of the first class of the parent. -/
def indexBound (groups : SymmetryGroups) (parent : Nat) : Nat :=
  match groups.mapAt parent with
  | some (front :: _) => front.length
  | _ => 0

/-- The loop over `i` of `sortHierarchical` (lines 80-92) over the children at
the positions `i, i + 1, ...`; the first argument bounds the number of
iterations, and it is the position of an iteration. -/
def childLoop (undefinedReads : UndefinedReads) (parent : Nat) :
    Nat → SymmetryGroups → List Nat → Option (SymmetryGroups × List Nat)
  | _, groups, [] => some (groups, [])
  | 0, _, _ :: _ => none
  | n + 1, groups, child :: later =>
    match indexLoop (undefinedReads.sub n) parent child (indexBound groups parent) 1
        groups later with
    | none => none
    | some result =>
      match childLoop undefinedReads parent n result.1 result.2 with
      | none => none
      | some result2 => some (result2.1, child :: result2.2)

/-- The loop `while (!children.empty())` of `sortHierarchical` (lines 95-101)
and of the constructor (lines 115-121); `recurse` is the call of
`sortHierarchical`, the first argument bounds the number of iterations, and it
is the position of an iteration. -/
def hierarchyLoop
    (recurse : UndefinedReads → DFTIndependentSymmetries → Nat → List Nat →
      Option (DFTIndependentSymmetries × List Nat))
    (undefinedReads : UndefinedReads) :
    Nat → DFTIndependentSymmetries → List Nat → Option DFTIndependentSymmetries
  | 0, state, children =>
    match children with
    | [] => some state
    | _ :: _ => none
  | n + 1, state, children =>
    match children.getLast? with
    | none => some state
    | some largestChild =>
      match recurse (undefinedReads.sub n) state largestChild children.dropLast with
      | none => none
      | some result =>
        hierarchyLoop recurse undefinedReads n
          { result.1 with sortedSymmetries := result.1.sortedSymmetries ++ [largestChild] }
          result.2

/-- The body of the method `sortHierarchical` (lines 66-102) for the number
`scan` of positions that the loop of line 69 visits: the state and
`candidates` after the call; `recurse` is the recursive call of line 98. The
second loop has the position 0, the third loop the position 1. -/
def sortHierarchicalScan
    (recurse : UndefinedReads → DFTIndependentSymmetries → Nat → List Nat →
      Option (DFTIndependentSymmetries × List Nat))
    (undefinedReads : UndefinedReads)
    (scan : Nat) (state : DFTIndependentSymmetries) (parent : Nat) (candidates : List Nat) :
    Option (DFTIndependentSymmetries × List Nat) :=
  match findChildrenLoop parent scan state.groups candidates [] with
  | none => none
  | some found =>
    match childLoop (undefinedReads.sub 0) parent found.2.2.length found.1 found.2.2 with
    | none => none
    | some erased =>
      match hierarchyLoop recurse (undefinedReads.sub 1) erased.2.length
          { groups := erased.1, sortedSymmetries := state.sortedSymmetries } erased.2 with
      | none => none
      | some state3 => some (state3, found.2.1)

/-- The body of the method `sortHierarchical` (lines 66-102); `recurse` is the
recursive call of line 98. -/
def sortHierarchicalBody
    (recurse : UndefinedReads → DFTIndependentSymmetries → Nat → List Nat →
      Option (DFTIndependentSymmetries × List Nat))
    (undefinedReads : UndefinedReads)
    (state : DFTIndependentSymmetries) (parent : Nat) (candidates : List Nat) :
    Option (DFTIndependentSymmetries × List Nat) :=
  sortHierarchicalScan recurse undefinedReads (scanCount candidates.length) state parent
    candidates

/-- The method `sortHierarchical` (lines 66-102). The first argument bounds the
depth of the recursion. -/
def sortHierarchical :
    Nat → UndefinedReads → DFTIndependentSymmetries → Nat → List Nat →
      Option (DFTIndependentSymmetries × List Nat)
  | 0 => fun _ _ _ _ => none
  | fuel + 1 => sortHierarchicalBody (sortHierarchical fuel)

/-- The call of `std::sort` in the constructor (lines 110-112): `none` when the
comparator is undefined for a pair of keys (which pairs `std::sort` compares
is left open, the embedding asks for all). `std::sort` also leaves the order
of equivalent keys open; the embedding keeps them in their order, and
`createFrom` takes any order. -/
def sortGroupKeys (groups : SymmetryGroups) : Option (List Nat) :=
  if groups.keys.all (fun a => groups.keys.all (fun b => (sortedGroupsLess groups a b).isSome)) then
    some (groups.keys.insertionSort (fun a b => sortedGroupsLess groups b a ≠ some true))
  else none

/-- The loop of the constructor (lines 115-121) for the keys in the order
`sortedGroups` that `std::sort` has produced. -/
def DFTIndependentSymmetries.createFrom (fuel : Nat) (undefinedReads : UndefinedReads)
    (groups : SymmetryGroups) (sortedGroups : List Nat) : Option DFTIndependentSymmetries :=
  hierarchyLoop (sortHierarchical fuel) undefinedReads sortedGroups.length
    { groups := groups, sortedSymmetries := [] } sortedGroups

/-- The constructor `DFTIndependentSymmetries` (lines 104-122). -/
def DFTIndependentSymmetries.create (fuel : Nat) (undefinedReads : UndefinedReads)
    (groups : SymmetryGroups) : Option DFTIndependentSymmetries :=
  match sortGroupKeys groups with
  | none => none
  | some sortedGroups =>
    DFTIndependentSymmetries.createFrom fuel undefinedReads groups sortedGroups

/-- The value of `existsInSymmetry(parent, value)` for the map `groups`. -/
def inSymmetry (groups : SymmetryGroups) (parent value : Nat) : Bool :=
  (existsInSymmetry groups parent value).2

/-- The negation of `existsInSymmetry(parent, value)`. -/
def notInSymmetry (groups : SymmetryGroups) (parent value : Nat) : Bool :=
  !(inSymmetry groups parent value)

/-- The map after an access `groups[key]`. -/
def SymmetryGroups.touch (groups : SymmetryGroups) (key : Nat) : SymmetryGroups :=
  (groups.mapIndex key).1

/-- The test whether a key is kept when the keys of a list are erased. -/
def keptKey (erased : List Nat) (entry : Nat × List (List Nat)) : Bool :=
  decide (entry.1 ∉ erased)

/-- The map without the keys of a list. -/
def SymmetryGroups.eraseKeys (groups : SymmetryGroups) (erased : List Nat) : SymmetryGroups :=
  groups.filter (keptKey erased)

/-- A symmetry that is a non-empty list of non-empty classes. -/
def GoodSymmetry (symmetry : List (List Nat)) : Prop :=
  symmetry ≠ [] ∧ ∀ c ∈ symmetry, c ≠ []

/-- A map whose symmetries are non-empty lists of non-empty classes; the keys
of a `std::map` are distinct. -/
def GoodGroups (groups : SymmetryGroups) : Prop :=
  groups.keys.Nodup ∧ ∀ entry ∈ groups, GoodSymmetry entry.2

/-- The postcondition of a call of `sortHierarchical` that returns, for the
number `scan` of positions that the loop of line 69 visits. -/
def ScanPost (scan : Nat) (state : DFTIndependentSymmetries) (parent : Nat)
    (candidates : List Nat) (result : DFTIndependentSymmetries × List Nat) : Prop :=
  result.2 = (candidates.take scan).filter (notInSymmetry state.groups parent)
      ++ candidates.drop scan ∧
  ∃ pushed, result.1.sortedSymmetries = state.sortedSymmetries ++ pushed ∧
    (∀ c ∈ (candidates.take scan).filter (inSymmetry state.groups parent),
      c ∈ pushed ∨ c ∉ result.1.groups.keys) ∧
    (∀ c ∈ result.1.groups.keys, c ∈ state.groups.keys ∨ c = parent ∨ c ∈ pushed)

/-- The postcondition of a call of `sortHierarchical` that returns. -/
def CallPost (state : DFTIndependentSymmetries) (parent : Nat) (candidates : List Nat)
    (result : DFTIndependentSymmetries × List Nat) : Prop :=
  ScanPost (scanCount candidates.length) state parent candidates result

/-- The calls of `sortHierarchical` of the constructor's recursion return: for
a good map, a parent that is a key and distinct candidates that are keys other
than the parent, every candidate stays a candidate, is appended to
`sortedSymmetries` or is erased from `groups`. -/
def CallReturns (fuel : Nat) : Prop :=
  ∀ (undefinedReads : UndefinedReads) (state : DFTIndependentSymmetries) (parent : Nat)
    (candidates : List Nat),
    GoodGroups state.groups → parent ∈ state.groups.keys →
    (∀ c ∈ candidates, c ∈ state.groups.keys) → candidates.Nodup → parent ∉ candidates →
    candidates.length < fuel →
    ∃ result erased pushed,
      sortHierarchical fuel undefinedReads state parent candidates = some result ∧
      result.1.groups = state.groups.eraseKeys erased ∧
      result.1.sortedSymmetries = state.sortedSymmetries ++ pushed ∧
      List.Perm (result.2 ++ (pushed ++ erased)) candidates

/-- A map whose first symmetry has a class that is shorter than its first
class. -/
def raggedGroups : SymmetryGroups := [(1, [[1, 2, 3], [4]]), (4, [[4, 5]])]

/-- A map with the symmetry of 10 over the symmetries of 1 and of 2: the
symmetry of 10 maps the class of 1 to the class of 2. -/
def nestedGroups : SymmetryGroups := [(1, [[1, 3]]), (2, [[2, 4]]), (10, [[1, 2], [3, 4]])]

/-- A map in which 7 is in the symmetry of 3. -/
def scanGroups : SymmetryGroups := [(3, [[3, 7]]), (7, [[7, 8]])]

/-- The candidates `0, 1, ..., 2^31`. -/
def longCandidates : List Nat := List.range (2 ^ 31 + 1)

/-! ## The choice width in floating point

The expression of line 203 converts `maximalNumberOfChoices` to `double`, takes
`std::log2` and `std::ceil` and converts back. The conversions and `std::ceil`
are modelled; `std::log2` is the function of the platform's mathematical
library and a parameter: `log2 d` is the double it returns for the double `d`,
as a rational number. -/

/-- The number of low bits that the conversion of an unsigned 64 bit value to
`double` drops: a double has 53 bits of precision. -/
def droppedBits (n : Nat) : Nat :=
  ((List.range 12).find? (fun e => decide (n < 2 ^ (53 + e)))).getD 12

/-- The conversion of an unsigned 64 bit value to `double`, with rounding to the
nearest double and ties to the even one: the value of the double, a natural
number. -/
def roundToDouble (n : Nat) : Nat :=
  if droppedBits n = 0 then n
  else
    let quotient := n / 2 ^ droppedBits n
    let remainder := n % 2 ^ droppedBits n
    let half := 2 ^ (droppedBits n - 1)
    if remainder < half then quotient * 2 ^ droppedBits n
    else if remainder = half ∧ quotient % 2 = 0 then quotient * 2 ^ droppedBits n
    else (quotient + 1) * 2 ^ droppedBits n

/-- The conversion `static_cast<uint_fast64_t>` of a double with an integer
value: it is defined for the values from 0 to `2^64 - 1`. -/
def doubleToUint (value : Int) : Option Nat :=
  if 0 ≤ value ∧ value < 2 ^ 64 then some value.toNat else none

/-- The expression `static_cast<uint_fast64_t>(std::ceil(std::log2(n)))` of line
203 for an unsigned 64 bit `n ≥ 1`: `n` is converted to `double`, `log2 d` is
the double that `std::log2` of the platform returns for the double `d`,
`std::ceil` is exact, and the result is converted back; `none` where that
conversion is undefined. -/
def choiceWidth (log2 : Nat → ℚ) (n : Nat) : Option Nat :=
  doubleToUint ⌈log2 (roundToDouble n)⌉

/-- A value of the expression of line 203 on a platform with the given
`std::log2`: the value of `choiceWidth` where it is defined. -/
def floatWidth (log2 : Nat → ℚ) (n : Nat) : Nat := (choiceWidth log2 n).getD 0

/-- A `std::log2` that returns the exact ceiling of the logarithm. -/
def exactLog2 (d : Nat) : ℚ := (ceilLog2Exact d : ℚ)

/-- A contract of `std::log2` for the doubles `1, ..., bound`: the logarithm of
1 is 0, and the logarithm of `d` is above a natural number `k` exactly when `d`
is above `2^k`. -/
def LogCompares (log2 : Nat → ℚ) (bound : Nat) : Prop :=
  log2 1 = 0 ∧ ∀ d k : Nat, 1 ≤ d → d ≤ bound → ((k : ℚ) < log2 d ↔ 2 ^ k < d)

/-- The bit width as the specification words it: `w` is the least natural
number with `2^w ≥ n`. -/
def IsLeastWidth (n w : Nat) : Prop := n ≤ 2 ^ w ∧ ∀ m, n ≤ 2 ^ m → w ≤ m

/-- A contract of `std::log2` for the doubles `1, ..., bound`: it is exact at the
powers of two, and its absolute error is at most `1 / (2 * bound)`. -/
def LogAccurate (log2 : Nat → ℚ) (bound : Nat) : Prop :=
  (∀ k : Nat, 2 ^ k ≤ bound → log2 (2 ^ k) = k) ∧
  ∀ d : Nat, 1 ≤ d → d ≤ bound →
    |((log2 d : ℚ) : ℝ) - Real.logb 2 d| * (2 * (bound : ℝ)) ≤ 1

/-- A `std::log2` for the doubles up to 4: exact at 1, 2 and 4, and `1.5` for 3,
whose logarithm is `1.58...`. -/
def sampleLog2 (d : Nat) : ℚ := if d = 3 then 3 / 2 else exactLog2 d

/-- The state in which the rebuild path of `computeDd` enumerates the models
(lines 190-194). -/
def enumerationState {Expr Bdd : Type} (svc : Services Expr Bdd)
    (s : AbstractCommand Expr Bdd) : AbstractCommand Expr Bdd :=
  { addMissingPredicates svc s (computeRelevantPredicates svc s) with
    allSatCalls := (addMissingPredicates svc s (computeRelevantPredicates svc s)).allSatCalls + 1 }

/-- The maximal group size that the rebuild path of `computeDd` finds when the
solver enumerates `models` (lines 198-201). -/
def rebuildMaximalNumberOfChoices {Expr Bdd : Type} [DecidableEq Bdd] (svc : Services Expr Bdd)
    (s : AbstractCommand Expr Bdd) (models : List Model) : Nat :=
  maximalNumberOfChoices (sourceToDistributionsMapOf svc (enumerationState svc s) models)

end Storm

/-! # Theorems -/

namespace Storm

variable {Expr Bdd : Type}

/-! ## declareNewVariables -/

/-- C1: for the declared list with the indices 0 and 1 and the new set
{0, 1, 2}, `declareNewVariables` returns pairs for the indices 1 and 2. The
index 1 is in the declared list; the indices of the new set that are not in
the declared list are just [2]. The loop compares every new index with the
first declared pair only. -/
theorem declareNewVariables_redeclares_declared_index :
    IsIndexSet [0, 1, 2] ∧ ([(0, 0), (1, 1)] : List (Variable × Nat)).Sorted indexLe ∧
    (declareNewVariables 2 [(0, 0), (1, 1)] [0, 1, 2]).1 = [(2, 1), (3, 2)] ∧
    [0, 1, 2].filter (fun n => decide (n ∉ ([(0, 0), (1, 1)] : List (Variable × Nat)).map Prod.snd))
      = [2] := by
  refine ⟨by decide, by decide, by decide, by decide⟩

/-! ## computeDd: choice indices -/

/-- C2: for the command `guard(y) -> x' = z` with the predicates 0 over y and 1
over x, and a solver that enumerates two models with the same source state
and different successor values, `computeDd` puts the two distributions into
one group and conjoins both with `encodeDistributionIndex(width, 0)`: the
second distribution of the group gets the choice index 0, not 1. -/
theorem computeDd_same_choice_index_twice (f : Nat → Nat) :
    (computeDd (termServices f [allTrue, allBut12])
      (AbstractCommand.create (termServices f [allTrue, allBut12]) copyCommand copyPartition 10)).2
    = some
      (DdTerm.or DdTerm.zero
        (DdTerm.and (DdTerm.and (DdTerm.and DdTerm.one (DdTerm.source 0)) (DdTerm.source 1))
          (DdTerm.or
            (DdTerm.or DdTerm.zero
              (DdTerm.and
                (DdTerm.or (DdTerm.and DdTerm.zero (DdTerm.identity 0))
                  (DdTerm.and (DdTerm.and DdTerm.one (DdTerm.successor 1)) (DdTerm.update 0)))
                (DdTerm.choice (f 2) 0)))
            (DdTerm.and
              (DdTerm.or (DdTerm.and DdTerm.zero (DdTerm.identity 0))
                (DdTerm.and (DdTerm.and DdTerm.one (DdTerm.not (DdTerm.successor 1)))
                  (DdTerm.update 0)))
              (DdTerm.choice (f 2) 0)))),
       f 2) := by
  rfl

/-! ## getDistributionBdd -/

/-- C4: for the single-update command `guard(y) -> x' = z`, whose declared source
list has the predicates 0 and 1 and whose declared successor list has the
predicate 1 only, the term returned by `getDistributionBdd` is
`(zero AND identity 0) OR (one AND successor 1 AND update 0)`: the identity of
the predicate 0 is conjoined with the accumulated `result`, not with the
term of the update. Under a valuation that changes the predicate 0 the
returned term holds and `predicateIdentities[0]` does not, while the term of
the update conjoined with that identity is false there. -/
theorem getDistributionBdd_identity_not_in_update_term :
    (copyEngine [allTrue]).relevantPredicatesAndVariables = ([(10, 0), (11, 1)], [[(12, 1)]]) ∧
    getDistributionBdd (termServices ceilLog2Exact [allTrue]) (copyEngine [allTrue]) allTrue
      = DdTerm.or (DdTerm.and DdTerm.zero (DdTerm.identity 0))
          (DdTerm.and (DdTerm.and DdTerm.one (DdTerm.successor 1)) (DdTerm.update 0)) ∧
    (getDistributionBdd (termServices ceilLog2Exact [allTrue]) (copyEngine [allTrue]) allTrue).eval
      { source := fun _ => true, successor := fun p => p == 1, update := 0, choice := 0 } = true ∧
    (DdTerm.identity 0).eval
      { source := fun _ => true, successor := fun p => p == 1, update := 0, choice := 0 } = false ∧
    (DdTerm.and (DdTerm.and (DdTerm.and DdTerm.one (DdTerm.successor 1)) (DdTerm.update 0))
      (DdTerm.identity 0)).eval
      { source := fun _ => true, successor := fun p => p == 1, update := 0, choice := 0 } = false := by
  refine ⟨by rfl, by rfl, by rfl, by rfl, by rfl⟩

/-- C9: for the command `guard(y) -> x' = e(x)` with two predicates over y, the
declared successor list of the update 0 is empty after `computeDd`, and the
term returned by `getDistributionBdd` is
`(zero AND identity 0 AND identity 1) OR one`: the term of the update is
`one`, without `getEncoding(updateDdVariable, 0)`, which the code conjoins
inside the loop over the declared successor list. The returned term holds
under a valuation that selects the update 1. -/
theorem getDistributionBdd_no_update_marker_for_empty_list :
    guardEngine1.relevantPredicatesAndVariables = ([(10, 0), (11, 1)], [[]]) ∧
    getDistributionBdd (termServices ceilLog2Exact []) guardEngine1 allTrue
      = DdTerm.or (DdTerm.and (DdTerm.and DdTerm.zero (DdTerm.identity 0)) (DdTerm.identity 1))
          DdTerm.one ∧
    (getDistributionBdd (termServices ceilLog2Exact []) guardEngine1 allTrue).eval
      { source := fun _ => true, successor := fun _ => true, update := 1, choice := 0 } = true ∧
    (DdTerm.update 0).eval
      { source := fun _ => true, successor := fun _ => true, update := 1, choice := 0 } = false := by
  refine ⟨by rfl, by rfl, by rfl, by rfl⟩

/-! ## The size test and the declared lists -/

/-- C5: an engine for `guard(y) -> x' = e(x)` is constructed and `computeDd` is
called while the predicates over y grow from {0, 1} to {0, 1, 2}. The second
call declares the index 1 once more, so the declared source list has the
indices [0, 1, 1, 2]. For the next relevance ({0, 1, 2, 3} for the source, the
empty set for the update) `relevantPredicatesChanged` returns false, although
the index 3 is not in the declared source list. -/
theorem relevantPredicatesChanged_false_with_undeclared_index :
    computeRelevantPredicates (termServices ceilLog2Exact []) (guardEngine0 2) = ([0, 1], [[]]) ∧
    computeRelevantPredicates (termServices ceilLog2Exact [])
      { guardEngine1 with variablePartition := guardPartition 3 } = ([0, 1, 2], [[]]) ∧
    guardEngine2.relevantPredicatesAndVariables = ([(10, 0), (11, 1), (12, 1), (13, 2)], [[]]) ∧
    computeRelevantPredicates (termServices ceilLog2Exact []) guardEngine3 = ([0, 1, 2, 3], [[]]) ∧
    relevantPredicatesChanged guardEngine3 ([0, 1, 2, 3], [[]]) = false ∧
    3 ∉ guardEngine3.relevantPredicatesAndVariables.1.map Prod.snd := by
  refine ⟨by rfl, by rfl, by rfl, by rfl, by rfl, by decide⟩

/-- C6: on a freshly constructed engine, `addMissingPredicates` is called with
the source set {0, 1} and then with its superset {0, 1, 2}. After the second
call the indices of the declared source list are [0, 1, 1, 2], not the
ascending enumeration [0, 1, 2] of the second set: the index 1 occurs twice. -/
theorem addMissingPredicates_duplicates_index :
    ((addMissingPredicates (termServices ceilLog2Exact [])
      (addMissingPredicates (termServices ceilLog2Exact []) (guardEngine0 3) ([0, 1], [[]]))
      ([0, 1, 2], [[]])).relevantPredicatesAndVariables.1.map Prod.snd) = [0, 1, 1, 2] ∧
    ((addMissingPredicates (termServices ceilLog2Exact [])
      (addMissingPredicates (termServices ceilLog2Exact []) (guardEngine0 3) ([0, 1], [[]]))
      ([0, 1, 2], [[]])).relevantPredicatesAndVariables.1.map Prod.snd) ≠ [0, 1, 2] := by
  refine ⟨by rfl, by decide⟩

/-! ## Helper lemmas -/

theorem declareNewVariablesLoop_indices (old : List (Variable × Nat)) (new : List Nat) :
    ∀ (fresh : Nat) (result : List (Variable × Nat)),
      (declareNewVariablesLoop old new fresh result).1.map Prod.snd
        = result.map Prod.snd ++ new.filter (differsFromFirst old) := by
  induction new with
  | nil => intro fresh result; simp [declareNewVariablesLoop]
  | cons n rest ih =>
    intro fresh result
    cases old with
    | nil => simp [declareNewVariablesLoop, differsFromFirst, ih]
    | cons o os =>
      by_cases h : o.2 = n
      · simp [declareNewVariablesLoop, differsFromFirst, h, ih]
      · simp [declareNewVariablesLoop, differsFromFirst, h, ih]

theorem declareNewVariables_indices (fresh : Nat) (old : List (Variable × Nat)) (new : List Nat) :
    (declareNewVariables fresh old new).1.map Prod.snd = new.filter (differsFromFirst old) := by
  simp [declareNewVariables, declareNewVariablesLoop_indices]

theorem length_le_filter_differs (o : Variable × Nat) (os : List (Variable × Nat)) (l : List Nat)
    (h : l.Nodup) : l.length ≤ (l.filter (differsFromFirst (o :: os))).length + 1 := by
  induction l with
  | nil => simp
  | cons x xs ih =>
    rw [List.nodup_cons] at h
    by_cases hx : o.2 = x
    · have hd : differsFromFirst (o :: os) x = false := by simp [differsFromFirst, hx]
      have hall : xs.filter (differsFromFirst (o :: os)) = xs := by
        rw [List.filter_eq_self]
        intro y hy
        have hne : o.2 ≠ y := fun hay => h.1 (hx ▸ hay ▸ hy)
        simp [differsFromFirst, hne]
      rw [List.filter_cons, hd, hall]
      simp
    · have hd : differsFromFirst (o :: os) x = true := by simp [differsFromFirst, hx]
      have := ih h.2
      rw [List.filter_cons, hd]
      simp only [if_true, List.length_cons]
      omega

theorem IsIndexSet.nodup {l : List Nat} (h : IsIndexSet l) : l.Nodup := by
  unfold IsIndexSet at h
  exact h.imp (fun hab => Nat.ne_of_lt hab)

theorem length_le_declared (fresh : Nat) (old : List (Variable × Nat)) (new : List Nat)
    (h : IsIndexSet new) :
    new.length ≤ (old ++ (declareNewVariables fresh old new).1).length := by
  have hlen : (declareNewVariables fresh old new).1.length
      = (new.filter (differsFromFirst old)).length := by
    rw [← declareNewVariables_indices fresh old new, List.length_map]
  rw [List.length_append, hlen]
  cases old with
  | nil =>
    have hall : new.filter (differsFromFirst []) = new := by
      rw [List.filter_eq_self]
      intro y _
      rfl
    simp [hall]
  | cons o os =>
    have := length_le_filter_differs o os new h.nodup
    simp only [List.length_cons]
    omega

theorem mem_setInsert (x y : Nat) (l : List Nat) : y ∈ setInsert x l ↔ y = x ∨ y ∈ l := by
  induction l with
  | nil => simp [setInsert]
  | cons z zs ih =>
    unfold setInsert
    by_cases h1 : x < z
    · simp [h1]
    · by_cases h2 : x = z
      · subst h2
        simp
      · simp only [h1, h2, if_false, List.mem_cons, ih]
        tauto

theorem setInsert_isIndexSet (x : Nat) (l : List Nat) (h : IsIndexSet l) :
    IsIndexSet (setInsert x l) := by
  unfold IsIndexSet at *
  induction l with
  | nil => simp [setInsert]
  | cons z zs ih =>
    rw [List.pairwise_cons] at h
    unfold setInsert
    by_cases h1 : x < z
    · simp only [h1, if_true, List.pairwise_cons]
      refine ⟨?_, h.1, h.2⟩
      intro a ha
      rcases List.mem_cons.1 ha with rfl | ha
      · exact h1
      · exact Nat.lt_trans h1 (h.1 a ha)
    · by_cases h2 : x = z
      · subst h2
        simp only [Nat.lt_irrefl, if_false, if_true, List.pairwise_cons]
        exact ⟨h.1, h.2⟩
      · simp only [h1, h2, if_false, List.pairwise_cons]
        refine ⟨?_, ih h.2⟩
        intro a ha
        rcases (mem_setInsert x a zs).1 ha with rfl | ha
        · omega
        · exact h.1 a ha

theorem setInsertRange_isIndexSet (s t : List Nat) (h : IsIndexSet s) :
    IsIndexSet (setInsertRange s t) := by
  unfold setInsertRange
  induction t generalizing s with
  | nil => exact h
  | cons x xs ih => exact ih _ (setInsert_isIndexSet x s h)

theorem relevantStep_fold_isIndexSet (svc : Services Expr Bdd) (vp : VariablePartition)
    (assignments : List (Assignment Expr)) (acc : List Nat × List Nat × List Variable)
    (h : IsIndexSet acc.2.1) :
    IsIndexSet (assignments.foldl (relevantStep svc vp) acc).2.1 := by
  induction assignments generalizing acc with
  | nil => exact h
  | cons a rest ih =>
    exact ih _ (setInsertRange_isIndexSet _ _ h)

theorem computeRelevantPredicates_fold_isIndexSet (svc : Services Expr Bdd)
    (s : AbstractCommand Expr Bdd) (updates : List (Update Expr))
    (acc : List Nat × List (List Nat))
    (h : IsIndexSet acc.1 ∧ ∀ l ∈ acc.2, IsIndexSet l) :
    IsIndexSet (updates.foldl
      (fun result update =>
        (setInsertRange result.1 (computeRelevantPredicatesOf svc s update.assignments).1,
         result.2 ++ [(computeRelevantPredicatesOf svc s update.assignments).2])) acc).1 ∧
    ∀ l ∈ (updates.foldl
      (fun result update =>
        (setInsertRange result.1 (computeRelevantPredicatesOf svc s update.assignments).1,
         result.2 ++ [(computeRelevantPredicatesOf svc s update.assignments).2])) acc).2,
      IsIndexSet l := by
  induction updates generalizing acc with
  | nil => exact h
  | cons u rest ih =>
    apply ih
    refine ⟨setInsertRange_isIndexSet _ _ h.1, ?_⟩
    intro l hl
    rcases List.mem_append.1 hl with hl | hl
    · exact h.2 l hl
    · rw [List.mem_singleton] at hl
      subst hl
      exact relevantStep_fold_isIndexSet svc _ _ _ (by simp [IsIndexSet])

theorem computeRelevantPredicates_isIndexSet (svc : Services Expr Bdd)
    (s : AbstractCommand Expr Bdd) :
    IsIndexSet (computeRelevantPredicates svc s).1 ∧
    ∀ l ∈ (computeRelevantPredicates svc s).2, IsIndexSet l :=
  computeRelevantPredicates_fold_isIndexSet svc s s.command.updates ([], [])
    ⟨by simp [IsIndexSet], by simp⟩

theorem computeRelevantPredicates_congr (svc : Services Expr Bdd)
    (s t : AbstractCommand Expr Bdd) (hc : t.command = s.command)
    (hv : t.variablePartition = s.variablePartition) :
    computeRelevantPredicates svc t = computeRelevantPredicates svc s := by
  simp only [computeRelevantPredicates, computeRelevantPredicatesOf, hc, hv]

theorem isIndexSet_getD (ns : List (List Nat)) (h : ∀ l ∈ ns, IsIndexSet l) (j : Nat) :
    IsIndexSet (ns.getD j []) := by
  rw [List.getD_eq_getElem?_getD]
  cases hj : ns[j]? with
  | none => simp [IsIndexSet]
  | some l => exact h l (List.getElem?_mem hj)

theorem addMissingSource_frame (svc : Services Expr Bdd) (s : AbstractCommand Expr Bdd)
    (newSource : List Nat) :
    (addMissingSource svc s newSource).command = s.command ∧
    (addMissingSource svc s newSource).variablePartition = s.variablePartition ∧
    (addMissingSource svc s newSource).cachedDd = s.cachedDd ∧
    (addMissingSource svc s newSource).allSatCalls = s.allSatCalls ∧
    (addMissingSource svc s newSource).relevantPredicatesAndVariables.2
      = s.relevantPredicatesAndVariables.2 := by
  simp [addMissingSource]

theorem addMissingSource_length (svc : Services Expr Bdd) (s : AbstractCommand Expr Bdd)
    (newSource : List Nat) (h : IsIndexSet newSource) :
    newSource.length ≤ (addMissingSource svc s newSource).relevantPredicatesAndVariables.1.length := by
  simp only [addMissingSource, sortByIndex, List.length_insertionSort]
  exact length_le_declared _ _ _ h

theorem addMissingUpdate_frame (svc : Services Expr Bdd) (ns : List (List Nat))
    (s : AbstractCommand Expr Bdd) (j : Nat) :
    (addMissingUpdate svc ns s j).command = s.command ∧
    (addMissingUpdate svc ns s j).variablePartition = s.variablePartition ∧
    (addMissingUpdate svc ns s j).cachedDd = s.cachedDd ∧
    (addMissingUpdate svc ns s j).allSatCalls = s.allSatCalls ∧
    (addMissingUpdate svc ns s j).relevantPredicatesAndVariables.1
      = s.relevantPredicatesAndVariables.1 ∧
    (addMissingUpdate svc ns s j).relevantPredicatesAndVariables.2.length
      = s.relevantPredicatesAndVariables.2.length := by
  simp [addMissingUpdate]

theorem addMissingUpdate_length_mono (svc : Services Expr Bdd) (ns : List (List Nat))
    (s : AbstractCommand Expr Bdd) (j i : Nat) :
    (s.relevantPredicatesAndVariables.2.getD i []).length
      ≤ ((addMissingUpdate svc ns s j).relevantPredicatesAndVariables.2.getD i []).length := by
  simp only [addMissingUpdate, List.getD_eq_getElem?_getD, List.getElem?_set]
  by_cases hji : j = i
  · subst hji
    by_cases hlt : j < s.relevantPredicatesAndVariables.2.length
    · simp [hlt, sortByIndex, List.length_insertionSort]
    · simp [hlt, List.getElem?_eq_none (Nat.le_of_not_lt hlt)]
  · simp [hji]

theorem addMissingUpdate_length_new (svc : Services Expr Bdd) (ns : List (List Nat))
    (s : AbstractCommand Expr Bdd) (j : Nat)
    (hlt : j < s.relevantPredicatesAndVariables.2.length) (hset : IsIndexSet (ns.getD j [])) :
    (ns.getD j []).length
      ≤ ((addMissingUpdate svc ns s j).relevantPredicatesAndVariables.2.getD j []).length := by
  have h := length_le_declared s.nextFreshVariable
    (s.relevantPredicatesAndVariables.2.getD j []) (ns.getD j []) hset
  simp only [addMissingUpdate]
  rw [List.getD_eq_getElem?_getD (List.set _ _ _), List.getElem?_set]
  simpa [hlt, sortByIndex, List.length_insertionSort] using h

theorem addMissingUpdate_fold (svc : Services Expr Bdd) (ns : List (List Nat))
    (hns : ∀ l ∈ ns, IsIndexSet l) (idxs : List Nat) :
    ∀ s : AbstractCommand Expr Bdd,
      (∀ j ∈ idxs, j < s.relevantPredicatesAndVariables.2.length) →
      (idxs.foldl (addMissingUpdate svc ns) s).command = s.command ∧
      (idxs.foldl (addMissingUpdate svc ns) s).variablePartition = s.variablePartition ∧
      (idxs.foldl (addMissingUpdate svc ns) s).cachedDd = s.cachedDd ∧
      (idxs.foldl (addMissingUpdate svc ns) s).allSatCalls = s.allSatCalls ∧
      (idxs.foldl (addMissingUpdate svc ns) s).relevantPredicatesAndVariables.1
        = s.relevantPredicatesAndVariables.1 ∧
      (idxs.foldl (addMissingUpdate svc ns) s).relevantPredicatesAndVariables.2.length
        = s.relevantPredicatesAndVariables.2.length ∧
      (∀ i, (s.relevantPredicatesAndVariables.2.getD i []).length
        ≤ ((idxs.foldl (addMissingUpdate svc ns) s).relevantPredicatesAndVariables.2.getD i []).length) ∧
      (∀ j ∈ idxs, (ns.getD j []).length
        ≤ ((idxs.foldl (addMissingUpdate svc ns) s).relevantPredicatesAndVariables.2.getD j []).length) := by
  induction idxs with
  | nil => intro s _; simp
  | cons j rest ih =>
    intro s hlt
    have hf := addMissingUpdate_frame svc ns s j
    have hrest : ∀ k ∈ rest,
        k < (addMissingUpdate svc ns s j).relevantPredicatesAndVariables.2.length := by
      intro k hk
      rw [hf.2.2.2.2.2]
      exact hlt k (List.mem_cons_of_mem _ hk)
    have h := ih (addMissingUpdate svc ns s j) hrest
    simp only [List.foldl_cons]
    refine ⟨h.1.trans hf.1, h.2.1.trans hf.2.1, h.2.2.1.trans hf.2.2.1,
      h.2.2.2.1.trans hf.2.2.2.1, h.2.2.2.2.1.trans hf.2.2.2.2.1,
      h.2.2.2.2.2.1.trans hf.2.2.2.2.2, ?_, ?_⟩
    · intro i
      exact Nat.le_trans (addMissingUpdate_length_mono svc ns s j i) (h.2.2.2.2.2.2.1 i)
    · intro k hk
      rcases List.mem_cons.1 hk with rfl | hk
      · exact Nat.le_trans
          (addMissingUpdate_length_new svc ns s k (hlt k (List.mem_cons_self _ _))
            (isIndexSet_getD ns hns k))
          (h.2.2.2.2.2.2.1 k)
      · exact h.2.2.2.2.2.2.2 k hk

theorem addMissingPredicates_frame (svc : Services Expr Bdd) (s : AbstractCommand Expr Bdd)
    (new : List Nat × List (List Nat)) (hwf : s.WellFormed)
    (hnew : ∀ l ∈ new.2, IsIndexSet l) :
    (addMissingPredicates svc s new).command = s.command ∧
    (addMissingPredicates svc s new).variablePartition = s.variablePartition ∧
    (addMissingPredicates svc s new).cachedDd = s.cachedDd ∧
    (addMissingPredicates svc s new).allSatCalls = s.allSatCalls ∧
    (addMissingPredicates svc s new).WellFormed := by
  have hs := addMissingSource_frame svc s new.1
  have h := addMissingUpdate_fold svc new.2 hnew (List.range s.command.getNumberOfUpdates)
    (addMissingSource svc s new.1)
    (by
      intro j hj
      rw [hs.2.2.2.2, hwf]
      exact List.mem_range.1 hj)
  unfold addMissingPredicates
  refine ⟨h.1.trans hs.1, h.2.1.trans hs.2.1, h.2.2.1.trans hs.2.2.1,
    h.2.2.2.1.trans hs.2.2.2.1, ?_⟩
  unfold AbstractCommand.WellFormed
  rw [h.2.2.2.2.2.1, hs.2.2.2.2, h.1, hs.1]
  exact hwf

theorem relevantPredicatesChanged_addMissingPredicates (svc : Services Expr Bdd)
    (s : AbstractCommand Expr Bdd) (new : List Nat × List (List Nat)) (hwf : s.WellFormed)
    (hnew1 : IsIndexSet new.1) (hnew2 : ∀ l ∈ new.2, IsIndexSet l) :
    relevantPredicatesChanged (addMissingPredicates svc s new) new = false := by
  have hs := addMissingSource_frame svc s new.1
  have h := addMissingUpdate_fold svc new.2 hnew2 (List.range s.command.getNumberOfUpdates)
    (addMissingSource svc s new.1)
    (by
      intro j hj
      rw [hs.2.2.2.2, hwf]
      exact List.mem_range.1 hj)
  have hlen := addMissingSource_length svc s new.1 hnew1
  have hc : (addMissingPredicates svc s new).command = s.command := h.1.trans hs.1
  unfold relevantPredicatesChanged
  rw [hc]
  unfold addMissingPredicates
  rw [h.2.2.2.2.1]
  rw [if_neg (Nat.not_lt.2 hlen)]
  rw [List.any_eq_false]
  intro j hj
  simp only [gt_iff_lt, decide_eq_true_eq, Nat.not_lt]
  exact h.2.2.2.2.2.2.2 j hj

theorem create_wellFormed (svc : Services Expr Bdd) (command : Command Expr)
    (variablePartition : VariablePartition) (fresh : Nat) :
    (AbstractCommand.create svc command variablePartition fresh).WellFormed := by
  simp [AbstractCommand.create, AbstractCommand.WellFormed]

theorem computeDd_wellFormed [DecidableEq Bdd] (svc : Services Expr Bdd)
    (s : AbstractCommand Expr Bdd) (hwf : s.WellFormed) : (computeDd svc s).1.WellFormed := by
  have hfr := addMissingPredicates_frame svc s (computeRelevantPredicates svc s) hwf
    (computeRelevantPredicates_isIndexSet svc s).2
  have h := hfr.2.2.2.2
  unfold AbstractCommand.WellFormed at h ⊢
  unfold computeDd
  simp only
  split
  · exact hwf
  · split <;> exact h

theorem computeDd_cached [DecidableEq Bdd] (svc : Services Expr Bdd)
    (s : AbstractCommand Expr Bdd)
    (h : relevantPredicatesChanged s (computeRelevantPredicates svc s) = false) :
    computeDd svc s = (s, some s.cachedDd) := by
  simp [computeDd, h]

theorem relevantPredicatesChanged_congr (s t : AbstractCommand Expr Bdd)
    (new : List Nat × List (List Nat)) (hc : t.command = s.command)
    (hr : t.relevantPredicatesAndVariables = s.relevantPredicatesAndVariables) :
    relevantPredicatesChanged t new = relevantPredicatesChanged s new := by
  simp only [relevantPredicatesChanged, hc, hr]

/-! ## computeDd: the cache -/

/-- C3: cache correctness. For every engine state with one declared successor
list per update, when `computeDd` returns the pair `r` then a second call,
made on the state the first call left (same command, same partition), returns
`r` again and leaves the state as it is: the solver has the same assertions,
the expression manager and the decision-variable list have declared no
variable, and the number of `allSat` calls is the same. -/
theorem computeDd_twice_cached [DecidableEq Bdd] (svc : Services Expr Bdd)
    (s : AbstractCommand Expr Bdd) (hwf : s.WellFormed) (r : Bdd × Nat)
    (hfirst : (computeDd svc s).2 = some r) :
    (computeDd svc (computeDd svc s).1).2 = some r ∧
    (computeDd svc (computeDd svc s).1).1 = (computeDd svc s).1 ∧
    (computeDd svc (computeDd svc s).1).1.assertions = (computeDd svc s).1.assertions ∧
    (computeDd svc (computeDd svc s).1).1.nextFreshVariable = (computeDd svc s).1.nextFreshVariable ∧
    (computeDd svc (computeDd svc s).1).1.decisionVariables = (computeDd svc s).1.decisionVariables ∧
    (computeDd svc (computeDd svc s).1).1.allSatCalls = (computeDd svc s).1.allSatCalls := by
  have hsets := computeRelevantPredicates_isIndexSet svc s
  have key : computeDd svc (computeDd svc s).1 = ((computeDd svc s).1, some r) := by
    cases hch : relevantPredicatesChanged s (computeRelevantPredicates svc s) with
    | false =>
      have e := computeDd_cached svc s hch
      rw [e] at hfirst ⊢
      simp only at hfirst ⊢
      rw [e, hfirst]
    | true =>
      have hfr := addMissingPredicates_frame svc s (computeRelevantPredicates svc s) hwf hsets.2
      have hno := relevantPredicatesChanged_addMissingPredicates svc s
        (computeRelevantPredicates svc s) hwf hsets.1 hsets.2
      cases hm : svc.allSat (addMissingPredicates svc s (computeRelevantPredicates svc s)).assertions
          (addMissingPredicates svc s (computeRelevantPredicates svc s)).decisionVariables with
      | none =>
        simp [computeDd, hch, hm] at hfirst
      | some models =>
        have e : computeDd svc s =
            ({ addMissingPredicates svc s (computeRelevantPredicates svc s) with
                allSatCalls := (addMissingPredicates svc s (computeRelevantPredicates svc s)).allSatCalls + 1
                cachedDd := r }, some r) := by
          simp only [computeDd, hch, hm] at hfirst ⊢
          simp only [Bool.not_true, Bool.false_eq_true, if_false, Option.some.injEq] at hfirst ⊢
          rw [← hfirst]
        rw [e]
        simp only
        have hrel : computeRelevantPredicates svc
            { addMissingPredicates svc s (computeRelevantPredicates svc s) with
                allSatCalls := (addMissingPredicates svc s (computeRelevantPredicates svc s)).allSatCalls + 1
                cachedDd := r } = computeRelevantPredicates svc s :=
          computeRelevantPredicates_congr svc s _ hfr.1 hfr.2.1
        have hch2 : relevantPredicatesChanged
            { addMissingPredicates svc s (computeRelevantPredicates svc s) with
                allSatCalls := (addMissingPredicates svc s (computeRelevantPredicates svc s)).allSatCalls + 1
                cachedDd := r } (computeRelevantPredicates svc s) = false := by
          exact (relevantPredicatesChanged_congr
            (addMissingPredicates svc s (computeRelevantPredicates svc s)) _ _ rfl rfl).trans hno
        rw [computeDd_cached svc _ (by rw [hrel]; exact hch2)]
  rw [key]
  exact ⟨rfl, rfl, rfl, rfl, rfl, rfl⟩

/-- Witness of C3: the engine for `guard(y) -> x' = z`, freshly constructed, with
a solver that enumerates one model. -/
theorem computeDd_twice_cached_witness :
    (AbstractCommand.create (termServices ceilLog2Exact [allTrue]) copyCommand copyPartition 10).WellFormed ∧
    (computeDd (termServices ceilLog2Exact [allTrue])
      (AbstractCommand.create (termServices ceilLog2Exact [allTrue]) copyCommand copyPartition 10)).2
      = some (DdTerm.or DdTerm.zero
          (DdTerm.and (DdTerm.and (DdTerm.and DdTerm.one (DdTerm.source 0)) (DdTerm.source 1))
            (DdTerm.or DdTerm.zero
              (DdTerm.and
                (DdTerm.or (DdTerm.and DdTerm.zero (DdTerm.identity 0))
                  (DdTerm.and (DdTerm.and DdTerm.one (DdTerm.successor 1)) (DdTerm.update 0)))
                (DdTerm.choice 0 0)))), 0) ∧
    (computeDd (termServices ceilLog2Exact [allTrue]) (copyEngine [allTrue])).2
      = some (DdTerm.or DdTerm.zero
          (DdTerm.and (DdTerm.and (DdTerm.and DdTerm.one (DdTerm.source 0)) (DdTerm.source 1))
            (DdTerm.or DdTerm.zero
              (DdTerm.and
                (DdTerm.or (DdTerm.and DdTerm.zero (DdTerm.identity 0))
                  (DdTerm.and (DdTerm.and DdTerm.one (DdTerm.successor 1)) (DdTerm.update 0)))
                (DdTerm.choice 0 0)))), 0) ∧
    (computeDd (termServices ceilLog2Exact [allTrue]) (copyEngine [allTrue])).1.allSatCalls = 1 :=
  ⟨by rfl, by rfl,
   (computeDd_twice_cached (termServices ceilLog2Exact [allTrue])
      (AbstractCommand.create (termServices ceilLog2Exact [allTrue]) copyCommand copyPartition 10)
      (by rfl) _ (by rfl)).1,
   ((computeDd_twice_cached (termServices ceilLog2Exact [allTrue])
      (AbstractCommand.create (termServices ceilLog2Exact [allTrue]) copyCommand copyPartition 10)
      (by rfl) _ (by rfl)).2.2.2.2.2).trans (by rfl)⟩

/-- C8: when `computeDd` takes the rebuild path and the solver enumerates no
model, it returns and caches the pair of `bddZero` and the value that
`static_cast<uint_fast64_t>(std::ceil(std::log2(0)))` has, without a failure.
The bit width is not the constant 0: `maximalNumberOfChoices` is 0, no branch
handles it, and the conversion of the logarithm of 0 decides the width. -/
theorem computeDd_no_models [DecidableEq Bdd] (svc : Services Expr Bdd)
    (s : AbstractCommand Expr Bdd)
    (hch : relevantPredicatesChanged s (computeRelevantPredicates svc s) = true)
    (hm : svc.allSat (addMissingPredicates svc s (computeRelevantPredicates svc s)).assertions
      (addMissingPredicates svc s (computeRelevantPredicates svc s)).decisionVariables = some []) :
    (computeDd svc s).2 = some (svc.ddInformation.bddZero, svc.ceilLog2 0) ∧
    (computeDd svc s).1.cachedDd = (svc.ddInformation.bddZero, svc.ceilLog2 0) := by
  simp [computeDd, hch, hm, allSatLoop, maximalNumberOfChoices, buildResultBdd]

/-- Witness of C8: the engine for `guard(y) -> x' = e(x)` with two predicates over y
and a solver that enumerates no model, on a platform that converts minus
infinity to `2^63`: the cached bit width is `2^63`. -/
theorem computeDd_no_models_witness :
    relevantPredicatesChanged
      (AbstractCommand.create (termServices ceilLog2Indefinite []) guardedCommand (guardPartition 2) 10)
      (computeRelevantPredicates (termServices ceilLog2Indefinite [])
        (AbstractCommand.create (termServices ceilLog2Indefinite []) guardedCommand (guardPartition 2) 10))
      = true ∧
    (computeDd (termServices ceilLog2Indefinite [])
      (AbstractCommand.create (termServices ceilLog2Indefinite []) guardedCommand (guardPartition 2) 10)).2
      = some (DdTerm.zero, 2 ^ 63) ∧
    (computeDd (termServices ceilLog2Indefinite [])
      (AbstractCommand.create (termServices ceilLog2Indefinite []) guardedCommand (guardPartition 2) 10)).1.cachedDd
      = (DdTerm.zero, 2 ^ 63) :=
  ⟨by rfl,
   computeDd_no_models (termServices ceilLog2Indefinite [])
     (AbstractCommand.create (termServices ceilLog2Indefinite []) guardedCommand (guardPartition 2) 10)
     (by rfl) (by rfl)⟩

/-! ## getSourceStateBdd -/

theorem getSourceStateBdd_fold (dd : AbstractionDdInformation Bdd) (model : Model)
    (declared : List (Variable × Nat)) :
    ∀ init : Bdd,
      declared.foldl
        (fun result variableIndexPair =>
          if model variableIndexPair.1 then
            dd.and result (dd.predicateBdds variableIndexPair.2).1
          else dd.and result (dd.not (dd.predicateBdds variableIndexPair.2).1)) init
      = (declared.map (sourceLiteral dd model)).foldl dd.and init := by
  induction declared with
  | nil => intro init; rfl
  | cons p rest ih =>
    intro init
    simp only [List.foldl_cons, List.map_cons, ih]
    congr 1
    unfold sourceLiteral
    split <;> rfl

theorem mapGroup_mapPushBack_self [DecidableEq Bdd] (key value : Bdd)
    (map : List (Bdd × List Bdd)) :
    mapGroup key (mapPushBack key value map) = mapGroup key map ++ [value] := by
  induction map with
  | nil => simp [mapGroup, mapPushBack]
  | cons entry rest ih =>
    by_cases h : entry.1 = key
    · simp [mapGroup, mapPushBack, h]
    · simp [mapGroup, mapPushBack, h, ih]

/-- C10: for every model, `getSourceStateBdd` is the conjunction, from `bddOne`, of
the literals of all declared source pairs (`predicateBdds[p].first` when the
model assigns the decision variable true, its negation otherwise). Two models
that agree on every declared source decision variable have the same
source-state term, and when the handler of `computeDd` processes one after the
other, both distribution terms are appended to the group of that one key. -/
theorem getSourceStateBdd_spec [DecidableEq Bdd] (svc : Services Expr Bdd)
    (s : AbstractCommand Expr Bdd) (m1 m2 : Model) (map : List (Bdd × List Bdd))
    (hagree : ∀ p ∈ s.relevantPredicatesAndVariables.1, m1 p.1 = m2 p.1) :
    getSourceStateBdd svc s m1
      = specSourceStateTerm svc.ddInformation m1 s.relevantPredicatesAndVariables.1 ∧
    getSourceStateBdd svc s m1 = getSourceStateBdd svc s m2 ∧
    mapGroup (getSourceStateBdd svc s m1)
      (allSatHandler svc s (allSatHandler svc s map m1).1 m2).1
      = mapGroup (getSourceStateBdd svc s m1) map
        ++ [getDistributionBdd svc s m1, getDistributionBdd svc s m2] := by
  have h1 : ∀ m : Model, getSourceStateBdd svc s m
      = specSourceStateTerm svc.ddInformation m s.relevantPredicatesAndVariables.1 := by
    intro m
    unfold getSourceStateBdd specSourceStateTerm
    exact getSourceStateBdd_fold svc.ddInformation m _ _
  have h2 : getSourceStateBdd svc s m1 = getSourceStateBdd svc s m2 := by
    rw [h1 m1, h1 m2]
    unfold specSourceStateTerm
    congr 1
    apply List.map_congr_left
    intro p hp
    unfold sourceLiteral
    rw [hagree p hp]
  refine ⟨h1 m1, h2, ?_⟩
  unfold allSatHandler
  simp only
  rw [← h2, mapGroup_mapPushBack_self, mapGroup_mapPushBack_self, List.append_assoc]
  rfl

/-- Witness of C10: the engine for `guard(y) -> x' = z` after `computeDd`; the two
models differ on the successor variable 12 only. -/
theorem getSourceStateBdd_spec_witness :
    (∀ p ∈ (copyEngine [allTrue, allBut12]).relevantPredicatesAndVariables.1,
      allTrue p.1 = allBut12 p.1) ∧
    getSourceStateBdd (termServices ceilLog2Exact []) (copyEngine [allTrue, allBut12]) allTrue
      = DdTerm.and (DdTerm.and DdTerm.one (DdTerm.source 0)) (DdTerm.source 1) ∧
    getSourceStateBdd (termServices ceilLog2Exact []) (copyEngine [allTrue, allBut12]) allBut12
      = DdTerm.and (DdTerm.and DdTerm.one (DdTerm.source 0)) (DdTerm.source 1) :=
  ⟨by decide,
   (getSourceStateBdd_spec (termServices ceilLog2Exact []) (copyEngine [allTrue, allBut12])
      allTrue allBut12 [] (by decide)).1.trans (by rfl),
   ((getSourceStateBdd_spec (termServices ceilLog2Exact []) (copyEngine [allTrue, allBut12])
      allTrue allBut12 [] (by decide)).2.1.symm).trans (by rfl)⟩

/-! ## Relevant predicates -/

theorem mem_setInsertRange (p : Nat) (s t : List Nat) :
    p ∈ setInsertRange s t ↔ p ∈ s ∨ p ∈ t := by
  unfold setInsertRange
  induction t generalizing s with
  | nil => simp
  | cons x xs ih =>
    simp only [List.foldl_cons, ih, mem_setInsert, List.mem_cons]
    tauto

theorem relevantStep_fold_mem (svc : Services Expr Bdd) (vp : VariablePartition)
    (assignments : List (Assignment Expr)) :
    ∀ acc : List Nat × List Nat × List Variable,
      (∀ p, p ∈ (assignments.foldl (relevantStep svc vp) acc).1 ↔
        p ∈ acc.1 ∨ ∃ a ∈ assignments, p ∈ vp.getExpressionsUsingVariables
          (svc.expressionInformation.getVariables a.getExpression)) ∧
      (∀ p, p ∈ (assignments.foldl (relevantStep svc vp) acc).2.1 ↔
        p ∈ acc.2.1 ∨ ∃ a ∈ assignments, p ∈ vp.getExpressionsUsingVariable a.getVariable) ∧
      (∀ v, v ∈ (assignments.foldl (relevantStep svc vp) acc).2.2 ↔
        v ∈ acc.2.2 ∨ ∃ a ∈ assignments, a.getVariable = v) := by
  induction assignments with
  | nil => intro acc; simp
  | cons a rest ih =>
    intro acc
    have h := ih (relevantStep svc vp acc a)
    simp only [List.foldl_cons]
    refine ⟨?_, ?_, ?_⟩
    · intro p
      rw [h.1 p]
      simp only [relevantStep, mem_setInsertRange, List.mem_cons, exists_eq_or_imp]
      tauto
    · intro p
      rw [h.2.1 p]
      simp only [relevantStep, mem_setInsertRange, List.mem_cons, exists_eq_or_imp]
      tauto
    · intro v
      rw [h.2.2 v]
      simp only [relevantStep, mem_setInsert, List.mem_cons, exists_eq_or_imp]
      constructor
      · rintro ((h1 | h1) | h1)
        · exact Or.inr (Or.inl h1.symm)
        · exact Or.inl h1
        · exact Or.inr (Or.inr h1)
      · rintro (h1 | h1 | h1)
        · exact Or.inl (Or.inr h1)
        · exact Or.inl (Or.inl h1.symm)
        · exact Or.inr h1

theorem computeRelevantPredicates_fold_spec (svc : Services Expr Bdd)
    (s : AbstractCommand Expr Bdd) (updates : List (Update Expr)) :
    ∀ acc : List Nat × List (List Nat),
      (updates.foldl
        (fun result update =>
          (setInsertRange result.1 (computeRelevantPredicatesOf svc s update.assignments).1,
           result.2 ++ [(computeRelevantPredicatesOf svc s update.assignments).2])) acc).2
        = acc.2 ++ updates.map (fun u => (computeRelevantPredicatesOf svc s u.assignments).2) ∧
      ∀ p, p ∈ (updates.foldl
        (fun result update =>
          (setInsertRange result.1 (computeRelevantPredicatesOf svc s update.assignments).1,
           result.2 ++ [(computeRelevantPredicatesOf svc s update.assignments).2])) acc).1 ↔
        p ∈ acc.1 ∨ ∃ u ∈ updates, p ∈ (computeRelevantPredicatesOf svc s u.assignments).1 := by
  induction updates with
  | nil => intro acc; simp
  | cons u rest ih =>
    intro acc
    have h := ih (setInsertRange acc.1 (computeRelevantPredicatesOf svc s u.assignments).1,
      acc.2 ++ [(computeRelevantPredicatesOf svc s u.assignments).2])
    simp only [List.foldl_cons]
    refine ⟨?_, ?_⟩
    · rw [h.1]
      simp
    · intro p
      rw [h.2 p]
      simp only [mem_setInsertRange, List.mem_cons, exists_eq_or_imp]
      tauto

theorem computeRelevantPredicates_snd (svc : Services Expr Bdd) (s : AbstractCommand Expr Bdd) :
    (computeRelevantPredicates svc s).2
      = s.command.updates.map (fun u => (computeRelevantPredicatesOf svc s u.assignments).2) := by
  have h := (computeRelevantPredicates_fold_spec svc s s.command.updates ([], [])).1
  simpa [computeRelevantPredicates] using h

theorem mem_computeRelevantPredicates_fst (svc : Services Expr Bdd)
    (s : AbstractCommand Expr Bdd) (p : Nat) :
    p ∈ (computeRelevantPredicates svc s).1 ↔
      ∃ u ∈ s.command.updates, p ∈ (computeRelevantPredicatesOf svc s u.assignments).1 := by
  have h := (computeRelevantPredicates_fold_spec svc s s.command.updates ([], [])).2 p
  simpa [computeRelevantPredicates] using h

theorem mem_computeRelevantPredicatesOf_fst (svc : Services Expr Bdd)
    (s : AbstractCommand Expr Bdd) (assignments : List (Assignment Expr)) (p : Nat) :
    p ∈ (computeRelevantPredicatesOf svc s assignments).1 ↔
      (p ∈ s.variablePartition.getExpressionsUsingVariables
          (svc.expressionInformation.getVariables s.command.guardExpression) ∨
        ∃ a ∈ assignments, p ∈ s.variablePartition.getExpressionsUsingVariables
          (svc.expressionInformation.getVariables a.getExpression)) ∨
      p ∈ s.variablePartition.getRelatedExpressions
        (assignments.foldl (relevantStep svc s.variablePartition)
          (s.variablePartition.getExpressionsUsingVariables
            (svc.expressionInformation.getVariables s.command.guardExpression), [], [])).2.2 := by
  unfold computeRelevantPredicatesOf
  simp only [mem_setInsertRange]
  rw [(relevantStep_fold_mem svc s.variablePartition assignments _).1 p]

/-- C11: `computeRelevantPredicates()` returns one successor set per update, in
the order of the updates. The set of the update at position i is an ascending
duplicate-free list whose members are exactly the predicates of
`getExpressionsUsingVariable(v)` for the assignments `v := e` of that update.
Every predicate of `getExpressionsUsingVariables(variables of e)`, for any
assignment of any update, is in the source set. -/
theorem computeRelevantPredicates_successor (svc : Services Expr Bdd)
    (s : AbstractCommand Expr Bdd) :
    (computeRelevantPredicates svc s).2.length = s.command.getNumberOfUpdates ∧
    (∀ (i : Nat) (u : Update Expr), s.command.updates[i]? = some u →
      ∃ l, (computeRelevantPredicates svc s).2[i]? = some l ∧ IsIndexSet l ∧
        ∀ p, p ∈ l ↔ specSuccessorRelevant s.variablePartition u p) ∧
    (∀ u ∈ s.command.updates, ∀ a ∈ u.assignments,
      ∀ p ∈ s.variablePartition.getExpressionsUsingVariables
        (svc.expressionInformation.getVariables a.getExpression),
      p ∈ (computeRelevantPredicates svc s).1) := by
  refine ⟨?_, ?_, ?_⟩
  · rw [computeRelevantPredicates_snd, List.length_map]
    rfl
  · intro i u hu
    refine ⟨(computeRelevantPredicatesOf svc s u.assignments).2, ?_, ?_, ?_⟩
    · rw [computeRelevantPredicates_snd, List.getElem?_map, hu]
      rfl
    · exact relevantStep_fold_isIndexSet svc _ _ _ (by simp [IsIndexSet])
    · intro p
      unfold computeRelevantPredicatesOf specSuccessorRelevant
      simp only
      rw [(relevantStep_fold_mem svc s.variablePartition u.assignments _).2.1 p]
      simp
  · intro u hu a ha p hp
    rw [mem_computeRelevantPredicates_fst]
    refine ⟨u, hu, ?_⟩
    rw [mem_computeRelevantPredicatesOf_fst]
    exact Or.inl (Or.inr ⟨a, ha, hp⟩)

/-- Witness of C11: the command `guard(y) -> x' = z` with the predicate 0 over y and
the predicate 1 over x; the successor set of its update is {1}. -/
theorem computeRelevantPredicates_successor_witness :
    copyCommand.updates[0]? = some { assignments := [{ getVariable := 0, getExpression := ExprTerm.atom 102 [2] }] } ∧
    (computeRelevantPredicates (termServices ceilLog2Exact [])
      (AbstractCommand.create (termServices ceilLog2Exact []) copyCommand copyPartition 10)).2 = [[1]] ∧
    ∃ l, (computeRelevantPredicates (termServices ceilLog2Exact [])
        (AbstractCommand.create (termServices ceilLog2Exact []) copyCommand copyPartition 10)).2[0]?
          = some l ∧ IsIndexSet l ∧
      ∀ p, p ∈ l ↔ specSuccessorRelevant copyPartition
        { assignments := [{ getVariable := 0, getExpression := ExprTerm.atom 102 [2] }] } p :=
  ⟨by rfl, by rfl,
   (computeRelevantPredicates_successor (termServices ceilLog2Exact [])
      (AbstractCommand.create (termServices ceilLog2Exact []) copyCommand copyPartition 10)).2.1
      0 _ (by rfl)⟩

/-- C12 as stated fails: for the command `guard(y) ->` without an update and two
predicates over y, `getExpressionsUsingVariables(variables of the guard)` is
{0, 1}, and `computeRelevantPredicates()` returns the empty source set: the
guard is read inside the call for the assignments of an update only. -/
theorem computeRelevantPredicates_no_update_no_guard_seed :
    (guardPartition 2).getExpressionsUsingVariables
      (termExpressions.getVariables noUpdateCommand.guardExpression) = [0, 1] ∧
    computeRelevantPredicates (termServices ceilLog2Exact [])
      (AbstractCommand.create (termServices ceilLog2Exact []) noUpdateCommand (guardPartition 2) 10)
      = ([], []) ∧
    ¬ ∀ p ∈ (guardPartition 2).getExpressionsUsingVariables
        (termExpressions.getVariables noUpdateCommand.guardExpression),
      p ∈ (computeRelevantPredicates (termServices ceilLog2Exact [])
        (AbstractCommand.create (termServices ceilLog2Exact []) noUpdateCommand (guardPartition 2) 10)).1 := by
  refine ⟨by rfl, by rfl, by decide⟩

/-- C12, amended: for every command with at least one update, the source set
returned by `computeRelevantPredicates()` contains every predicate of
`getExpressionsUsingVariables(variables of the guard)`. -/
theorem computeRelevantPredicates_guard_seed (svc : Services Expr Bdd)
    (s : AbstractCommand Expr Bdd) (hupdates : s.command.updates ≠ []) :
    ∀ p ∈ s.variablePartition.getExpressionsUsingVariables
        (svc.expressionInformation.getVariables s.command.guardExpression),
      p ∈ (computeRelevantPredicates svc s).1 := by
  intro p hp
  rw [mem_computeRelevantPredicates_fst]
  obtain ⟨u, hu⟩ := List.exists_mem_of_ne_nil _ hupdates
  refine ⟨u, hu, ?_⟩
  rw [mem_computeRelevantPredicatesOf_fst]
  exact Or.inl (Or.inl hp)

/-- Witness of C12, amended: the command `guard(y) -> x' = e(x)` with two predicates
over y. -/
theorem computeRelevantPredicates_guard_seed_witness :
    guardedCommand.updates ≠ [] ∧
    (guardPartition 2).getExpressionsUsingVariables
      (termExpressions.getVariables guardedCommand.guardExpression) = [0, 1] ∧
    ∀ p ∈ (guardPartition 2).getExpressionsUsingVariables
        (termExpressions.getVariables guardedCommand.guardExpression),
      p ∈ (computeRelevantPredicates (termServices ceilLog2Exact []) (guardEngine0 2)).1 :=
  ⟨by simp [guardedCommand], by rfl,
   computeRelevantPredicates_guard_seed (termServices ceilLog2Exact []) (guardEngine0 2)
     (by simp [guardEngine0, AbstractCommand.create, guardedCommand])⟩

theorem decrementPartition_relatedPerVariable : decrementPartition.RelatedPerVariable := by
  intro vs p
  simp only [decrementPartition, List.mem_singleton]
  by_cases h : 0 ∈ vs
  · simp only [h, if_true]
    constructor
    · intro hp
      exact ⟨0, h, by simpa using hp⟩
    · rintro ⟨v, _, hv⟩
      by_cases h0 : 0 = v
      · simpa [h0] using hv
      · simp [h0] at hv
  · simp only [h, if_false, List.not_mem_nil, false_iff]
    rintro ⟨v, hv, hp⟩
    by_cases h0 : 0 = v
    · exact h (h0 ▸ hv)
    · simp [h0] at hp

/-- C13: for every command and every partition whose related predicates of a set
of variables are the predicates related to any variable of the set, the
source set returned by `computeRelevantPredicates()` contains every predicate
of `getRelatedExpressions(A)`, where A holds exactly the variables that some
assignment of some update assigns. -/
theorem computeRelevantPredicates_related (svc : Services Expr Bdd)
    (s : AbstractCommand Expr Bdd) (hrel : s.variablePartition.RelatedPerVariable)
    (A : List Variable)
    (hA : ∀ v, v ∈ A ↔ ∃ u ∈ s.command.updates, ∃ a ∈ u.assignments, a.getVariable = v) :
    ∀ p ∈ s.variablePartition.getRelatedExpressions A,
      p ∈ (computeRelevantPredicates svc s).1 := by
  intro p hp
  obtain ⟨v, hv, hpv⟩ := (hrel A p).1 hp
  obtain ⟨u, hu, a, ha, hav⟩ := (hA v).1 hv
  rw [mem_computeRelevantPredicates_fst]
  refine ⟨u, hu, ?_⟩
  rw [mem_computeRelevantPredicatesOf_fst]
  refine Or.inr ((hrel _ p).2 ⟨v, ?_, hpv⟩)
  rw [(relevantStep_fold_mem svc s.variablePartition u.assignments _).2.2 v]
  exact Or.inr ⟨a, ha, hav⟩

/-- Witness of C13: the command `x > 0 -> x' = x - 1` with the predicates 0 and 1
over x; A is {x}. -/
theorem computeRelevantPredicates_related_witness :
    decrementPartition.getRelatedExpressions [0] = [0, 1] ∧
    ∀ p ∈ decrementPartition.getRelatedExpressions [0],
      p ∈ (computeRelevantPredicates (termServices ceilLog2Exact [])
        (AbstractCommand.create (termServices ceilLog2Exact []) decrementCommand
          decrementPartition 10)).1 :=
  ⟨by rfl,
   computeRelevantPredicates_related (termServices ceilLog2Exact [])
     (AbstractCommand.create (termServices ceilLog2Exact []) decrementCommand decrementPartition 10)
     decrementPartition_relatedPerVariable [0]
     (by
       intro v
       simp [AbstractCommand.create, decrementCommand, eq_comm])⟩

/-- C14 as stated fails: for the command `x > 0 -> x' = x - 1` over the predicates
`P0: x > 0` and `P1: x > 1`, `computeRelevantPredicates()` does not return the
successor relevance {P1}. -/
theorem computeRelevantPredicates_scenario_not_P1_only :
    computeRelevantPredicates (termServices ceilLog2Exact [])
      (AbstractCommand.create (termServices ceilLog2Exact []) decrementCommand decrementPartition 10)
      ≠ ([0, 1], [[1]]) := by
  decide

/-- C14, amended: for the command `x > 0 -> x' = x - 1` over the predicates
`P0: x > 0` and `P1: x > 1`, `computeRelevantPredicates()` returns the source
relevance {P0, P1} and, for the one update, the successor relevance {P0, P1}:
both predicates use the assigned variable x. -/
theorem computeRelevantPredicates_scenario :
    computeRelevantPredicates (termServices ceilLog2Exact [])
      (AbstractCommand.create (termServices ceilLog2Exact []) decrementCommand decrementPartition 10)
      = ([0, 1], [[0, 1]]) := by
  rfl

/-- C18: `computeRelevantPredicates()` is a const method; it is a function of the
engine state that returns the two relevance components and no state. Its
result is the same for any two engine states with the same command and the
same variable partition, whatever their declared lists, decision variables,
solver assertions and cache entries are. -/
theorem computeRelevantPredicates_pure (svc : Services Expr Bdd)
    (s t : AbstractCommand Expr Bdd) (hc : t.command = s.command)
    (hv : t.variablePartition = s.variablePartition) :
    computeRelevantPredicates svc t = computeRelevantPredicates svc s := by
  simp only [computeRelevantPredicates, computeRelevantPredicatesOf, hc, hv]

/-- Witness of C18: the freshly constructed engine for `guard(y) -> x' = e(x)` and
the engine after `computeDd`, which has declared two source variables. -/
theorem computeRelevantPredicates_pure_witness :
    guardEngine1.relevantPredicatesAndVariables ≠ (guardEngine0 2).relevantPredicatesAndVariables ∧
    computeRelevantPredicates (termServices ceilLog2Exact []) guardEngine1 = ([0, 1], [[]]) ∧
    computeRelevantPredicates (termServices ceilLog2Exact []) guardEngine1
      = computeRelevantPredicates (termServices ceilLog2Exact []) (guardEngine0 2) :=
  ⟨by decide, by rfl,
   computeRelevantPredicates_pure (termServices ceilLog2Exact []) (guardEngine0 2) guardEngine1
     (by rfl) (by rfl)⟩

/-! ## addMissingPredicates: what happens to the declared lists -/

theorem ExtendsDeclared.mem_of_mem {old : List (Variable × Nat)} {new : List Nat}
    {l : List (Variable × Nat)} (h : ExtendsDeclared old new l) :
    ∀ pair ∈ old, pair ∈ l := by
  obtain ⟨fresh, rfl⟩ := h
  intro pair hp
  unfold sortByIndex
  rw [(List.perm_insertionSort indexLe _).mem_iff]
  exact List.mem_append_left _ hp

theorem ExtendsDeclared.mem_indices {old : List (Variable × Nat)} {new : List Nat}
    {l : List (Variable × Nat)} (h : ExtendsDeclared old new l) (n : Nat) :
    n ∈ l.map Prod.snd ↔ n ∈ old.map Prod.snd ∨ n ∈ new := by
  obtain ⟨fresh, rfl⟩ := h
  have hperm : List.Perm
      ((sortByIndex (old ++ (declareNewVariables fresh old new).1)).map Prod.snd)
      ((old ++ (declareNewVariables fresh old new).1).map Prod.snd) :=
    (List.perm_insertionSort indexLe _).map _
  rw [hperm.mem_iff, List.map_append, List.mem_append, declareNewVariables_indices,
    List.mem_filter]
  constructor
  · rintro (h1 | h1)
    · exact Or.inl h1
    · exact Or.inr h1.1
  · rintro (h1 | h1)
    · exact Or.inl h1
    · cases old with
      | nil => exact Or.inr ⟨h1, rfl⟩
      | cons o os =>
        by_cases ho : o.2 = n
        · exact Or.inl (by simp [← ho])
        · exact Or.inr ⟨h1, by simp [differsFromFirst, ho]⟩

theorem addMissingUpdate_getD (svc : Services Expr Bdd) (ns : List (List Nat))
    (s : AbstractCommand Expr Bdd) (j i : Nat)
    (hlt : j < s.relevantPredicatesAndVariables.2.length) :
    (i = j → ExtendsDeclared (s.relevantPredicatesAndVariables.2.getD j []) (ns.getD j [])
      ((addMissingUpdate svc ns s j).relevantPredicatesAndVariables.2.getD j [])) ∧
    (i ≠ j → (addMissingUpdate svc ns s j).relevantPredicatesAndVariables.2.getD i []
      = s.relevantPredicatesAndVariables.2.getD i []) := by
  refine ⟨?_, ?_⟩
  · intro _
    refine ⟨s.nextFreshVariable, ?_⟩
    simp only [addMissingUpdate]
    rw [List.getD_eq_getElem?_getD (List.set _ _ _), List.getElem?_set]
    simp [hlt]
  · intro hij
    simp only [addMissingUpdate]
    rw [List.getD_eq_getElem?_getD (List.set _ _ _), List.getElem?_set,
      List.getD_eq_getElem?_getD]
    simp [Ne.symm hij]

theorem addMissingUpdate_fold_getD (svc : Services Expr Bdd) (ns : List (List Nat))
    (idxs : List Nat) :
    ∀ s : AbstractCommand Expr Bdd, idxs.Nodup →
      (∀ j ∈ idxs, j < s.relevantPredicatesAndVariables.2.length) →
      ∀ i,
        (i ∈ idxs → ExtendsDeclared (s.relevantPredicatesAndVariables.2.getD i []) (ns.getD i [])
          ((idxs.foldl (addMissingUpdate svc ns) s).relevantPredicatesAndVariables.2.getD i [])) ∧
        (i ∉ idxs → (idxs.foldl (addMissingUpdate svc ns) s).relevantPredicatesAndVariables.2.getD i []
          = s.relevantPredicatesAndVariables.2.getD i []) := by
  induction idxs with
  | nil => intro s _ _ i; simp
  | cons j rest ih =>
    intro s hnd hlt i
    rw [List.nodup_cons] at hnd
    have hf := addMissingUpdate_frame svc ns s j
    have hj := hlt j (List.mem_cons_self _ _)
    have hrest : ∀ k ∈ rest,
        k < (addMissingUpdate svc ns s j).relevantPredicatesAndVariables.2.length := by
      intro k hk
      rw [hf.2.2.2.2.2]
      exact hlt k (List.mem_cons_of_mem _ hk)
    have h := ih (addMissingUpdate svc ns s j) hnd.2 hrest i
    have hstep := addMissingUpdate_getD svc ns s j i hj
    simp only [List.foldl_cons]
    refine ⟨?_, ?_⟩
    · intro hi
      by_cases hij : i = j
      · subst hij
        rw [h.2 hnd.1]
        exact hstep.1 rfl
      · have hir : i ∈ rest := by
          rcases List.mem_cons.1 hi with h1 | h1
          · exact absurd h1 hij
          · exact h1
        have := h.1 hir
        rw [hstep.2 hij] at this
        exact this
    · intro hi
      have hij : i ≠ j := fun e => hi (e ▸ List.mem_cons_self _ _)
      have hir : i ∉ rest := fun e => hi (List.mem_cons_of_mem _ e)
      rw [h.2 hir, hstep.2 hij]

theorem addMissingPredicates_lists (svc : Services Expr Bdd) (s : AbstractCommand Expr Bdd)
    (new : List Nat × List (List Nat)) (hwf : s.WellFormed) :
    ExtendsDeclared s.relevantPredicatesAndVariables.1 new.1
      (addMissingPredicates svc s new).relevantPredicatesAndVariables.1 ∧
    ∀ i, i < s.command.getNumberOfUpdates →
      ExtendsDeclared (s.relevantPredicatesAndVariables.2.getD i []) (new.2.getD i [])
        ((addMissingPredicates svc s new).relevantPredicatesAndVariables.2.getD i []) := by
  have hs := addMissingSource_frame svc s new.1
  have hlt : ∀ j ∈ List.range s.command.getNumberOfUpdates,
      j < (addMissingSource svc s new.1).relevantPredicatesAndVariables.2.length := by
    intro j hj
    rw [hs.2.2.2.2, hwf]
    exact List.mem_range.1 hj
  refine ⟨?_, ?_⟩
  · unfold addMissingPredicates
    have h1 : ∀ (idxs : List Nat) (t : AbstractCommand Expr Bdd),
        (idxs.foldl (addMissingUpdate svc new.2) t).relevantPredicatesAndVariables.1
          = t.relevantPredicatesAndVariables.1 := by
      intro idxs
      induction idxs with
      | nil => intro t; rfl
      | cons j rest ih =>
        intro t
        rw [List.foldl_cons, ih, (addMissingUpdate_frame svc new.2 t j).2.2.2.2.1]
    rw [h1]
    exact ⟨s.nextFreshVariable, rfl⟩
  · intro i hi
    have h := (addMissingUpdate_fold_getD svc new.2 (List.range s.command.getNumberOfUpdates)
      (addMissingSource svc s new.1) (List.nodup_range _) hlt i).1 (List.mem_range.2 hi)
    rw [hs.2.2.2.2] at h
    exact h

/-- C17: for every engine state with one declared successor list per update and
every relevance set, after `addMissingPredicates` every pair of the declared
source list is still in that list, and the indices of the list are exactly
the indices it had before together with those of the new source set; the
same holds for the declared successor list of every update i and the new
successor set at position i. -/
theorem addMissingPredicates_keeps_declared (svc : Services Expr Bdd)
    (s : AbstractCommand Expr Bdd) (new : List Nat × List (List Nat)) (hwf : s.WellFormed) :
    (∀ pair ∈ s.relevantPredicatesAndVariables.1,
      pair ∈ (addMissingPredicates svc s new).relevantPredicatesAndVariables.1) ∧
    (∀ n, n ∈ (addMissingPredicates svc s new).relevantPredicatesAndVariables.1.map Prod.snd ↔
      n ∈ s.relevantPredicatesAndVariables.1.map Prod.snd ∨ n ∈ new.1) ∧
    (∀ i, i < s.command.getNumberOfUpdates →
      (∀ pair ∈ s.relevantPredicatesAndVariables.2.getD i [],
        pair ∈ (addMissingPredicates svc s new).relevantPredicatesAndVariables.2.getD i []) ∧
      (∀ n, n ∈ ((addMissingPredicates svc s new).relevantPredicatesAndVariables.2.getD i []).map Prod.snd ↔
        n ∈ (s.relevantPredicatesAndVariables.2.getD i []).map Prod.snd ∨ n ∈ new.2.getD i [])) := by
  have h := addMissingPredicates_lists svc s new hwf
  exact ⟨h.1.mem_of_mem, h.1.mem_indices,
    fun i hi => ⟨(h.2 i hi).mem_of_mem, (h.2 i hi).mem_indices⟩⟩

/-- Witness of C17: the engine for `guard(y) -> x' = z` after `computeDd`, and the
relevance ({0, 1, 2}, [{1, 3}]). -/
theorem addMissingPredicates_keeps_declared_witness :
    (copyEngine [allTrue]).WellFormed ∧
    (copyEngine [allTrue]).relevantPredicatesAndVariables = ([(10, 0), (11, 1)], [[(12, 1)]]) ∧
    (addMissingPredicates (termServices ceilLog2Exact [allTrue]) (copyEngine [allTrue])
      ([0, 1, 2], [[1, 3]])).relevantPredicatesAndVariables
      = ([(10, 0), (11, 1), (13, 1), (14, 2)], [[(12, 1), (15, 3)]]) ∧
    (∀ pair ∈ (copyEngine [allTrue]).relevantPredicatesAndVariables.1,
      pair ∈ (addMissingPredicates (termServices ceilLog2Exact [allTrue]) (copyEngine [allTrue])
        ([0, 1, 2], [[1, 3]])).relevantPredicatesAndVariables.1) :=
  ⟨by rfl, by rfl, by rfl,
   (addMissingPredicates_keeps_declared (termServices ceilLog2Exact [allTrue])
      (copyEngine [allTrue]) ([0, 1, 2], [[1, 3]]) (by rfl)).1⟩

/-! ## computeDd: solver failure and the life of the cache entry -/

/-- C15 as stated fails: for a freshly constructed engine for
`guard(y) -> x' = e(x)` with two predicates over y and a solver whose enumeration
fails, `computeDd` propagates the failure, but the state after the call is not
the state before it: the declared source list and the decision-variable list
hold the two new variables. A retry finds no larger relevance set, returns
the cache entry `(bddZero, 0)` of the constructor and does not call the
enumeration again. -/
theorem computeDd_failure_not_atomic :
    (computeDd failingServices
      (AbstractCommand.create failingServices guardedCommand (guardPartition 2) 10)).2 = none ∧
    (AbstractCommand.create failingServices guardedCommand
      (guardPartition 2) 10).relevantPredicatesAndVariables = ([], [[]]) ∧
    (computeDd failingServices
      (AbstractCommand.create failingServices guardedCommand
        (guardPartition 2) 10)).1.relevantPredicatesAndVariables = ([(10, 0), (11, 1)], [[]]) ∧
    (computeDd failingServices
      (AbstractCommand.create failingServices guardedCommand
        (guardPartition 2) 10)).1.decisionVariables = [10, 11] ∧
    (computeDd failingServices
      (computeDd failingServices
        (AbstractCommand.create failingServices guardedCommand (guardPartition 2) 10)).1).2
      = some (DdTerm.zero, 0) ∧
    (computeDd failingServices
      (computeDd failingServices
        (AbstractCommand.create failingServices guardedCommand (guardPartition 2) 10)).1).1.allSatCalls
      = (computeDd failingServices
        (AbstractCommand.create failingServices guardedCommand (guardPartition 2) 10)).1.allSatCalls ∧
    (computeDd failingServices
      (AbstractCommand.create failingServices guardedCommand
        (guardPartition 2) 10)).1.relevantPredicatesAndVariables
      ≠ (AbstractCommand.create failingServices guardedCommand
        (guardPartition 2) 10).relevantPredicatesAndVariables := by
  refine ⟨by rfl, by rfl, by rfl, by rfl, by rfl, by rfl, by decide⟩

/-- C15, amended: if the enumeration fails during a rebuild, `computeDd` propagates
the failure and leaves the cache entry as it was before the call; the declared
lists, the decision-variable list and the solver assertions are those that
`addMissingPredicates` produced. A retry on that state takes the cached path:
it returns the old cache entry and changes nothing. -/
theorem computeDd_failure [DecidableEq Bdd] (svc : Services Expr Bdd)
    (s : AbstractCommand Expr Bdd) (hwf : s.WellFormed)
    (hch : relevantPredicatesChanged s (computeRelevantPredicates svc s) = true)
    (hfail : svc.allSat (addMissingPredicates svc s (computeRelevantPredicates svc s)).assertions
      (addMissingPredicates svc s (computeRelevantPredicates svc s)).decisionVariables = none) :
    (computeDd svc s).2 = none ∧
    (computeDd svc s).1.cachedDd = s.cachedDd ∧
    (computeDd svc s).1.relevantPredicatesAndVariables
      = (addMissingPredicates svc s (computeRelevantPredicates svc s)).relevantPredicatesAndVariables ∧
    (computeDd svc s).1.decisionVariables
      = (addMissingPredicates svc s (computeRelevantPredicates svc s)).decisionVariables ∧
    (computeDd svc s).1.assertions
      = (addMissingPredicates svc s (computeRelevantPredicates svc s)).assertions ∧
    computeDd svc (computeDd svc s).1 = ((computeDd svc s).1, some s.cachedDd) := by
  have hsets := computeRelevantPredicates_isIndexSet svc s
  have hfr := addMissingPredicates_frame svc s (computeRelevantPredicates svc s) hwf hsets.2
  have hno := relevantPredicatesChanged_addMissingPredicates svc s
    (computeRelevantPredicates svc s) hwf hsets.1 hsets.2
  have e : computeDd svc s =
      ({ addMissingPredicates svc s (computeRelevantPredicates svc s) with
          allSatCalls := (addMissingPredicates svc s (computeRelevantPredicates svc s)).allSatCalls + 1 },
        none) := by
    simp [computeDd, hch, hfail]
  rw [e]
  refine ⟨rfl, hfr.2.2.1, rfl, rfl, rfl, ?_⟩
  simp only
  have hrel : computeRelevantPredicates svc
      { addMissingPredicates svc s (computeRelevantPredicates svc s) with
          allSatCalls := (addMissingPredicates svc s (computeRelevantPredicates svc s)).allSatCalls + 1 }
      = computeRelevantPredicates svc s :=
    computeRelevantPredicates_congr svc s _ hfr.1 hfr.2.1
  have hch2 : relevantPredicatesChanged
      { addMissingPredicates svc s (computeRelevantPredicates svc s) with
          allSatCalls := (addMissingPredicates svc s (computeRelevantPredicates svc s)).allSatCalls + 1 }
      (computeRelevantPredicates svc s) = false :=
    (relevantPredicatesChanged_congr
      (addMissingPredicates svc s (computeRelevantPredicates svc s)) _ _ rfl rfl).trans hno
  rw [computeDd_cached svc _ (by rw [hrel]; exact hch2)]
  simp only [hfr.2.2.1]

/-- Witness of C15, amended: the freshly constructed engine for
`guard(y) -> x' = e(x)` with two predicates over y and a failing solver. -/
theorem computeDd_failure_witness :
    (AbstractCommand.create failingServices guardedCommand (guardPartition 2) 10).WellFormed ∧
    (computeDd failingServices
      (AbstractCommand.create failingServices guardedCommand (guardPartition 2) 10)).2 = none ∧
    (computeDd failingServices
      (AbstractCommand.create failingServices guardedCommand (guardPartition 2) 10)).1.cachedDd
      = (DdTerm.zero, 0) :=
  ⟨by rfl,
   (computeDd_failure failingServices
      (AbstractCommand.create failingServices guardedCommand (guardPartition 2) 10)
      (by rfl) (by rfl) (by rfl)).1,
   (computeDd_failure failingServices
      (AbstractCommand.create failingServices guardedCommand (guardPartition 2) 10)
      (by rfl) (by rfl) (by rfl)).2.1⟩

/-- C16: a freshly constructed engine holds the cache entry `(bddZero, 0)` and one
empty declared successor list per update. Whenever `computeDd` returns a pair,
on the cached path as well as on the rebuild path, that pair is the cache
entry held after the call; on the cached path the entry, and the whole state,
is the one before the call. -/
theorem computeDd_cache_lifecycle [DecidableEq Bdd] (svc : Services Expr Bdd)
    (command : Command Expr) (variablePartition : VariablePartition) (fresh : Nat)
    (s : AbstractCommand Expr Bdd) (r : Bdd × Nat) (hr : (computeDd svc s).2 = some r) :
    (AbstractCommand.create svc command variablePartition fresh).cachedDd
      = (svc.ddInformation.bddZero, 0) ∧
    (AbstractCommand.create svc command variablePartition fresh).relevantPredicatesAndVariables.2
      = List.replicate command.getNumberOfUpdates [] ∧
    (computeDd svc s).1.cachedDd = r ∧
    (relevantPredicatesChanged s (computeRelevantPredicates svc s) = false →
      (computeDd svc s).1 = s ∧ r = s.cachedDd) := by
  refine ⟨rfl, rfl, ?_, ?_⟩
  · cases hch : relevantPredicatesChanged s (computeRelevantPredicates svc s) with
    | false =>
      rw [computeDd_cached svc s hch] at hr ⊢
      simpa using hr
    | true =>
      cases hm : svc.allSat (addMissingPredicates svc s (computeRelevantPredicates svc s)).assertions
          (addMissingPredicates svc s (computeRelevantPredicates svc s)).decisionVariables with
      | none => simp [computeDd, hch, hm] at hr
      | some models =>
        simp only [computeDd, hch, hm] at hr ⊢
        simp only [Bool.not_true, Bool.false_eq_true, if_false, Option.some.injEq] at hr ⊢
        exact hr
  · intro hch
    rw [computeDd_cached svc s hch] at hr ⊢
    exact ⟨rfl, by simpa using hr.symm⟩

/-- Witness of C16: the freshly constructed engine for `guard(y) -> x' = z` with a
solver that enumerates one model; the call rebuilds and caches what it
returns. -/
theorem computeDd_cache_lifecycle_witness :
    (computeDd (termServices ceilLog2Exact [allTrue])
      (AbstractCommand.create (termServices ceilLog2Exact [allTrue]) copyCommand copyPartition 10)).2
      = some ((copyEngine [allTrue]).cachedDd) ∧
    (copyEngine [allTrue]).cachedDd.2 = 0 ∧
    (AbstractCommand.create (termServices ceilLog2Exact [allTrue]) copyCommand
      copyPartition 10).relevantPredicatesAndVariables.2 = [[]] :=
  ⟨by rfl, by rfl,
   (computeDd_cache_lifecycle (termServices ceilLog2Exact [allTrue]) copyCommand copyPartition 10
      (AbstractCommand.create (termServices ceilLog2Exact [allTrue]) copyCommand copyPartition 10)
      _ (by rfl)).2.1⟩

/-! ## Independent symmetries of a fault tree -/

/-- C20: for the groups `1 -> [[1, 2]]` and `5 -> [[5, 6]]`, which have one class
each, the specified order puts the key 1 before the key 5 (the first element
1 is lower than 5), but the comparator of the constructor returns false for
(1, 5) as well as for (5, 1): its last operand compares the first element of
`groups.at(left)` with itself. -/
theorem sortedGroupsLess_ignores_first_element :
    specGroupsLess [(1, [[1, 2]]), (5, [[5, 6]])] 1 5 = some true ∧
    sortedGroupsLess [(1, [[1, 2]]), (5, [[5, 6]])] 1 5 = some false ∧
    sortedGroupsLess [(1, [[1, 2]]), (5, [[5, 6]])] 5 1 = some false := by
  refine ⟨by decide, by decide, by decide⟩

/-! ## Sortedness of the declared lists, and the fresh engine -/

theorem sortByIndex_sorted (l : List (Variable × Nat)) : (sortByIndex l).Sorted indexLe :=
  @List.sorted_insertionSort _ indexLe _ ⟨fun a b => Nat.le_total a.2 b.2⟩
    ⟨fun _ _ _ hab hbc => Nat.le_trans hab hbc⟩ l

theorem ExtendsDeclared.sorted {old : List (Variable × Nat)} {new : List Nat}
    {l : List (Variable × Nat)} (h : ExtendsDeclared old new l) : l.Sorted indexLe := by
  obtain ⟨fresh, rfl⟩ := h
  exact sortByIndex_sorted _

theorem addMissingPredicates_length (svc : Services Expr Bdd) (s : AbstractCommand Expr Bdd)
    (new : List Nat × List (List Nat)) :
    (addMissingPredicates svc s new).relevantPredicatesAndVariables.2.length
      = s.relevantPredicatesAndVariables.2.length ∧
    (addMissingPredicates svc s new).command = s.command := by
  have h1 : ∀ (idxs : List Nat) (t : AbstractCommand Expr Bdd),
      (idxs.foldl (addMissingUpdate svc new.2) t).relevantPredicatesAndVariables.2.length
        = t.relevantPredicatesAndVariables.2.length ∧
      (idxs.foldl (addMissingUpdate svc new.2) t).command = t.command := by
    intro idxs
    induction idxs with
    | nil => intro t; exact ⟨rfl, rfl⟩
    | cons j rest ih =>
      intro t
      have hf := addMissingUpdate_frame svc new.2 t j
      rw [List.foldl_cons]
      exact ⟨(ih _).1.trans hf.2.2.2.2.2, (ih _).2.trans hf.1⟩
  unfold addMissingPredicates
  have hs := addMissingSource_frame svc s new.1
  exact ⟨(h1 _ _).1.trans (by rw [hs.2.2.2.2]), (h1 _ _).2.trans hs.1⟩

/-- C21: for every engine state with one declared successor list per update and
every relevance set, after `addMissingPredicates` the declared source list and
every declared successor list are sorted in non-decreasing order of the
predicate index. -/
theorem addMissingPredicates_sorted (svc : Services Expr Bdd) (s : AbstractCommand Expr Bdd)
    (new : List Nat × List (List Nat)) (hwf : s.WellFormed) :
    (addMissingPredicates svc s new).relevantPredicatesAndVariables.1.Sorted indexLe ∧
    ∀ l ∈ (addMissingPredicates svc s new).relevantPredicatesAndVariables.2, l.Sorted indexLe := by
  have h := addMissingPredicates_lists svc s new hwf
  refine ⟨h.1.sorted, ?_⟩
  intro l hl
  obtain ⟨i, hi, rfl⟩ := List.getElem_of_mem hl
  have hlen := (addMissingPredicates_length svc s new).1
  have hi2 : i < s.command.getNumberOfUpdates := by
    rw [← hwf, ← hlen]
    exact hi
  have hs := (h.2 i hi2).sorted
  rw [List.getD_eq_getElem?_getD, List.getElem?_eq_getElem hi] at hs
  exact hs

/-- Witness of C21: the engine for `guard(y) -> x' = z` after `computeDd`, and the
relevance ({0, 1, 2}, [{1, 3}]). -/
theorem addMissingPredicates_sorted_witness :
    (copyEngine [allTrue]).WellFormed ∧
    (addMissingPredicates (termServices ceilLog2Exact [allTrue]) (copyEngine [allTrue])
      ([0, 1, 2], [[1, 3]])).relevantPredicatesAndVariables
      = ([(10, 0), (11, 1), (13, 1), (14, 2)], [[(12, 1), (15, 3)]]) ∧
    (addMissingPredicates (termServices ceilLog2Exact [allTrue]) (copyEngine [allTrue])
      ([0, 1, 2], [[1, 3]])).relevantPredicatesAndVariables.1.Sorted indexLe :=
  ⟨by rfl, by rfl,
   (addMissingPredicates_sorted (termServices ceilLog2Exact [allTrue]) (copyEngine [allTrue])
      ([0, 1, 2], [[1, 3]]) (by rfl)).1⟩

/-- C26: if, on a freshly constructed engine, `computeRelevantPredicates()` yields
the empty source set and the empty set for every update, `computeDd` returns
`(bddZero, 0)` and leaves the engine as constructed: no solver assertion is
added, no variable is declared and the enumeration is not called. -/
theorem computeDd_fresh_empty [DecidableEq Bdd] (svc : Services Expr Bdd)
    (command : Command Expr) (variablePartition : VariablePartition) (fresh : Nat)
    (h1 : (computeRelevantPredicates svc
      (AbstractCommand.create svc command variablePartition fresh)).1 = [])
    (h2 : ∀ l ∈ (computeRelevantPredicates svc
      (AbstractCommand.create svc command variablePartition fresh)).2, l = []) :
    computeDd svc (AbstractCommand.create svc command variablePartition fresh)
      = (AbstractCommand.create svc command variablePartition fresh,
         some (svc.ddInformation.bddZero, 0)) ∧
    (computeDd svc (AbstractCommand.create svc command variablePartition fresh)).1.assertions
      = (AbstractCommand.create svc command variablePartition fresh).assertions ∧
    (computeDd svc (AbstractCommand.create svc command variablePartition fresh)).1.allSatCalls = 0 := by
  have hch : relevantPredicatesChanged (AbstractCommand.create svc command variablePartition fresh)
      (computeRelevantPredicates svc (AbstractCommand.create svc command variablePartition fresh))
      = false := by
    unfold relevantPredicatesChanged
    rw [h1]
    simp only [List.length_nil, gt_iff_lt]
    rw [if_neg (Nat.not_lt_zero _), List.any_eq_false]
    intro i _
    have hnil : (computeRelevantPredicates svc
        (AbstractCommand.create svc command variablePartition fresh)).2.getD i [] = [] := by
      rw [List.getD_eq_getElem?_getD]
      cases hget : (computeRelevantPredicates svc
          (AbstractCommand.create svc command variablePartition fresh)).2[i]? with
      | none => rfl
      | some l => exact h2 l (List.getElem?_mem hget)
    rw [hnil]
    simp
  have e := computeDd_cached svc _ hch
  rw [e]
  exact ⟨rfl, rfl, rfl⟩

/-- Witness of C26: the command `guard(y) -> x' = e(x)` over a partition without any
predicate. -/
theorem computeDd_fresh_empty_witness :
    computeRelevantPredicates (termServices ceilLog2Exact [allTrue]) (guardEngine0 0) = ([], [[]]) ∧
    computeDd (termServices ceilLog2Exact [allTrue])
      (AbstractCommand.create (termServices ceilLog2Exact [allTrue]) guardedCommand (guardPartition 0) 10)
      = (AbstractCommand.create (termServices ceilLog2Exact [allTrue]) guardedCommand (guardPartition 0) 10,
         some (DdTerm.zero, 0)) :=
  ⟨by rfl,
   (computeDd_fresh_empty (termServices ceilLog2Exact [allTrue]) guardedCommand (guardPartition 0) 10
      (by rfl) (by decide)).1⟩

/-! ## The identity merge of getDistributionBdd -/

theorem identityLoop_eq_fold (dd : AbstractionDdInformation Bdd)
    (first second : List (Variable × Nat)) :
    ∀ result : Bdd, identityLoop dd first second result
      = (identityIndices first second).foldl
          (fun r p => dd.and r (dd.predicateIdentities p)) result := by
  induction first generalizing second with
  | nil => intro result; simp [identityLoop, identityIndices]
  | cons f fr ih =>
    intro result
    cases second with
    | nil => simp [identityLoop, identityIndices, ih]
    | cons s sr =>
      by_cases h : f.2 = s.2
      · simp [identityLoop, identityIndices, h, ih]
      · simp [identityLoop, identityIndices, h, ih]

theorem identityIndices_eq_spec (first : List (Variable × Nat)) :
    ∀ second : List (Variable × Nat),
      first.Pairwise (fun a b => a.2 < b.2) → second.Pairwise (fun a b => a.2 < b.2) →
      (∀ n ∈ second.map Prod.snd, n ∈ first.map Prod.snd) →
      identityIndices first second = specIdentityIndices first second := by
  induction first with
  | nil => intro second _ _ _; simp [identityIndices, specIdentityIndices]
  | cons f fr ih =>
    intro second h1 h2 hsub
    rw [List.pairwise_cons] at h1
    cases second with
    | nil =>
      have h := ih [] h1.2 List.Pairwise.nil (by simp)
      have hm : indexMissing [] f.2 = true := by simp [indexMissing]
      simp only [identityIndices, h, specIdentityIndices, List.map_cons, List.filter_cons, hm,
        if_true]
    | cons s sr =>
      rw [List.pairwise_cons] at h2
      have hs_mem : s.2 = f.2 ∨ s.2 ∈ fr.map Prod.snd := by
        have := hsub s.2 (by simp)
        simpa using this
      have hfr_gt : ∀ n ∈ fr.map Prod.snd, f.2 < n := by
        intro n hn
        obtain ⟨b, hb, rfl⟩ := List.mem_map.1 hn
        exact h1.1 b hb
      have hsr_gt : ∀ n ∈ sr.map Prod.snd, s.2 < n := by
        intro n hn
        obtain ⟨b, hb, rfl⟩ := List.mem_map.1 hn
        exact h2.1 b hb
      by_cases h : f.2 = s.2
      · have hsub2 : ∀ n ∈ sr.map Prod.snd, n ∈ fr.map Prod.snd := by
          intro n hn
          have hlt := hsr_gt n hn
          have := hsub n (by simp only [List.map_cons, List.mem_cons]; exact Or.inr hn)
          simp only [List.map_cons, List.mem_cons] at this
          rcases this with h3 | h3
          · omega
          · exact h3
        have hih := ih sr h1.2 h2.2 hsub2
        have hm : indexMissing (s :: sr) f.2 = false := by simp [indexMissing, h]
        have hcongr : (fr.map Prod.snd).filter (indexMissing (s :: sr))
            = (fr.map Prod.snd).filter (indexMissing sr) := by
          apply List.filter_congr
          intro x hx
          have hlt := hfr_gt x hx
          have hne : x ≠ s.2 := by omega
          simp [indexMissing, hne]
        have hm2 : indexMissing (s :: sr) s.2 = false := by simp [indexMissing]
        simp only [identityIndices, h, ne_eq, not_true_eq_false, if_false, hih,
          specIdentityIndices, List.map_cons, List.filter_cons, hm2, hcongr]
        simp
      · have hlt : f.2 < s.2 := by
          rcases hs_mem with h3 | h3
          · exact absurd h3.symm h
          · exact hfr_gt _ h3
        have hnotin : f.2 ∉ (s :: sr).map Prod.snd := by
          simp only [List.map_cons, List.mem_cons, not_or]
          refine ⟨h, ?_⟩
          intro hmem
          have := hsr_gt _ hmem
          omega
        have hsub2 : ∀ n ∈ (s :: sr).map Prod.snd, n ∈ fr.map Prod.snd := by
          intro n hn
          have := hsub n hn
          simp only [List.map_cons, List.mem_cons] at this
          rcases this with h3 | h3
          · exact absurd (h3 ▸ hn) hnotin
          · exact h3
        have hih := ih (s :: sr) h1.2 (List.pairwise_cons.2 h2) hsub2
        have hm : indexMissing (s :: sr) f.2 = true := by
          simp only [indexMissing, decide_eq_true_eq]
          exact hnotin
        simp only [identityIndices, ne_eq, h, not_false_eq_true, if_true, hih,
          specIdentityIndices, List.map_cons, List.filter_cons, hm]

/-- C25: for a declared source list and a declared successor list that are both
strictly ascending by predicate index, with every index of the successor list
in the source list, the loop of `getDistributionBdd` conjoins
`predicateIdentities[p]` to `result` for exactly the source indices p that do
not occur in the successor list, once each and in the order of the source
list. -/
theorem identityLoop_identities (dd : AbstractionDdInformation Bdd)
    (source successors : List (Variable × Nat)) (result : Bdd)
    (hsource : source.Pairwise (fun a b => a.2 < b.2))
    (hsuccessors : successors.Pairwise (fun a b => a.2 < b.2))
    (hsub : ∀ n ∈ successors.map Prod.snd, n ∈ source.map Prod.snd) :
    identityLoop dd source successors result
      = (specIdentityIndices source successors).foldl
          (fun r p => dd.and r (dd.predicateIdentities p)) result ∧
    identityIndices source successors = specIdentityIndices source successors ∧
    ∀ p, p ∈ identityIndices source successors ↔
      p ∈ source.map Prod.snd ∧ p ∉ successors.map Prod.snd := by
  have h := identityIndices_eq_spec source successors hsource hsuccessors hsub
  refine ⟨?_, h, ?_⟩
  · rw [identityLoop_eq_fold, h]
  · intro p
    rw [h]
    simp [specIdentityIndices, indexMissing]

/-- Witness of C25: the source list with the indices 0, 1, 2 and the successor list
with the index 1; the identities of 0 and 2 are conjoined. -/
theorem identityLoop_identities_witness :
    identityLoop termDd [(10, 0), (11, 1), (12, 2)] [(13, 1)] DdTerm.zero
      = DdTerm.and (DdTerm.and DdTerm.zero (DdTerm.identity 0)) (DdTerm.identity 2) ∧
    identityIndices [(10, 0), (11, 1), (12, 2)] [(13, 1)] = [0, 2] :=
  ⟨(identityLoop_identities termDd [(10, 0), (11, 1), (12, 2)] [(13, 1)] DdTerm.zero
      (by decide) (by decide) (by decide)).1.trans (by rfl),
   (identityLoop_identities termDd [(10, 0), (11, 1), (12, 2)] [(13, 1)] DdTerm.zero
      (by decide) (by decide) (by decide)).2.1.trans (by rfl)⟩

/-! ## computeDd: grouping the models -/

theorem allSatLoop_allSatHandler [DecidableEq Bdd] (svc : Services Expr Bdd)
    (s : AbstractCommand Expr Bdd) (models : List Model) :
    ∀ acc : List (Bdd × List Bdd), allSatLoop (allSatHandler svc s) acc models
      = models.foldl
          (fun m model => mapPushBack (getSourceStateBdd svc s model)
            (getDistributionBdd svc s model) m) acc := by
  induction models with
  | nil => intro acc; rfl
  | cons m ms ih =>
    intro acc
    simp only [allSatLoop, allSatHandler, if_true, List.foldl_cons]
    exact ih _

theorem mapGroup_mapPushBack_ne [DecidableEq Bdd] (key other value : Bdd)
    (map : List (Bdd × List Bdd)) (h : key ≠ other) :
    mapGroup other (mapPushBack key value map) = mapGroup other map := by
  induction map with
  | nil => simp [mapGroup, mapPushBack, h]
  | cons entry rest ih =>
    by_cases h1 : entry.1 = key
    · have h2 : entry.1 ≠ other := fun e => h (h1.symm.trans e)
      simp [mapGroup, mapPushBack, h1, h2, h]
    · by_cases h2 : entry.1 = other
      · have h3 : ¬ other = key := fun e => h e.symm
        simp [mapGroup, mapPushBack, h2, h3]
      · simp [mapGroup, mapPushBack, h1, h2, ih]

theorem mapPushBack_sizes [DecidableEq Bdd] (key value : Bdd) (map : List (Bdd × List Bdd)) :
    ((mapPushBack key value map).map (fun e => e.2.length)).sum
      = (map.map (fun e => e.2.length)).sum + 1 := by
  induction map with
  | nil => simp [mapPushBack]
  | cons entry rest ih =>
    by_cases h1 : entry.1 = key
    · simp [mapPushBack, h1]
      omega
    · simp [mapPushBack, h1, ih]
      omega

theorem mem_keys_mapPushBack [DecidableEq Bdd] (key value k : Bdd)
    (map : List (Bdd × List Bdd)) :
    k ∈ (mapPushBack key value map).map Prod.fst ↔ k = key ∨ k ∈ map.map Prod.fst := by
  induction map with
  | nil => simp [mapPushBack]
  | cons entry rest ih =>
    by_cases h1 : entry.1 = key
    · simp only [mapPushBack, h1, if_true, List.map_cons, List.mem_cons]
      tauto
    · simp only [mapPushBack, h1, if_false, List.map_cons, List.mem_cons, ih]
      tauto

theorem mapPushBack_keys_nodup [DecidableEq Bdd] (key value : Bdd)
    (map : List (Bdd × List Bdd)) (h : (map.map Prod.fst).Nodup) :
    ((mapPushBack key value map).map Prod.fst).Nodup := by
  induction map with
  | nil => simp [mapPushBack]
  | cons entry rest ih =>
    rw [List.map_cons, List.nodup_cons] at h
    by_cases h1 : entry.1 = key
    · simp only [mapPushBack, h1, if_true, List.map_cons, List.nodup_cons]
      exact ⟨h1 ▸ h.1, h.2⟩
    · simp only [mapPushBack, h1, if_false, List.map_cons, List.nodup_cons]
      refine ⟨?_, ih h.2⟩
      rw [mem_keys_mapPushBack]
      rintro (h2 | h2)
      · exact h1 h2
      · exact h.1 h2

theorem mapGroup_of_mem [DecidableEq Bdd] (map : List (Bdd × List Bdd))
    (h : (map.map Prod.fst).Nodup) : ∀ e ∈ map, mapGroup e.1 map = e.2 := by
  induction map with
  | nil => intro e he; cases he
  | cons entry rest ih =>
    rw [List.map_cons, List.nodup_cons] at h
    intro e he
    rcases List.mem_cons.1 he with rfl | he
    · simp [mapGroup]
    · have hne : entry.1 ≠ e.1 := fun heq => h.1 (heq ▸ List.mem_map_of_mem Prod.fst he)
      simp only [mapGroup, hne, if_false]
      exact ih h.2 e he

theorem maximalNumberOfChoices_fold (map : List (Bdd × List Bdd)) :
    ∀ init : Nat,
      init ≤ map.foldl (fun m p => max m p.2.length) init ∧
      (∀ e ∈ map, e.2.length ≤ map.foldl (fun m p => max m p.2.length) init) ∧
      (map.foldl (fun m p => max m p.2.length) init = init ∨
        ∃ e ∈ map, e.2.length = map.foldl (fun m p => max m p.2.length) init) := by
  induction map with
  | nil => intro init; simp
  | cons entry rest ih =>
    intro init
    have h := ih (max init entry.2.length)
    simp only [List.foldl_cons]
    refine ⟨Nat.le_trans (Nat.le_max_left _ _) h.1, ?_, ?_⟩
    · intro e he
      rcases List.mem_cons.1 he with rfl | he
      · exact Nat.le_trans (Nat.le_max_right _ _) h.1
      · exact h.2.1 e he
    · rcases h.2.2 with h3 | ⟨e, he, h3⟩
      · by_cases hle : entry.2.length ≤ init
        · left
          rw [h3]
          exact Nat.max_eq_left hle
        · right
          refine ⟨entry, List.mem_cons_self _ _, ?_⟩
          rw [h3]
          exact (Nat.max_eq_right (by omega)).symm
      · exact Or.inr ⟨e, List.mem_cons_of_mem _ he, h3⟩

theorem sourceToDistributionsMap_fold [DecidableEq Bdd] (svc : Services Expr Bdd)
    (s : AbstractCommand Expr Bdd) (models : List Model) :
    ∀ acc : List (Bdd × List Bdd), (acc.map Prod.fst).Nodup →
      (∀ key, mapGroup key (models.foldl
          (fun m model => mapPushBack (getSourceStateBdd svc s model)
            (getDistributionBdd svc s model) m) acc)
        = mapGroup key acc
          ++ (models.filter (hasSourceState svc s key)).map (getDistributionBdd svc s)) ∧
      ((models.foldl
          (fun m model => mapPushBack (getSourceStateBdd svc s model)
            (getDistributionBdd svc s model) m) acc).map (fun e => e.2.length)).sum
        = (acc.map (fun e => e.2.length)).sum + models.length ∧
      ((models.foldl
          (fun m model => mapPushBack (getSourceStateBdd svc s model)
            (getDistributionBdd svc s model) m) acc).map Prod.fst).Nodup := by
  induction models with
  | nil => intro acc hacc; simp [hacc]
  | cons m ms ih =>
    intro acc hacc
    have h := ih (mapPushBack (getSourceStateBdd svc s m) (getDistributionBdd svc s m) acc)
      (mapPushBack_keys_nodup _ _ acc hacc)
    simp only [List.foldl_cons]
    refine ⟨?_, ?_, h.2.2⟩
    · intro key
      rw [h.1 key]
      by_cases hk : getSourceStateBdd svc s m = key
      · have hf : hasSourceState svc s key m = true := by simp [hasSourceState, hk]
        rw [List.filter_cons, hf, if_pos rfl, ← hk, mapGroup_mapPushBack_self]
        simp
      · have hf : hasSourceState svc s key m = false := by simp [hasSourceState, hk]
        rw [List.filter_cons, hf, mapGroup_mapPushBack_ne _ _ _ _ hk]
        simp
    · rw [h.2.1, mapPushBack_sizes, List.length_cons]
      omega

/-- C24: for every finite sequence of enumerated models, the handler of
`computeDd` never asks to stop, and the map it builds has one group per
source-state term: the group of a key holds `getDistributionBdd(model)` for
exactly the models with `getSourceStateBdd(model)` equal to the key, in
enumeration order. The group sizes sum to the number of models, and
`maximalNumberOfChoices` is the largest group size (0 for no model). -/
theorem computeDd_grouping [DecidableEq Bdd] (svc : Services Expr Bdd)
    (s : AbstractCommand Expr Bdd) (models : List Model) :
    (∀ acc model, (allSatHandler svc s acc model).2 = true) ∧
    (∀ key, mapGroup key (sourceToDistributionsMapOf svc s models)
      = (models.filter (hasSourceState svc s key)).map (getDistributionBdd svc s)) ∧
    ((sourceToDistributionsMapOf svc s models).map Prod.fst).Nodup ∧
    (∀ e ∈ sourceToDistributionsMapOf svc s models,
      e.2 = mapGroup e.1 (sourceToDistributionsMapOf svc s models)) ∧
    ((sourceToDistributionsMapOf svc s models).map (fun e => e.2.length)).sum = models.length ∧
    (∀ e ∈ sourceToDistributionsMapOf svc s models,
      e.2.length ≤ maximalNumberOfChoices (sourceToDistributionsMapOf svc s models)) ∧
    (maximalNumberOfChoices (sourceToDistributionsMapOf svc s models) = 0 ∨
      ∃ e ∈ sourceToDistributionsMapOf svc s models,
        e.2.length = maximalNumberOfChoices (sourceToDistributionsMapOf svc s models)) := by
  have hfold := sourceToDistributionsMap_fold svc s models [] (by simp)
  have hmax := maximalNumberOfChoices_fold (sourceToDistributionsMapOf svc s models) 0
  unfold sourceToDistributionsMapOf at *
  rw [allSatLoop_allSatHandler] at *
  refine ⟨fun _ _ => rfl, ?_, hfold.2.2, ?_, ?_, hmax.2.1, hmax.2.2⟩
  · intro key
    rw [hfold.1 key]
    simp [mapGroup]
  · intro e he
    exact (mapGroup_of_mem _ hfold.2.2 e he).symm
  · rw [hfold.2.1]
    simp

/-! ## Solver assertions and decision variables of addMissingPredicates -/

theorem foldl_append_singleton {α β : Type} (g : α → β) (l : List α) :
    ∀ init : List β, l.foldl (fun acc e => acc ++ [g e]) init = init ++ l.map g := by
  induction l with
  | nil => intro init; simp
  | cons x xs ih => intro init; simp [ih]

theorem addMissingSource_eq (svc : Services Expr Bdd) (s : AbstractCommand Expr Bdd)
    (newSource : List Nat) :
    (addMissingSource svc s newSource).assertions
      = s.assertions
        ++ (declareNewVariables s.nextFreshVariable s.relevantPredicatesAndVariables.1
            newSource).1.map (sourceAssertion svc) ∧
    (addMissingSource svc s newSource).decisionVariables
      = s.decisionVariables
        ++ (declareNewVariables s.nextFreshVariable s.relevantPredicatesAndVariables.1
            newSource).1.map Prod.fst ∧
    (addMissingSource svc s newSource).relevantPredicatesAndVariables
      = (sortByIndex (s.relevantPredicatesAndVariables.1
          ++ (declareNewVariables s.nextFreshVariable s.relevantPredicatesAndVariables.1
            newSource).1), s.relevantPredicatesAndVariables.2) := by
  refine ⟨?_, ?_, rfl⟩
  · simp only [addMissingSource]
    exact foldl_append_singleton (sourceAssertion svc) _ _
  · simp only [addMissingSource]
    exact foldl_append_singleton Prod.fst _ _

theorem addMissingUpdate_eq (svc : Services Expr Bdd) (ns : List (List Nat))
    (s : AbstractCommand Expr Bdd) (j : Nat) :
    (addMissingUpdate svc ns s j).assertions
      = s.assertions
        ++ (declareNewVariables s.nextFreshVariable (s.relevantPredicatesAndVariables.2.getD j [])
            (ns.getD j [])).1.map (successorAssertion svc s.command j) ∧
    (addMissingUpdate svc ns s j).decisionVariables
      = s.decisionVariables
        ++ (declareNewVariables s.nextFreshVariable (s.relevantPredicatesAndVariables.2.getD j [])
            (ns.getD j [])).1.map Prod.fst ∧
    (addMissingUpdate svc ns s j).relevantPredicatesAndVariables
      = (s.relevantPredicatesAndVariables.1,
         s.relevantPredicatesAndVariables.2.set j
          (sortByIndex (s.relevantPredicatesAndVariables.2.getD j []
            ++ (declareNewVariables s.nextFreshVariable
              (s.relevantPredicatesAndVariables.2.getD j []) (ns.getD j [])).1))) := by
  refine ⟨?_, ?_, rfl⟩
  · simp only [addMissingUpdate]
    exact foldl_append_singleton (successorAssertion svc s.command j) _ _
  · simp only [addMissingUpdate]
    exact foldl_append_singleton Prod.fst _ _

theorem addMissingUpdate_getD_self (svc : Services Expr Bdd) (ns : List (List Nat))
    (s : AbstractCommand Expr Bdd) (j : Nat)
    (hlt : j < s.relevantPredicatesAndVariables.2.length) :
    (addMissingUpdate svc ns s j).relevantPredicatesAndVariables.2.getD j []
      = sortByIndex (s.relevantPredicatesAndVariables.2.getD j []
          ++ (declareNewVariables s.nextFreshVariable
            (s.relevantPredicatesAndVariables.2.getD j []) (ns.getD j [])).1) := by
  rw [(addMissingUpdate_eq svc ns s j).2.2]
  simp only
  rw [List.getD_eq_getElem?_getD (List.set _ _ _), List.getElem?_set]
  simp [hlt]

theorem addMissingUpdate_fold_trace (svc : Services Expr Bdd) (ns : List (List Nat))
    (idxs : List Nat) :
    ∀ s : AbstractCommand Expr Bdd, idxs.Nodup →
      (∀ j ∈ idxs, j < s.relevantPredicatesAndVariables.2.length) →
      ∃ f : Nat → List (Variable × Nat),
        (idxs.foldl (addMissingUpdate svc ns) s).assertions
          = s.assertions
            ++ (idxs.map (fun i => (f i).map (successorAssertion svc s.command i))).flatten ∧
        (idxs.foldl (addMissingUpdate svc ns) s).decisionVariables
          = s.decisionVariables ++ (idxs.map (fun i => (f i).map Prod.fst)).flatten ∧
        (∀ i ∈ idxs, (idxs.foldl (addMissingUpdate svc ns) s).relevantPredicatesAndVariables.2.getD i []
          = sortByIndex (s.relevantPredicatesAndVariables.2.getD i [] ++ f i)) ∧
        (∀ i ∈ idxs, ∃ fresh, f i = (declareNewVariables fresh
          (s.relevantPredicatesAndVariables.2.getD i []) (ns.getD i [])).1) := by
  induction idxs with
  | nil => intro s _ _; exact ⟨fun _ => [], by simp⟩
  | cons j rest ih =>
    intro s hnd hlt
    rw [List.nodup_cons] at hnd
    have hf := addMissingUpdate_frame svc ns s j
    have hj := hlt j (List.mem_cons_self _ _)
    have hrest : ∀ k ∈ rest,
        k < (addMissingUpdate svc ns s j).relevantPredicatesAndVariables.2.length := by
      intro k hk
      rw [hf.2.2.2.2.2]
      exact hlt k (List.mem_cons_of_mem _ hk)
    obtain ⟨f', h1, h2, h3, h4⟩ := ih (addMissingUpdate svc ns s j) hnd.2 hrest
    have heq := addMissingUpdate_eq svc ns s j
    have hother : ∀ i ∈ rest,
        (addMissingUpdate svc ns s j).relevantPredicatesAndVariables.2.getD i []
          = s.relevantPredicatesAndVariables.2.getD i [] := by
      intro i hi
      have hij : i ≠ j := fun e => hnd.1 (e ▸ hi)
      exact (addMissingUpdate_getD svc ns s j i hj).2 hij
    refine ⟨fun i => if i = j then (declareNewVariables s.nextFreshVariable
        (s.relevantPredicatesAndVariables.2.getD j []) (ns.getD j [])).1 else f' i, ?_, ?_, ?_, ?_⟩
    · have hmap : rest.map (fun i => (if i = j then (declareNewVariables s.nextFreshVariable
            (s.relevantPredicatesAndVariables.2.getD j []) (ns.getD j [])).1 else f' i).map
            (successorAssertion svc s.command i))
          = rest.map (fun i => (f' i).map (successorAssertion svc s.command i)) := by
        apply List.map_congr_left
        intro i hi
        have hij : i ≠ j := fun e => hnd.1 (e ▸ hi)
        simp [hij]
      simp only [List.foldl_cons, List.map_cons, List.flatten_cons, if_true, hmap]
      rw [h1, heq.1, hf.1, List.append_assoc]
    · have hmap : rest.map (fun i => (if i = j then (declareNewVariables s.nextFreshVariable
            (s.relevantPredicatesAndVariables.2.getD j []) (ns.getD j [])).1 else f' i).map
            Prod.fst)
          = rest.map (fun i => (f' i).map Prod.fst) := by
        apply List.map_congr_left
        intro i hi
        have hij : i ≠ j := fun e => hnd.1 (e ▸ hi)
        simp [hij]
      simp only [List.foldl_cons, List.map_cons, List.flatten_cons, if_true, hmap]
      rw [h2, heq.2.1, List.append_assoc]
    · intro i hi
      simp only [List.foldl_cons]
      by_cases hij : i = j
      · subst hij
        simp only [if_true]
        rw [(addMissingUpdate_fold_getD svc ns rest (addMissingUpdate svc ns s i) hnd.2 hrest i).2
          hnd.1]
        exact addMissingUpdate_getD_self svc ns s i hj
      · have hir : i ∈ rest := by
          rcases List.mem_cons.1 hi with h5 | h5
          · exact absurd h5 hij
          · exact h5
        simp only [hij, if_false]
        rw [h3 i hir, hother i hir]
    · intro i hi
      by_cases hij : i = j
      · subst hij
        exact ⟨s.nextFreshVariable, by simp⟩
      · have hir : i ∈ rest := by
          rcases List.mem_cons.1 hi with h5 | h5
          · exact absurd h5 hij
          · exact h5
        obtain ⟨fresh, hfresh⟩ := h4 i hir
        refine ⟨fresh, ?_⟩
        simp only [hij, if_false]
        rw [hfresh, hother i hir]

theorem addMissingUpdate_fold_fst (svc : Services Expr Bdd) (ns : List (List Nat))
    (idxs : List Nat) :
    ∀ t : AbstractCommand Expr Bdd,
      (idxs.foldl (addMissingUpdate svc ns) t).relevantPredicatesAndVariables.1
        = t.relevantPredicatesAndVariables.1 := by
  induction idxs with
  | nil => intro t; rfl
  | cons j rest ih =>
    intro t
    rw [List.foldl_cons, ih, (addMissingUpdate_frame svc ns t j).2.2.2.2.1]

/-- C22: `addMissingPredicates` keeps the assertions the solver has and appends one
assertion per newly declared pair (the pairs that `declareNewVariables` returns
and that are inserted into the declared lists): `iff(v, predicates[p])` for
every new source pair, then for the updates 0, 1, ... in order
`iff(v, predicates[p].substitute(map of the update))` for every new successor
pair of that update. -/
theorem addMissingPredicates_assertions (svc : Services Expr Bdd)
    (s : AbstractCommand Expr Bdd) (new : List Nat × List (List Nat)) (hwf : s.WellFormed) :
    ∃ (newSource : List (Variable × Nat)) (newSuccessor : Nat → List (Variable × Nat)),
      (∃ fresh, newSource
        = (declareNewVariables fresh s.relevantPredicatesAndVariables.1 new.1).1) ∧
      (∀ i, i < s.command.getNumberOfUpdates → ∃ fresh, newSuccessor i
        = (declareNewVariables fresh (s.relevantPredicatesAndVariables.2.getD i [])
            (new.2.getD i [])).1) ∧
      (addMissingPredicates svc s new).relevantPredicatesAndVariables.1
        = sortByIndex (s.relevantPredicatesAndVariables.1 ++ newSource) ∧
      (∀ i, i < s.command.getNumberOfUpdates →
        (addMissingPredicates svc s new).relevantPredicatesAndVariables.2.getD i []
          = sortByIndex (s.relevantPredicatesAndVariables.2.getD i [] ++ newSuccessor i)) ∧
      (addMissingPredicates svc s new).assertions
        = s.assertions ++ newSource.map (sourceAssertion svc)
          ++ ((List.range s.command.getNumberOfUpdates).map
              (fun i => (newSuccessor i).map (successorAssertion svc s.command i))).flatten ∧
      (addMissingPredicates svc s new).decisionVariables
        = s.decisionVariables ++ newSource.map Prod.fst
          ++ ((List.range s.command.getNumberOfUpdates).map
              (fun i => (newSuccessor i).map Prod.fst)).flatten := by
  have hs := addMissingSource_frame svc s new.1
  have hse := addMissingSource_eq svc s new.1
  have hlt : ∀ j ∈ List.range s.command.getNumberOfUpdates,
      j < (addMissingSource svc s new.1).relevantPredicatesAndVariables.2.length := by
    intro j hj
    rw [hs.2.2.2.2, hwf]
    exact List.mem_range.1 hj
  obtain ⟨f, h1, h2, h3, h4⟩ := addMissingUpdate_fold_trace svc new.2
    (List.range s.command.getNumberOfUpdates) (addMissingSource svc s new.1)
    (List.nodup_range _) hlt
  refine ⟨(declareNewVariables s.nextFreshVariable s.relevantPredicatesAndVariables.1 new.1).1,
    f, ⟨s.nextFreshVariable, rfl⟩, ?_, ?_, ?_, ?_, ?_⟩
  · intro i hi
    obtain ⟨fresh, hfresh⟩ := h4 i (List.mem_range.2 hi)
    rw [hs.2.2.2.2] at hfresh
    exact ⟨fresh, hfresh⟩
  · unfold addMissingPredicates
    rw [addMissingUpdate_fold_fst, hse.2.2]
  · intro i hi
    have := h3 i (List.mem_range.2 hi)
    rw [hs.2.2.2.2] at this
    exact this
  · unfold addMissingPredicates
    rw [h1, hse.1, hs.1]
  · unfold addMissingPredicates
    rw [h2, hse.2.1]

/-- Witness of C22: the engine for `guard(y) -> x' = z` after `computeDd`, and the
relevance ({0, 1, 2}, [{1, 3}]): the two assertions of the new source pairs
come first, then the assertion of the new successor pair of the update 0. -/
theorem addMissingPredicates_assertions_witness :
    (copyEngine [allTrue]).WellFormed ∧
    (addMissingPredicates (termServices ceilLog2Exact [allTrue]) (copyEngine [allTrue])
      ([0, 1, 2], [[1, 3]])).assertions
      = (copyEngine [allTrue]).assertions
        ++ [ExprTerm.iff 13 (ExprTerm.atom 1 [1]), ExprTerm.iff 14 (ExprTerm.atom 2 [1]),
            ExprTerm.iff 15 (ExprTerm.substituted (ExprTerm.atom 3 [1]) [0])] ∧
    ∃ (newSource : List (Variable × Nat)) (newSuccessor : Nat → List (Variable × Nat)),
      (∃ fresh, newSource
        = (declareNewVariables fresh (copyEngine [allTrue]).relevantPredicatesAndVariables.1
            [0, 1, 2]).1) ∧
      (∀ i, i < (copyEngine [allTrue]).command.getNumberOfUpdates → ∃ fresh, newSuccessor i
        = (declareNewVariables fresh
            ((copyEngine [allTrue]).relevantPredicatesAndVariables.2.getD i [])
            (([[1, 3]] : List (List Nat)).getD i [])).1) ∧
      (addMissingPredicates (termServices ceilLog2Exact [allTrue]) (copyEngine [allTrue])
          ([0, 1, 2], [[1, 3]])).relevantPredicatesAndVariables.1
        = sortByIndex ((copyEngine [allTrue]).relevantPredicatesAndVariables.1 ++ newSource) ∧
      (∀ i, i < (copyEngine [allTrue]).command.getNumberOfUpdates →
        (addMissingPredicates (termServices ceilLog2Exact [allTrue]) (copyEngine [allTrue])
          ([0, 1, 2], [[1, 3]])).relevantPredicatesAndVariables.2.getD i []
          = sortByIndex ((copyEngine [allTrue]).relevantPredicatesAndVariables.2.getD i []
              ++ newSuccessor i)) ∧
      (addMissingPredicates (termServices ceilLog2Exact [allTrue]) (copyEngine [allTrue])
          ([0, 1, 2], [[1, 3]])).assertions
        = (copyEngine [allTrue]).assertions
          ++ newSource.map (sourceAssertion (termServices ceilLog2Exact [allTrue]))
          ++ ((List.range (copyEngine [allTrue]).command.getNumberOfUpdates).map
              (fun i => (newSuccessor i).map
                (successorAssertion (termServices ceilLog2Exact [allTrue])
                  (copyEngine [allTrue]).command i))).flatten ∧
      (addMissingPredicates (termServices ceilLog2Exact [allTrue]) (copyEngine [allTrue])
          ([0, 1, 2], [[1, 3]])).decisionVariables
        = (copyEngine [allTrue]).decisionVariables ++ newSource.map Prod.fst
          ++ ((List.range (copyEngine [allTrue]).command.getNumberOfUpdates).map
              (fun i => (newSuccessor i).map Prod.fst)).flatten :=
  ⟨by rfl, by rfl,
   addMissingPredicates_assertions (termServices ceilLog2Exact [allTrue]) (copyEngine [allTrue])
     ([0, 1, 2], [[1, 3]]) (by rfl)⟩

/-! ## The decision-variable list stays in sync -/

theorem perm_flatten_set {α : Type} (l : List (List α)) :
    ∀ (j : Nat) (x e : List α), j < l.length → List.Perm x (l.getD j [] ++ e) →
      List.Perm (l.set j x).flatten (l.flatten ++ e) := by
  induction l with
  | nil => intro j x e hj _; simp at hj
  | cons c cs ih =>
    intro j x e hj hx
    cases j with
    | zero =>
      simp only [List.set_cons_zero, List.flatten_cons]
      have hx2 : List.Perm x (c ++ e) := by simpa using hx
      refine (hx2.append_right _).trans ?_
      rw [List.append_assoc, List.append_assoc]
      exact List.Perm.append_left _ List.perm_append_comm
    | succ k =>
      have hk : k < cs.length := by simpa using hj
      have hx2 : List.Perm x (cs.getD k [] ++ e) := by simpa using hx
      simp only [List.set_cons_succ, List.flatten_cons, List.append_assoc]
      exact List.Perm.append_left _ (ih k x e hk hx2)

theorem create_inSync (svc : Services Expr Bdd) (command : Command Expr)
    (variablePartition : VariablePartition) (fresh : Nat) :
    InSync svc (AbstractCommand.create svc command variablePartition fresh) := by
  refine ⟨create_wellFormed svc command variablePartition fresh, ?_, ?_⟩
  · have hflat : ∀ n : Nat, ((List.replicate n ([] : List (Variable × Nat))).map
        (fun l => l.map Prod.fst)).flatten = [] := by
      intro n
      induction n with
      | zero => rfl
      | succ k ih => simp [List.replicate_succ]
    simp [AbstractCommand.create, declaredVariables, hflat]
  · simp only [AbstractCommand.create]
    rw [foldl_append_singleton (fun e => e)]
    simp

theorem addMissingSource_inSync (svc : Services Expr Bdd) (s : AbstractCommand Expr Bdd)
    (newSource : List Nat) (h : InSync svc s) : InSync svc (addMissingSource svc s newSource) := by
  obtain ⟨hwf, hperm, hlen⟩ := h
  have hs := addMissingSource_frame svc s newSource
  have he := addMissingSource_eq svc s newSource
  refine ⟨?_, ?_, ?_⟩
  · unfold AbstractCommand.WellFormed
    rw [hs.2.2.2.2, hs.1]
    exact hwf
  · unfold declaredVariables at hperm ⊢
    rw [he.2.1, he.2.2]
    simp only
    have hsort : List.Perm
        ((sortByIndex (s.relevantPredicatesAndVariables.1
          ++ (declareNewVariables s.nextFreshVariable s.relevantPredicatesAndVariables.1
            newSource).1)).map Prod.fst)
        (s.relevantPredicatesAndVariables.1.map Prod.fst
          ++ (declareNewVariables s.nextFreshVariable s.relevantPredicatesAndVariables.1
            newSource).1.map Prod.fst) := by
      rw [← List.map_append]
      exact (List.perm_insertionSort indexLe _).map _
    refine (hperm.append_right _).trans ?_
    refine List.Perm.trans ?_ (hsort.symm.append_right _)
    simp only [List.append_assoc]
    exact List.Perm.append_left _ List.perm_append_comm
  · rw [he.1, he.2.1]
    simp only [List.length_append, List.length_map]
    omega

theorem addMissingUpdate_inSync (svc : Services Expr Bdd) (ns : List (List Nat))
    (s : AbstractCommand Expr Bdd) (j : Nat)
    (hj : j < s.relevantPredicatesAndVariables.2.length) (h : InSync svc s) :
    InSync svc (addMissingUpdate svc ns s j) := by
  obtain ⟨hwf, hperm, hlen⟩ := h
  have hf := addMissingUpdate_frame svc ns s j
  have he := addMissingUpdate_eq svc ns s j
  refine ⟨?_, ?_, ?_⟩
  · unfold AbstractCommand.WellFormed
    rw [hf.2.2.2.2.2, hf.1]
    exact hwf
  · unfold declaredVariables at hperm ⊢
    rw [he.2.1, he.2.2]
    simp only [List.map_set]
    have hset := perm_flatten_set
      (s.relevantPredicatesAndVariables.2.map (fun l => l.map Prod.fst)) j
      ((sortByIndex (s.relevantPredicatesAndVariables.2.getD j []
          ++ (declareNewVariables s.nextFreshVariable
            (s.relevantPredicatesAndVariables.2.getD j []) (ns.getD j [])).1)).map Prod.fst)
      ((declareNewVariables s.nextFreshVariable
            (s.relevantPredicatesAndVariables.2.getD j []) (ns.getD j [])).1.map Prod.fst)
      (by simpa using hj)
      (by
        have hget : (s.relevantPredicatesAndVariables.2.map (fun l => l.map Prod.fst)).getD j []
            = (s.relevantPredicatesAndVariables.2.getD j []).map Prod.fst := by
          rw [List.getD_eq_getElem?_getD, List.getD_eq_getElem?_getD, List.getElem?_map]
          cases s.relevantPredicatesAndVariables.2[j]? <;> rfl
        rw [hget, ← List.map_append]
        exact (List.perm_insertionSort indexLe _).map _)
    refine (hperm.append_right _).trans ?_
    rw [List.append_assoc]
    exact List.Perm.append_left _ hset.symm
  · rw [he.1, he.2.1]
    simp only [List.length_append, List.length_map]
    omega

theorem addMissingUpdate_fold_inSync (svc : Services Expr Bdd) (ns : List (List Nat))
    (idxs : List Nat) :
    ∀ s : AbstractCommand Expr Bdd,
      (∀ j ∈ idxs, j < s.relevantPredicatesAndVariables.2.length) → InSync svc s →
      InSync svc (idxs.foldl (addMissingUpdate svc ns) s) := by
  induction idxs with
  | nil => intro s _ h; exact h
  | cons j rest ih =>
    intro s hlt h
    have hf := addMissingUpdate_frame svc ns s j
    rw [List.foldl_cons]
    apply ih
    · intro k hk
      rw [hf.2.2.2.2.2]
      exact hlt k (List.mem_cons_of_mem _ hk)
    · exact addMissingUpdate_inSync svc ns s j (hlt j (List.mem_cons_self _ _)) h

theorem addMissingPredicates_inSync (svc : Services Expr Bdd) (s : AbstractCommand Expr Bdd)
    (new : List Nat × List (List Nat)) (h : InSync svc s) :
    InSync svc (addMissingPredicates svc s new) := by
  have hs := addMissingSource_frame svc s new.1
  unfold addMissingPredicates
  apply addMissingUpdate_fold_inSync
  · intro j hj
    rw [hs.2.2.2.2, h.1]
    exact List.mem_range.1 hj
  · exact addMissingSource_inSync svc s new.1 h

theorem computeDd_inSync [DecidableEq Bdd] (svc : Services Expr Bdd)
    (s : AbstractCommand Expr Bdd) (h : InSync svc s) : InSync svc (computeDd svc s).1 := by
  have ha := addMissingPredicates_inSync svc s (computeRelevantPredicates svc s) h
  unfold computeDd
  simp only
  split
  · exact h
  · split <;> exact ha

/-- C23: in every engine state that is reachable from construction by calls of
`computeDd` and `addMissingPredicates`, the flat list `decisionVariables` is a
permutation of the variables of the declared source list together with those
of all declared successor lists, its length is the sum of the lengths of these
lists, and the number of solver assertions is the number of range expressions
plus that length. -/
theorem reachable_inSync [DecidableEq Bdd] (svc : Services Expr Bdd)
    (s : AbstractCommand Expr Bdd) (h : Reachable svc s) :
    List.Perm s.decisionVariables (declaredVariables s) ∧
    s.decisionVariables.length
      = s.relevantPredicatesAndVariables.1.length
        + (s.relevantPredicatesAndVariables.2.map List.length).sum ∧
    s.assertions.length
      = svc.expressionInformation.rangeExpressions.length + s.decisionVariables.length := by
  have hinv : InSync svc s := by
    induction h with
    | constructed command variablePartition fresh =>
      exact create_inSync svc command variablePartition fresh
    | afterComputeDd t _ ih => exact computeDd_inSync svc t ih
    | afterAddMissingPredicates t new _ ih => exact addMissingPredicates_inSync svc t new ih
    | afterRefinement t variablePartition _ ih => exact ih
  refine ⟨hinv.2.1, ?_, hinv.2.2⟩
  rw [hinv.2.1.length_eq]
  simp [declaredVariables, List.length_flatten, Function.comp_def]

/-- Witness of C23: the engine for `guard(y) -> x' = e(x)` after two calls of
`computeDd` with a growing partition: four declared source pairs and four
decision variables. -/
theorem reachable_inSync_witness :
    guardEngine2.decisionVariables = [10, 11, 12, 13] ∧
    guardEngine2.relevantPredicatesAndVariables = ([(10, 0), (11, 1), (12, 1), (13, 2)], [[]]) ∧
    guardEngine2.assertions.length
      = (termServices ceilLog2Exact []).expressionInformation.rangeExpressions.length
        + guardEngine2.decisionVariables.length :=
  ⟨by rfl, by rfl,
   (reachable_inSync (termServices ceilLog2Exact []) guardEngine2
      (Reachable.afterComputeDd _
        (Reachable.afterRefinement _ (guardPartition 3)
          (Reachable.afterComputeDd _ (Reachable.constructed _ _ _))))).2.2⟩

/-! ## Partition refinement -/

theorem internalRefine_statePartition {Partition Signature Mode Add : Type}
    (svc : RefinerServices Partition Signature Mode Add)
    (r : PartitionRefiner Partition Mode) (oldPartition targetPartition : Partition) (mode : Mode) :
    (r.internalRefine svc oldPartition targetPartition mode).1.statePartition = r.statePartition := by
  unfold PartitionRefiner.internalRefine
  split <;> rfl

theorem refine_of_fixedPoint {Partition Signature Mode Add : Type} [DecidableEq Partition]
    (svc : RefinerServices Partition Signature Mode Add)
    (r : PartitionRefiner Partition Mode) (mode : Mode) (hfp : r.status = Status.FixedPoint) :
    r.refine svc mode = (r, false) := by
  have hint : r.internalRefine svc r.statePartition r.statePartition mode
      = (r, r.statePartition) := by
    simp [PartitionRefiner.internalRefine, hfp]
  unfold PartitionRefiner.refine
  simp only [hint, if_true]
  rw [← hfp]

theorem refineAll_of_fixedPoint {Partition Signature Mode Add : Type} [DecidableEq Partition]
    (svc : RefinerServices Partition Signature Mode Add)
    (r : PartitionRefiner Partition Mode) (modes : List Mode)
    (hfp : r.status = Status.FixedPoint) :
    r.refineAll svc modes = (r, modes.map (fun _ => false)) := by
  induction modes with
  | nil => rfl
  | cons mode rest ih =>
    simp only [PartitionRefiner.refineAll, refine_of_fixedPoint svc r mode hfp, ih, List.map_cons]

/-- C29: `refine` returns false exactly when the partition that `internalRefine`
returns equals the current state partition, and the status is then
`FixedPoint`. Once the status is `FixedPoint`, a `refine` call in any mode
returns false and leaves the whole state as it is (partition, status, the
signature mode and the counters of computed signatures), and so does every
sequence of `refine` calls. -/
theorem refine_fixedPoint_absorbing {Partition Signature Mode Add : Type}
    [DecidableEq Partition] (svc : RefinerServices Partition Signature Mode Add)
    (r : PartitionRefiner Partition Mode) (mode : Mode) (modes : List Mode) :
    ((r.refine svc mode).2 = false ↔
      (r.internalRefine svc r.statePartition r.statePartition mode).2 = r.statePartition) ∧
    ((r.refine svc mode).2 = false → (r.refine svc mode).1.status = Status.FixedPoint) ∧
    (r.status = Status.FixedPoint →
      r.refine svc mode = (r, false) ∧
      r.refineAll svc modes = (r, modes.map (fun _ => false))) := by
  have hsp := internalRefine_statePartition svc r r.statePartition r.statePartition mode
  refine ⟨?_, ?_, ?_⟩
  · unfold PartitionRefiner.refine
    simp only [hsp]
    by_cases h : r.statePartition
        = (r.internalRefine svc r.statePartition r.statePartition mode).2
    · rw [if_pos h]
      exact ⟨fun _ => h.symm, fun _ => rfl⟩
    · rw [if_neg h]
      exact ⟨fun e => by simp at e, fun e => absurd e.symm h⟩
  · unfold PartitionRefiner.refine
    simp only [hsp]
    by_cases h : r.statePartition
        = (r.internalRefine svc r.statePartition r.statePartition mode).2
    · rw [if_pos h]
      intro _
      rfl
    · rw [if_neg h]
      intro e
      simp at e
  · intro hfp
    exact ⟨refine_of_fixedPoint svc r mode hfp, refineAll_of_fixedPoint svc r modes hfp⟩

theorem refineWrtStateRewards_spec {Partition Signature Mode Add : Type}
    [DecidableEq Partition] (svc : RefinerServices Partition Signature Mode Add)
    (q : PartitionRefiner Partition Mode) (v : Add) :
    (q.refineWrtStateRewards svc v).1.statePartition
      = svc.refine q.statePartition (svc.signatureOfAdd v) ∧
    (q.refineWrtStateRewards svc v).2
      = decide (svc.refine q.statePartition (svc.signatureOfAdd v) ≠ q.statePartition) := by
  unfold PartitionRefiner.refineWrtStateRewards
  by_cases h : svc.refine q.statePartition (svc.signatureOfAdd v) = q.statePartition
  · simp [h]
  · simp [h]

/-- C30: `refineWrtRewardModel` throws `NotSupportedException` exactly when the
reward model has transition rewards, and the state is then unchanged.
Otherwise the state partition after the call is the partition refined by the
state rewards (if present) and then by the state-action rewards (if present),
and the call returns true exactly when one of the two refinements changed
the state partition. -/
theorem refineWrtRewardModel_spec {Partition Signature Mode Add : Type}
    [DecidableEq Partition] (svc : RefinerServices Partition Signature Mode Add)
    (r : PartitionRefiner Partition Mode) (rewardModel : RewardModel Add) :
    ((∃ e, (r.refineWrtRewardModel svc rewardModel).2 = Except.error e) ↔
      rewardModel.hasTransitionRewards = true) ∧
    (rewardModel.hasTransitionRewards = true →
      r.refineWrtRewardModel svc rewardModel
        = (r, Except.error RefinerException.NotSupportedException)) ∧
    (rewardModel.hasTransitionRewards = false →
      (r.refineWrtRewardModel svc rewardModel).1.statePartition
        = specRefinedBy svc (specRefinedBy svc r.statePartition rewardModel.stateRewards)
            rewardModel.stateActionRewards ∧
      (r.refineWrtRewardModel svc rewardModel).2
        = Except.ok (decide
            (specRefinedBy svc r.statePartition rewardModel.stateRewards ≠ r.statePartition ∨
             specRefinedBy svc (specRefinedBy svc r.statePartition rewardModel.stateRewards)
                rewardModel.stateActionRewards
              ≠ specRefinedBy svc r.statePartition rewardModel.stateRewards))) := by
  refine ⟨?_, ?_, ?_⟩
  · unfold PartitionRefiner.refineWrtRewardModel
    by_cases ht : rewardModel.hasTransitionRewards = true
    · rw [if_pos ht]
      exact ⟨fun _ => ht, fun _ => ⟨_, rfl⟩⟩
    · rw [if_neg ht]
      refine ⟨?_, fun e => absurd e ht⟩
      rintro ⟨e, he⟩
      simp at he
  · intro ht
    simp [PartitionRefiner.refineWrtRewardModel, ht]
  · intro ht
    unfold PartitionRefiner.refineWrtRewardModel
    rw [if_neg (by simp [ht])]
    cases hs : rewardModel.stateRewards with
    | none =>
      cases hsa : rewardModel.stateActionRewards with
      | none => simp [specRefinedBy]
      | some w =>
        have h := refineWrtStateRewards_spec svc r w
        simp [specRefinedBy, h.1, h.2]
    | some v =>
      have h1 := refineWrtStateRewards_spec svc r v
      cases hsa : rewardModel.stateActionRewards with
      | none => simp [specRefinedBy, h1.1, h1.2]
      | some w =>
        have h2 := refineWrtStateRewards_spec svc (r.refineWrtStateRewards svc v).1 w
        rw [h1.1] at h2
        simp only [specRefinedBy, h1.2, h2.1, h2.2, Bool.false_or, Except.ok.injEq, true_and]
        by_cases ha : svc.refine r.statePartition (svc.signatureOfAdd v) = r.statePartition
        · simp [ha]
        · simp [ha]

/-- Witness of C29: a partition of one block is refined to two and to three blocks;
the fourth call finds no change, returns false and sets `FixedPoint`, and the
calls after it change nothing. -/
theorem refine_fixedPoint_absorbing_witness :
    (((PartitionRefiner.create 1 : PartitionRefiner Nat Unit).refineAll blockServices
      [(), (), (), ()]).2 = [true, true, false, false]) ∧
    ((PartitionRefiner.create 1 : PartitionRefiner Nat Unit).refineAll blockServices
      [(), (), ()]).1.status = Status.FixedPoint ∧
    (((PartitionRefiner.create 1 : PartitionRefiner Nat Unit).refineAll blockServices
      [(), (), ()]).1.refineAll blockServices [(), ()]
      = (((PartitionRefiner.create 1 : PartitionRefiner Nat Unit).refineAll blockServices
          [(), (), ()]).1, [false, false])) :=
  ⟨by decide, by decide,
   ((refine_fixedPoint_absorbing blockServices
      ((PartitionRefiner.create 1 : PartitionRefiner Nat Unit).refineAll blockServices
        [(), (), ()]).1 () [(), ()]).2.2 (by decide)).2⟩

/-- Witness of C30: a reward model with state rewards that ask for two blocks and
state-action rewards that ask for one block, on a partition of one block: the
first refinement changes the partition, the call returns true; with
transition rewards the call throws. -/
theorem refineWrtRewardModel_spec_witness :
    ((PartitionRefiner.create 1 : PartitionRefiner Nat Unit).refineWrtRewardModel blockServices
      { stateRewards := some 2, stateActionRewards := some 1, hasTransitionRewards := false }).2
      = Except.ok true ∧
    ((PartitionRefiner.create 1 : PartitionRefiner Nat Unit).refineWrtRewardModel blockServices
      { stateRewards := some 2, stateActionRewards := some 1, hasTransitionRewards := false }).1.statePartition
      = 2 ∧
    (PartitionRefiner.create 1 : PartitionRefiner Nat Unit).refineWrtRewardModel blockServices
      { stateRewards := some 2, stateActionRewards := some 1, hasTransitionRewards := true }
      = (PartitionRefiner.create 1, Except.error RefinerException.NotSupportedException) :=
  ⟨((refineWrtRewardModel_spec blockServices (PartitionRefiner.create 1 : PartitionRefiner Nat Unit)
      { stateRewards := some 2, stateActionRewards := some 1, hasTransitionRewards := false }).2.2
      (by rfl)).2.trans (by rfl),
   ((refineWrtRewardModel_spec blockServices (PartitionRefiner.create 1 : PartitionRefiner Nat Unit)
      { stateRewards := some 2, stateActionRewards := some 1, hasTransitionRewards := false }).2.2
      (by rfl)).1.trans (by rfl),
   (refineWrtRewardModel_spec blockServices (PartitionRefiner.create 1 : PartitionRefiner Nat Unit)
      { stateRewards := some 2, stateActionRewards := some 1, hasTransitionRewards := true }).2.1
      (by rfl)⟩

/-- Witness of C24: the engine for `guard(y) -> x' = z` after `computeDd` and two
models with the same source state: one group with the two distribution terms
in enumeration order. -/
theorem computeDd_grouping_witness :
    sourceToDistributionsMapOf (termServices ceilLog2Exact []) (copyEngine [allTrue, allBut12])
      [allTrue, allBut12]
      = [(DdTerm.and (DdTerm.and DdTerm.one (DdTerm.source 0)) (DdTerm.source 1),
          [getDistributionBdd (termServices ceilLog2Exact []) (copyEngine [allTrue, allBut12]) allTrue,
           getDistributionBdd (termServices ceilLog2Exact []) (copyEngine [allTrue, allBut12])
            allBut12])] ∧
    maximalNumberOfChoices (sourceToDistributionsMapOf (termServices ceilLog2Exact [])
      (copyEngine [allTrue, allBut12]) [allTrue, allBut12]) = 2 ∧
    ((sourceToDistributionsMapOf (termServices ceilLog2Exact []) (copyEngine [allTrue, allBut12])
      [allTrue, allBut12]).map (fun e => e.2.length)).sum = [allTrue, allBut12].length :=
  ⟨by rfl, by rfl,
   (computeDd_grouping (termServices ceilLog2Exact []) (copyEngine [allTrue, allBut12])
      [allTrue, allBut12]).2.2.2.2.1⟩

/-! ## The hierarchical sort of the independent symmetries -/

theorem mem_keys_iff (groups : SymmetryGroups) (k : Nat) :
    k ∈ groups.keys ↔ ∃ s, (k, s) ∈ groups := by
  simp [SymmetryGroups.keys]

theorem mapErase_eq_eraseKeys (groups : SymmetryGroups) (key : Nat) :
    groups.mapErase key = groups.eraseKeys [key] := by
  unfold SymmetryGroups.mapErase SymmetryGroups.eraseKeys
  apply List.filter_congr
  intro entry _
  by_cases h : entry.1 = key <;> simp [keptKey, h]

theorem eraseKeys_nil (groups : SymmetryGroups) : groups.eraseKeys [] = groups := by
  unfold SymmetryGroups.eraseKeys
  rw [List.filter_eq_self]
  intro entry _
  simp [keptKey]

theorem eraseKeys_eraseKeys (groups : SymmetryGroups) (e1 e2 : List Nat) :
    (groups.eraseKeys e1).eraseKeys e2 = groups.eraseKeys (e1 ++ e2) := by
  unfold SymmetryGroups.eraseKeys
  rw [List.filter_filter]
  apply List.filter_congr
  intro entry _
  simp only [keptKey, List.mem_append, not_or, Bool.decide_and, Bool.and_comm]

theorem mem_eraseKeys (groups : SymmetryGroups) (erased : List Nat)
    (entry : Nat × List (List Nat)) :
    entry ∈ groups.eraseKeys erased ↔ entry ∈ groups ∧ entry.1 ∉ erased := by
  simp [SymmetryGroups.eraseKeys, keptKey]

theorem mem_keys_eraseKeys (groups : SymmetryGroups) (erased : List Nat) (k : Nat) :
    k ∈ (groups.eraseKeys erased).keys ↔ k ∈ groups.keys ∧ k ∉ erased := by
  rw [mem_keys_iff, mem_keys_iff]
  constructor
  · rintro ⟨s, hs⟩
    rw [mem_eraseKeys] at hs
    exact ⟨⟨s, hs.1⟩, hs.2⟩
  · rintro ⟨⟨s, hs⟩, hk⟩
    exact ⟨s, (mem_eraseKeys _ _ _).2 ⟨hs, hk⟩⟩

theorem keys_eraseKeys_sublist (groups : SymmetryGroups) (erased : List Nat) :
    List.Sublist (groups.eraseKeys erased).keys groups.keys := by
  unfold SymmetryGroups.keys SymmetryGroups.eraseKeys
  exact (List.filter_sublist _).map _

theorem mapAt_eraseKeys (groups : SymmetryGroups) (erased : List Nat) (k : Nat)
    (hk : k ∉ erased) : (groups.eraseKeys erased).mapAt k = groups.mapAt k := by
  induction groups with
  | nil => rfl
  | cons entry rest ih =>
    unfold SymmetryGroups.eraseKeys SymmetryGroups.mapAt at ih ⊢
    by_cases he : entry.1 = k
    · have hkept : keptKey erased entry = true := by simp [keptKey, he, hk]
      rw [List.filter_cons_of_pos hkept]
      simp [List.find?_cons, he]
    · have hb : (entry.1 == k) = false := by simp [he]
      by_cases hkept : keptKey erased entry = true
      · rw [List.filter_cons_of_pos hkept, List.find?_cons, List.find?_cons, hb]
        exact ih
      · rw [List.filter_cons_of_neg hkept, List.find?_cons, hb]
        exact ih

theorem mapAt_some_mem (groups : SymmetryGroups) (k : Nat) (s : List (List Nat))
    (h : groups.mapAt k = some s) : (k, s) ∈ groups := by
  unfold SymmetryGroups.mapAt at h
  cases hf : groups.find? (fun entry => entry.1 == k) with
  | none => rw [hf] at h; cases h
  | some entry =>
    rw [hf] at h
    have h1 := List.find?_some hf
    have h2 := List.mem_of_find?_eq_some hf
    simp only [beq_iff_eq] at h1
    simp only [Option.map_some', Option.some.injEq] at h
    have : entry = (k, s) := Prod.ext h1 h
    rw [← this]
    exact h2

theorem mapAt_of_mem_keys (groups : SymmetryGroups) (k : Nat) (h : k ∈ groups.keys) :
    ∃ s, groups.mapAt k = some s := by
  unfold SymmetryGroups.mapAt
  cases hf : groups.find? (fun entry => entry.1 == k) with
  | none =>
    rw [List.find?_eq_none] at hf
    rw [mem_keys_iff] at h
    obtain ⟨s, hs⟩ := h
    exact absurd (hf (k, s) hs) (by simp)
  | some entry => exact ⟨entry.2, rfl⟩

theorem mem_keys_of_mapAt (groups : SymmetryGroups) (k : Nat) (s : List (List Nat))
    (h : groups.mapAt k = some s) : k ∈ groups.keys :=
  (mem_keys_iff groups k).2 ⟨s, mapAt_some_mem groups k s h⟩

theorem goodGroups_eraseKeys (groups : SymmetryGroups) (erased : List Nat)
    (h : GoodGroups groups) : GoodGroups (groups.eraseKeys erased) :=
  ⟨h.1.sublist (keys_eraseKeys_sublist groups erased),
   fun entry he => h.2 entry ((mem_eraseKeys _ _ _).1 he).1⟩
theorem mapAt_insertEmpty (groups : SymmetryGroups) (key : Nat)
    (h : groups.mapAt key = none) : (SymmetryGroups.insertEmpty key groups).mapAt key = some [] := by
  induction groups with
  | nil => simp [SymmetryGroups.insertEmpty, SymmetryGroups.mapAt]
  | cons entry rest ih =>
    unfold SymmetryGroups.mapAt at h ih ⊢
    by_cases he : entry.1 = key
    · simp [List.find?_cons, he] at h
    · have hb : (entry.1 == key) = false := by simp [he]
      rw [List.find?_cons, hb] at h
      unfold SymmetryGroups.insertEmpty
      by_cases hlt : key < entry.1
      · rw [if_pos hlt]
        simp [List.find?_cons]
      · rw [if_neg hlt, List.find?_cons, hb]
        exact ih h

theorem mem_keys_insertEmpty (groups : SymmetryGroups) (key k : Nat) :
    k ∈ (SymmetryGroups.insertEmpty key groups).keys ↔ k = key ∨ k ∈ groups.keys := by
  induction groups with
  | nil => simp [SymmetryGroups.insertEmpty, SymmetryGroups.keys]
  | cons entry rest ih =>
    unfold SymmetryGroups.insertEmpty
    by_cases hlt : key < entry.1
    · rw [if_pos hlt]
      simp [SymmetryGroups.keys]
    · rw [if_neg hlt]
      simp only [SymmetryGroups.keys, List.map_cons, List.mem_cons] at ih ⊢
      rw [ih]
      tauto

theorem touch_of_mapAt (groups : SymmetryGroups) (key : Nat) (s : List (List Nat))
    (h : groups.mapAt key = some s) : groups.mapIndex key = (groups, s) := by
  simp [SymmetryGroups.mapIndex, h]

theorem mapIndex_touch (groups : SymmetryGroups) (key : Nat) :
    (groups.touch key).mapIndex key = (groups.touch key, (groups.mapIndex key).2) := by
  unfold SymmetryGroups.touch
  cases h : groups.mapAt key with
  | some s =>
    rw [touch_of_mapAt groups key s h]
    exact touch_of_mapAt groups key s h
  | none =>
    have h2 : groups.mapIndex key = (SymmetryGroups.insertEmpty key groups, []) := by
      simp [SymmetryGroups.mapIndex, h]
    rw [h2]
    exact touch_of_mapAt _ key [] (mapAt_insertEmpty groups key h)

theorem touch_touch (groups : SymmetryGroups) (key : Nat) :
    (groups.touch key).touch key = groups.touch key := by
  have h := mapIndex_touch groups key
  unfold SymmetryGroups.touch at h ⊢
  rw [h]

theorem mem_keys_touch (groups : SymmetryGroups) (key k : Nat) :
    k ∈ (groups.touch key).keys ↔ k = key ∨ k ∈ groups.keys := by
  unfold SymmetryGroups.touch
  cases h : groups.mapAt key with
  | some s =>
    rw [touch_of_mapAt groups key s h]
    constructor
    · exact Or.inr
    · rintro (h1 | h1)
      · rw [h1]; exact mem_keys_of_mapAt groups key s h
      · exact h1
  | none =>
    have h2 : groups.mapIndex key = (SymmetryGroups.insertEmpty key groups, []) := by
      simp [SymmetryGroups.mapIndex, h]
    rw [h2]
    exact mem_keys_insertEmpty groups key k

theorem touch_of_mem_keys (groups : SymmetryGroups) (key : Nat) (h : key ∈ groups.keys) :
    groups.touch key = groups := by
  obtain ⟨s, hs⟩ := mapAt_of_mem_keys groups key h
  unfold SymmetryGroups.touch
  rw [touch_of_mapAt groups key s hs]

theorem existsInSymmetry_fst (groups : SymmetryGroups) (parent value : Nat) :
    (existsInSymmetry groups parent value).1 = groups.touch parent := rfl

theorem inSymmetry_touch (groups : SymmetryGroups) (parent value : Nat) :
    inSymmetry (groups.touch parent) parent value = inSymmetry groups parent value := by
  unfold inSymmetry existsInSymmetry
  simp only
  rw [mapIndex_touch]

theorem notInSymmetry_touch (groups : SymmetryGroups) (parent : Nat) :
    notInSymmetry (groups.touch parent) parent = notInSymmetry groups parent := by
  funext value
  unfold notInSymmetry
  rw [inSymmetry_touch]

theorem inSymmetry_touch_fun (groups : SymmetryGroups) (parent : Nat) :
    inSymmetry (groups.touch parent) parent = inSymmetry groups parent := by
  funext value
  exact inSymmetry_touch groups parent value

/-- The first loop of `sortHierarchical`, run over the first `k` positions: the
candidates of these positions that are in the symmetry of the parent are moved
to the front of `children`, in their order; the other candidates stay, in
their order. -/
theorem findChildrenLoop_eq (parent : Nat) :
    ∀ (k : Nat) (groups : SymmetryGroups) (candidates children : List Nat),
      k ≤ candidates.length →
      findChildrenLoop parent k groups candidates children
        = some (if k = 0 then groups else groups.touch parent,
            (candidates.take k).filter (notInSymmetry groups parent) ++ candidates.drop k,
            (candidates.take k).filter (inSymmetry groups parent) ++ children) := by
  intro k
  induction k with
  | zero =>
    intro groups candidates children _
    simp [findChildrenLoop]
  | succ k ih =>
    intro groups candidates children hk
    have hlt : k < candidates.length := hk
    have hget : candidates[k]? = some candidates[k] := List.getElem?_eq_getElem hlt
    have htake : candidates.take (k + 1) = candidates.take k ++ [candidates[k]] := by
      rw [List.take_succ, hget]; rfl
    unfold findChildrenLoop
    rw [hget]
    simp only [existsInSymmetry_fst]
    have hgroups : (if k = 0 then groups.touch parent else (groups.touch parent).touch parent)
        = groups.touch parent := by
      by_cases h0 : k = 0
      · rw [if_pos h0]
      · rw [if_neg h0, touch_touch]
    by_cases hin : (existsInSymmetry groups parent candidates[k]).2 = true
    · rw [if_pos hin]
      have hlen : k ≤ (candidates.eraseIdx k).length := by
        rw [List.length_eraseIdx, if_pos hlt]; omega
      rw [ih _ _ _ hlen, hgroups, notInSymmetry_touch, inSymmetry_touch_fun, htake]
      have hin2 : inSymmetry groups parent candidates[k] = true := hin
      have hnot : notInSymmetry groups parent candidates[k] = false := by
        simp [notInSymmetry, hin2]
      have e1 : (candidates.eraseIdx k).take k = candidates.take k := by
        rw [List.eraseIdx_eq_take_drop_succ, List.take_append_of_le_length (by simp; omega)]
        simp
      have e2 : (candidates.eraseIdx k).drop k = candidates.drop (k + 1) := by
        rw [List.eraseIdx_eq_take_drop_succ]
        rw [List.drop_append_of_le_length (by simp; omega)]
        simp [List.drop_eq_nil_of_le]
      rw [e1, e2, List.filter_append, List.filter_append]
      simp [hin2, hnot, List.filter_cons]
    · rw [if_neg hin]
      have hin2 : inSymmetry groups parent candidates[k] = false := by
        simpa using hin
      have hnot : notInSymmetry groups parent candidates[k] = true := by
        simp [notInSymmetry, hin2]
      rw [ih _ _ _ (Nat.le_of_lt hlt), hgroups, notInSymmetry_touch, inSymmetry_touch_fun, htake]
      rw [List.filter_append, List.filter_append]
      have e3 : candidates.drop k = candidates[k] :: candidates.drop (k + 1) :=
        List.drop_eq_getElem_cons hlt
      rw [e3]
      simp [hin2, hnot, List.filter_cons]
/-- The loop over `j`: when it ends, the map has lost the keys of a list
`erased`, and the children are the kept ones and the erased ones. -/
theorem eraseCreatedLoop_perm (possibleSymmetry : List (List Nat)) :
    ∀ (later : List Nat) (skip : Bool) (groups : SymmetryGroups)
      (result : SymmetryGroups × List Nat),
      eraseCreatedLoop possibleSymmetry skip groups later = some result →
        ∃ erased, result.1 = groups.eraseKeys erased ∧ List.Perm (result.2 ++ erased) later := by
  intro later
  induction later with
  | nil =>
    intro skip groups result h
    cases skip <;>
    · simp only [eraseCreatedLoop, Option.some.injEq] at h
      subst h
      exact ⟨[], (eraseKeys_nil groups).symm, List.Perm.refl _⟩
  | cons child rest ih =>
    intro skip groups result h
    cases skip with
    | true =>
      simp only [eraseCreatedLoop] at h
      cases hrec : eraseCreatedLoop possibleSymmetry false groups rest with
      | none => rw [hrec] at h; cases h
      | some r =>
        rw [hrec] at h
        simp only [Option.some.injEq] at h
        subst h
        obtain ⟨e, he1, he2⟩ := ih _ _ r hrec
        exact ⟨e, he1, he2.cons child⟩
    | false =>
      simp only [eraseCreatedLoop] at h
      cases hat : groups.mapAt child with
      | none => rw [hat] at h; cases h
      | some symmetry =>
        rw [hat] at h
        simp only at h
        by_cases heq : possibleSymmetry = symmetry
        · rw [if_pos heq] at h
          obtain ⟨e, he1, he2⟩ := ih _ _ result h
          refine ⟨child :: e, ?_, ?_⟩
          · rw [he1, mapErase_eq_eraseKeys, eraseKeys_eraseKeys]
            rfl
          · exact (List.perm_middle).trans (he2.cons child)
        · rw [if_neg heq] at h
          cases hrec : eraseCreatedLoop possibleSymmetry false groups rest with
          | none => rw [hrec] at h; cases h
          | some r =>
            rw [hrec] at h
            simp only [Option.some.injEq] at h
            subst h
            obtain ⟨e, he1, he2⟩ := ih _ _ r hrec
            exact ⟨e, he1, he2.cons child⟩

theorem perm_erased_trans {kept2 e2 kept1 e1 l : List Nat}
    (h4 : List.Perm (kept2 ++ e2) kept1) (h2 : List.Perm (kept1 ++ e1) l) :
    List.Perm (kept2 ++ (e1 ++ e2)) l := by
  refine (List.Perm.append_left kept2 List.perm_append_comm).trans ?_
  rw [← List.append_assoc]
  exact (h4.append_right e1).trans h2

/-- The loop over `index`: when it ends, the map has lost the keys of a list
`erased`, and the later children are the kept ones and the erased ones. -/
theorem indexLoop_perm (undefinedReads : UndefinedReads) (parent child : Nat) :
    ∀ (bound index : Nat) (groups : SymmetryGroups) (later : List Nat)
      (result : SymmetryGroups × List Nat),
      indexLoop undefinedReads parent child bound index groups later = some result →
        ∃ erased, result.1 = groups.eraseKeys erased ∧ List.Perm (result.2 ++ erased) later := by
  intro bound
  induction bound with
  | zero =>
    intro index groups later result h
    unfold indexLoop at h
    split at h
    · cases h
    · cases h
    · split at h
      · cases h
      · simp only [Option.some.injEq] at h
        subst h
        exact ⟨[], (eraseKeys_nil groups).symm, by simp⟩
  | succ bound ih =>
    intro index groups later result h
    unfold indexLoop at h
    split at h
    · cases h
    · cases h
    · split at h
      · simp only at h
        split at h
        · cases h
        · split at h
          · cases h
          · split at h
            · cases h
            · rename_i r hr
              obtain ⟨e1, h1, h2⟩ := eraseCreatedLoop_perm _ _ _ _ r hr
              obtain ⟨e2, h3, h4⟩ := ih _ _ _ _ h
              refine ⟨e1 ++ e2, ?_, perm_erased_trans h4 h2⟩
              rw [h3, h1, eraseKeys_eraseKeys]
      · simp only [Option.some.injEq] at h
        subst h
        exact ⟨[], (eraseKeys_nil groups).symm, by simp⟩

/-- The loop over `i`: when it ends, the map has lost the keys of a list
`erased`, and the children are the kept ones and the erased ones. -/
theorem childLoop_perm (parent : Nat) :
    ∀ (n : Nat) (undefinedReads : UndefinedReads) (groups : SymmetryGroups)
      (children : List Nat) (result : SymmetryGroups × List Nat),
      childLoop undefinedReads parent n groups children = some result →
        ∃ erased, result.1 = groups.eraseKeys erased ∧
          List.Perm (result.2 ++ erased) children := by
  intro n
  induction n with
  | zero =>
    intro undefinedReads groups children result h
    cases children with
    | nil =>
      simp only [childLoop, Option.some.injEq] at h
      subst h
      exact ⟨[], (eraseKeys_nil groups).symm, List.Perm.refl _⟩
    | cons child later => simp [childLoop] at h
  | succ n ih =>
    intro undefinedReads groups children result h
    cases children with
    | nil =>
      simp only [childLoop, Option.some.injEq] at h
      subst h
      exact ⟨[], (eraseKeys_nil groups).symm, List.Perm.refl _⟩
    | cons child later =>
      simp only [childLoop] at h
      cases h1 : indexLoop (undefinedReads.sub n) parent child (indexBound groups parent) 1
          groups later with
      | none => rw [h1] at h; cases h
      | some r =>
        rw [h1] at h
        simp only at h
        cases h2 : childLoop undefinedReads parent n r.1 r.2 with
        | none => rw [h2] at h; cases h
        | some r2 =>
          rw [h2] at h
          simp only [Option.some.injEq] at h
          subst h
          obtain ⟨e1, h3, h4⟩ := indexLoop_perm _ _ _ _ _ _ _ r h1
          obtain ⟨e2, h5, h6⟩ := ih _ _ _ r2 h2
          refine ⟨e1 ++ e2, ?_, ?_⟩
          · simp only
            rw [h5, h3, eraseKeys_eraseKeys]
          · exact (perm_erased_trans h6 h4).cons child
/-- Where `applySymmetry` is defined, `applySymmetryWith` has its value. -/
theorem applySymmetryWith_of_applySymmetry (undefinedRead : Nat) (index : Nat) :
    ∀ (symmetry : List (List Nat)) (value : Nat) (v : Int),
      applySymmetry symmetry value index = some v →
      applySymmetryWith undefinedRead symmetry value index = some v := by
  intro symmetry
  induction symmetry with
  | nil => intro value v h; exact h
  | cons element rest ih =>
    intro value v h
    cases element with
    | nil => simp [applySymmetry] at h
    | cons first tl =>
      unfold applySymmetry at h
      unfold applySymmetryWith
      simp only at h ⊢
      by_cases hf : first = value
      · rw [if_pos hf] at h ⊢
        cases hget : (first :: tl)[index]? with
        | none => rw [hget] at h; simp at h
        | some x =>
          rw [hget] at h
          simp only [Option.map_some', Option.some.injEq] at h
          rw [Option.getD_some, h]
      · rw [if_neg hf] at h ⊢
        exact ih value v h

theorem applySymmetryWith_isSome (undefinedRead : Nat) (index : Nat) :
    ∀ (symmetry : List (List Nat)) (value : Nat),
      (∀ c ∈ symmetry, c ≠ []) →
      ∃ v, applySymmetryWith undefinedRead symmetry value index = some v := by
  intro symmetry
  induction symmetry with
  | nil => intro value _; exact ⟨-1, rfl⟩
  | cons element rest ih =>
    intro value h
    have he := h element (List.mem_cons_self _ _)
    cases element with
    | nil => exact absurd rfl he
    | cons first tl =>
      unfold applySymmetryWith
      simp only
      by_cases hf : first = value
      · rw [if_pos hf]
        exact ⟨_, rfl⟩
      · rw [if_neg hf]
        exact ih value (fun c hc => h c (List.mem_cons_of_mem _ hc))

theorem createSymmetryClass_isSome (parentSymmetry : List (List Nat)) (index : Nat)
    (h : ∀ c ∈ parentSymmetry, c ≠ []) :
    ∀ (l : List Nat) (undefinedReads : UndefinedReads) (symmetry : List Nat),
      ∃ r, createSymmetryClass undefinedReads parentSymmetry index l symmetry = some r := by
  intro l
  induction l with
  | nil => intro undefinedReads symmetry; exact ⟨_, rfl⟩
  | cons child rest ih =>
    intro undefinedReads symmetry
    obtain ⟨v, hv⟩ := applySymmetryWith_isSome (undefinedReads [rest.length]) index
      parentSymmetry child h
    unfold createSymmetryClass
    rw [hv]
    simp only
    by_cases hge : v ≥ 0
    · rw [if_pos hge]; exact ih _ _
    · rw [if_neg hge]; exact ⟨_, rfl⟩

theorem createSymmetryLoop_isSome (parentSymmetry : List (List Nat)) (index : Nat)
    (h : ∀ c ∈ parentSymmetry, c ≠ []) :
    ∀ (childSymmetry : List (List Nat)) (undefinedReads : UndefinedReads)
      (result : List (List Nat)),
      ∃ r, createSymmetryLoop undefinedReads parentSymmetry index childSymmetry result
        = some r := by
  intro childSymmetry
  induction childSymmetry with
  | nil => intro undefinedReads result; exact ⟨_, rfl⟩
  | cons childSym rest ih =>
    intro undefinedReads result
    obtain ⟨r, hr⟩ := createSymmetryClass_isSome parentSymmetry index h childSym
      (undefinedReads.sub rest.length) []
    unfold createSymmetryLoop
    rw [hr]
    cases r with
    | none => exact ⟨_, rfl⟩
    | some symmetry => exact ih _ _

/-- The method `createSymmetry` returns for a parent symmetry of non-empty
classes. -/
theorem createSymmetry_isSome (undefinedReads : UndefinedReads)
    (parentSymmetry childSymmetry : List (List Nat)) (index : Nat)
    (h : ∀ c ∈ parentSymmetry, c ≠ []) :
    ∃ r, createSymmetry undefinedReads parentSymmetry childSymmetry index = some r :=
  createSymmetryLoop_isSome parentSymmetry index h childSymmetry undefinedReads []

theorem eraseCreatedLoop_isSome (possibleSymmetry : List (List Nat)) :
    ∀ (later : List Nat) (skip : Bool) (groups : SymmetryGroups),
      (∀ c ∈ later, c ∈ groups.keys) → later.Nodup →
      ∃ r, eraseCreatedLoop possibleSymmetry skip groups later = some r := by
  intro later
  induction later with
  | nil => intro skip groups _ _; cases skip <;> exact ⟨_, rfl⟩
  | cons child rest ih =>
    intro skip groups hkeys hnd
    have hrest : ∀ c ∈ rest, c ∈ groups.keys := fun c hc => hkeys c (List.mem_cons_of_mem _ hc)
    have hnd2 : rest.Nodup := (List.nodup_cons.1 hnd).2
    have hchild : child ∉ rest := (List.nodup_cons.1 hnd).1
    cases skip with
    | true =>
      obtain ⟨r, hr⟩ := ih false groups hrest hnd2
      simp only [eraseCreatedLoop, hr]
      exact ⟨_, rfl⟩
    | false =>
      obtain ⟨s, hs⟩ := mapAt_of_mem_keys groups child (hkeys child (List.mem_cons_self _ _))
      simp only [eraseCreatedLoop, hs]
      by_cases heq : possibleSymmetry = s
      · rw [if_pos heq]
        apply ih true _ _ hnd2
        intro c hc
        rw [mapErase_eq_eraseKeys, mem_keys_eraseKeys]
        refine ⟨hrest c hc, ?_⟩
        intro hmem
        rw [List.mem_singleton] at hmem
        exact hchild (hmem ▸ hc)
      · rw [if_neg heq]
        obtain ⟨r, hr⟩ := ih false groups hrest hnd2
        rw [hr]
        exact ⟨_, rfl⟩

/-- What a partition of a duplicate-free list into kept and erased elements
gives. -/
theorem perm_kept_erased {kept erased l : List Nat} (h : List.Perm (kept ++ erased) l)
    (hnd : l.Nodup) :
    kept.Nodup ∧ erased.Nodup ∧ (∀ c ∈ kept, c ∈ l ∧ c ∉ erased) ∧ (∀ c ∈ erased, c ∈ l ∧ c ∉ kept) ∧
      kept.length ≤ l.length := by
  have hnd2 : (kept ++ erased).Nodup := h.nodup_iff.2 hnd
  rw [List.nodup_append] at hnd2
  refine ⟨hnd2.1, hnd2.2.1, ?_, ?_, ?_⟩
  · intro c hc
    exact ⟨h.subset (List.mem_append_left _ hc), fun he => hnd2.2.2 hc he⟩
  · intro c hc
    exact ⟨h.subset (List.mem_append_right _ hc), fun hk => hnd2.2.2 hk hc⟩
  · rw [← h.length_eq, List.length_append]
    omega

theorem indexLoop_isSome (undefinedReads : UndefinedReads) (parent child : Nat)
    (front : List Nat) (parentRest : List (List Nat))
    (hgood : GoodSymmetry (front :: parentRest)) :
    ∀ (bound index : Nat) (groups : SymmetryGroups) (later : List Nat),
      groups.mapAt parent = some (front :: parentRest) →
      child ∈ groups.keys → (∀ c ∈ later, c ∈ groups.keys) → later.Nodup →
      parent ∉ later → child ∉ later → front.length ≤ index + bound →
      ∃ r, indexLoop undefinedReads parent child bound index groups later = some r := by
  intro bound
  induction bound with
  | zero =>
    intro index groups later hp _ _ _ _ _ hb
    unfold indexLoop
    rw [hp]
    simp only
    rw [if_neg (by omega)]
    exact ⟨_, rfl⟩
  | succ bound ih =>
    intro index groups later hp hc hkeys hnd hpl hcl hb
    unfold indexLoop
    rw [hp]
    simp only
    by_cases hlt : index < front.length
    · rw [if_pos hlt]
      obtain ⟨cs, hcs⟩ := mapAt_of_mem_keys groups child hc
      rw [hcs]
      simp only
      obtain ⟨ps, hps⟩ := createSymmetry_isSome (undefinedReads.sub index)
        (front :: parentRest) cs index hgood.2
      rw [hps]
      simp only
      obtain ⟨r, hr⟩ := eraseCreatedLoop_isSome ps later false groups hkeys hnd
      rw [hr]
      simp only
      obtain ⟨e, he1, he2⟩ := eraseCreatedLoop_perm ps later false groups r hr
      obtain ⟨k1, _, k3, k4, _⟩ := perm_kept_erased he2 hnd
      have hpe : parent ∉ e := fun hm => hpl (k4 parent hm).1
      have hce : child ∉ e := fun hm => hcl (k4 child hm).1
      apply ih
      · rw [he1, mapAt_eraseKeys _ _ _ hpe]; exact hp
      · rw [he1, mem_keys_eraseKeys]; exact ⟨hc, hce⟩
      · intro c hcm
        rw [he1, mem_keys_eraseKeys]
        exact ⟨hkeys c (k3 c hcm).1, (k3 c hcm).2⟩
      · exact k1
      · exact fun hm => hpl (k3 parent hm).1
      · exact fun hm => hcl (k3 child hm).1
      · omega
    · rw [if_neg hlt]
      exact ⟨_, rfl⟩

theorem goodSymmetry_cons (symmetry : List (List Nat)) (h : GoodSymmetry symmetry) :
    ∃ front parentRest, symmetry = front :: parentRest := by
  cases symmetry with
  | nil => exact absurd rfl h.1
  | cons front parentRest => exact ⟨front, parentRest, rfl⟩

theorem childLoop_isSome (parent : Nat) :
    ∀ (n : Nat) (undefinedReads : UndefinedReads) (groups : SymmetryGroups)
      (children : List Nat),
      GoodGroups groups → parent ∈ groups.keys →
      (∀ c ∈ children, c ∈ groups.keys) → children.Nodup → parent ∉ children →
      children.length ≤ n →
      ∃ r, childLoop undefinedReads parent n groups children = some r := by
  intro n
  induction n with
  | zero =>
    intro undefinedReads groups children _ _ _ _ _ hlen
    have hnil : children = [] := List.eq_nil_of_length_eq_zero (Nat.le_zero.1 hlen)
    subst hnil
    exact ⟨_, rfl⟩
  | succ n ih =>
    intro undefinedReads groups children hgood hp hkeys hnd hpc hlen
    cases children with
    | nil => exact ⟨_, rfl⟩
    | cons child later =>
      have hlater : ∀ c ∈ later, c ∈ groups.keys :=
        fun c hc => hkeys c (List.mem_cons_of_mem _ hc)
      have hnd2 : later.Nodup := (List.nodup_cons.1 hnd).2
      have hcl : child ∉ later := (List.nodup_cons.1 hnd).1
      have hpl : parent ∉ later := fun hm => hpc (List.mem_cons_of_mem _ hm)
      obtain ⟨s, hs⟩ := mapAt_of_mem_keys groups parent hp
      have hsgood : GoodSymmetry s := hgood.2 (parent, s) (mapAt_some_mem groups parent s hs)
      obtain ⟨front, parentRest, hfr⟩ := goodSymmetry_cons s hsgood
      subst hfr
      have hbound : indexBound groups parent = front.length := by
        simp [indexBound, hs]
      obtain ⟨r, hr⟩ := indexLoop_isSome (undefinedReads.sub n) parent child front parentRest
        hsgood (indexBound groups parent) 1 groups later hs
        (hkeys child (List.mem_cons_self _ _)) hlater hnd2 hpl hcl (by omega)
      obtain ⟨e, he1, he2⟩ := indexLoop_perm _ _ _ _ _ _ _ r hr
      obtain ⟨k1, _, k3, k4, k5⟩ := perm_kept_erased he2 hnd2
      have hpe : parent ∉ e := fun hm => hpl (k4 parent hm).1
      obtain ⟨r2, hr2⟩ := ih undefinedReads r.1 r.2 (he1 ▸ goodGroups_eraseKeys groups e hgood)
        (by rw [he1, mem_keys_eraseKeys]; exact ⟨hp, hpe⟩)
        (by
          intro c hcm
          rw [he1, mem_keys_eraseKeys]
          exact ⟨hlater c (k3 c hcm).1, (k3 c hcm).2⟩)
        k1 (fun hm => hpl (k3 parent hm).1)
        (by simp only [List.length_cons] at hlen; omega)
      simp only [childLoop, hr, hr2]
      exact ⟨_, rfl⟩

theorem sizeToInt_le (x : Nat) : sizeToInt x ≤ (x : Int) := by
  unfold sizeToInt
  have h1 : x % 2 ^ 32 ≤ x := Nat.mod_le _ _
  split <;> omega

theorem scanCount_le (size : Nat) : scanCount size ≤ size := by
  unfold scanCount
  cases size with
  | zero => decide
  | succ n =>
    have h1 : (n + 1 + 2 ^ 64 - 1) % 2 ^ 64 ≤ n := by
      have : n + 1 + 2 ^ 64 - 1 = n + 2 ^ 64 := by omega
      rw [this, Nat.add_mod_right]
      exact Nat.mod_le _ _
    have h2 := sizeToInt_le ((n + 1 + 2 ^ 64 - 1) % 2 ^ 64)
    omega

theorem scanCount_of_le (size : Nat) (h : size ≤ 2 ^ 31) : scanCount size = size := by
  unfold scanCount
  cases size with
  | zero => decide
  | succ n =>
    have h0 : n + 1 + 2 ^ 64 - 1 = n + 2 ^ 64 := by omega
    have h1 : (n + 1 + 2 ^ 64 - 1) % 2 ^ 64 = n := by
      rw [h0, Nat.add_mod_right]
      exact Nat.mod_eq_of_lt (by omega)
    have h3 : n % 2 ^ 32 = n := Nat.mod_eq_of_lt (by omega)
    rw [h1]
    unfold sizeToInt
    rw [h3, if_pos (by omega)]
    omega

theorem hierarchyLoop_nil
    (recurse : UndefinedReads → DFTIndependentSymmetries → Nat → List Nat →
      Option (DFTIndependentSymmetries × List Nat))
    (undefinedReads : UndefinedReads)
    (n : Nat) (state : DFTIndependentSymmetries) :
    hierarchyLoop recurse undefinedReads n state [] = some state := by
  cases n <;> rfl

/-- One iteration of the loop `while (!children.empty())`: the last child is
taken off, `sortHierarchical` is called for it and the other children, and the
child is appended to `sortedSymmetries` after the call. -/
theorem hierarchyLoop_concat
    (recurse : UndefinedReads → DFTIndependentSymmetries → Nat → List Nat →
      Option (DFTIndependentSymmetries × List Nat))
    (undefinedReads : UndefinedReads)
    (n : Nat) (state : DFTIndependentSymmetries) (init : List Nat) (last : Nat) :
    hierarchyLoop recurse undefinedReads (n + 1) state (init ++ [last])
      = match recurse (undefinedReads.sub n) state last init with
        | none => none
        | some result =>
          hierarchyLoop recurse undefinedReads n
            { groups := result.1.groups,
              sortedSymmetries := result.1.sortedSymmetries ++ [last] }
            result.2 := by
  rw [hierarchyLoop, List.getLast?_concat, List.dropLast_concat]

theorem hierarchyLoop_zero_cons
    (recurse : UndefinedReads → DFTIndependentSymmetries → Nat → List Nat →
      Option (DFTIndependentSymmetries × List Nat))
    (undefinedReads : UndefinedReads)
    (state : DFTIndependentSymmetries) (init : List Nat) (last : Nat) :
    hierarchyLoop recurse undefinedReads 0 state (init ++ [last]) = none := by
  cases init <;> rfl

theorem mem_takeDrop_filter (p q : Nat → Bool) (hpq : ∀ c, q c = !p c) (k : Nat) (l : List Nat)
    (c : Nat) (hc : c ∈ l) :
    c ∈ (l.take k).filter q ++ l.drop k ∨ c ∈ (l.take k).filter p := by
  rw [← List.take_append_drop k l, List.mem_append] at hc
  rcases hc with hc | hc
  · cases hp : p c with
    | true => exact Or.inr (List.mem_filter.2 ⟨hc, hp⟩)
    | false =>
      refine Or.inl (List.mem_append_left _ (List.mem_filter.2 ⟨hc, ?_⟩))
      rw [hpq, hp]; rfl
  · exact Or.inl (List.mem_append_right _ hc)

theorem hierarchyLoop_post (fuel : Nat)
    (H : ∀ undefinedReads state parent candidates result,
      sortHierarchical fuel undefinedReads state parent candidates = some result →
      CallPost state parent candidates result)
    (undefinedReads : UndefinedReads) :
    ∀ (n : Nat) (state : DFTIndependentSymmetries) (l : List Nat)
      (final : DFTIndependentSymmetries),
      hierarchyLoop (sortHierarchical fuel) undefinedReads n state l = some final →
      ∃ pushed, final.sortedSymmetries = state.sortedSymmetries ++ pushed ∧
        (∀ c ∈ l, c ∈ pushed ∨ c ∉ final.groups.keys) ∧
        (∀ c ∈ final.groups.keys, c ∈ state.groups.keys ∨ c ∈ pushed) := by
  intro n
  induction n with
  | zero =>
    intro state l final h
    rcases List.eq_nil_or_concat l with hl | ⟨init, last, hl⟩
    · subst hl
      rw [hierarchyLoop_nil] at h
      cases h
      exact ⟨[], by simp, by simp, fun c hc => Or.inl hc⟩
    · subst hl
      rw [List.concat_eq_append, hierarchyLoop_zero_cons] at h
      cases h
  | succ n ih =>
    intro state l final h
    rcases List.eq_nil_or_concat l with hl | ⟨init, last, hl⟩
    · subst hl
      rw [hierarchyLoop_nil] at h
      cases h
      exact ⟨[], by simp, by simp, fun c hc => Or.inl hc⟩
    · subst hl
      rw [List.concat_eq_append, hierarchyLoop_concat] at h
      cases hcall : sortHierarchical fuel (undefinedReads.sub n) state last init with
      | none => rw [hcall] at h; cases h
      | some r =>
        rw [hcall] at h
        simp only at h
        obtain ⟨hcands, p1, hs1, hch1, hk1⟩ := H _ state last init r hcall
        obtain ⟨p2, hs2, hch2, hk2⟩ := ih _ _ final h
        simp only at hs2 hk2
        refine ⟨p1 ++ [last] ++ p2, ?_, ?_, ?_⟩
        · rw [hs2, hs1]
          simp
        · intro c hc
          rw [List.concat_eq_append, List.mem_append, List.mem_singleton] at hc
          rcases hc with hc | hc
          · rcases mem_takeDrop_filter (inSymmetry state.groups last)
                (notInSymmetry state.groups last) (fun _ => rfl)
                (scanCount init.length) init c hc with h1 | h1
            · rw [← hcands] at h1
              rcases hch2 c h1 with h2 | h2
              · exact Or.inl (List.mem_append_right _ h2)
              · exact Or.inr h2
            · rcases hch1 c h1 with h2 | h2
              · exact Or.inl (List.mem_append_left _ (List.mem_append_left _ h2))
              · by_cases hfin : c ∈ final.groups.keys
                · rcases hk2 c hfin with h3 | h3
                  · exact absurd h3 h2
                  · exact Or.inl (List.mem_append_right _ h3)
                · exact Or.inr hfin
          · subst hc
            exact Or.inl (by simp)
        · intro c hc
          rcases hk2 c hc with h3 | h3
          · rcases hk1 c h3 with h4 | h4 | h4
            · exact Or.inl h4
            · subst h4; exact Or.inr (by simp)
            · exact Or.inr (by simp [h4])
          · exact Or.inr (by simp [h3])

theorem sortHierarchical_zero (undefinedReads : UndefinedReads)
    (state : DFTIndependentSymmetries) (parent : Nat) (candidates : List Nat) :
    sortHierarchical 0 undefinedReads state parent candidates = none := rfl

theorem sortHierarchical_succ (fuel : Nat) (undefinedReads : UndefinedReads)
    (state : DFTIndependentSymmetries) (parent : Nat) (candidates : List Nat) :
    sortHierarchical (fuel + 1) undefinedReads state parent candidates
      = sortHierarchicalScan (sortHierarchical fuel) undefinedReads
          (scanCount candidates.length) state parent candidates := rfl

/-- What the three steps of `sortHierarchical` return. -/
theorem sortHierarchicalScan_some
    (recurse : UndefinedReads → DFTIndependentSymmetries → Nat → List Nat →
      Option (DFTIndependentSymmetries × List Nat))
    (undefinedReads : UndefinedReads)
    (k : Nat) (state : DFTIndependentSymmetries) (parent : Nat) (candidates : List Nat)
    (hk : k ≤ candidates.length) (result : DFTIndependentSymmetries × List Nat)
    (h : sortHierarchicalScan recurse undefinedReads k state parent candidates = some result) :
    ∃ erased final,
      childLoop (undefinedReads.sub 0) parent
        ((candidates.take k).filter (inSymmetry state.groups parent)).length
        (if k = 0 then state.groups else state.groups.touch parent)
        ((candidates.take k).filter (inSymmetry state.groups parent)) = some erased ∧
      hierarchyLoop recurse (undefinedReads.sub 1) erased.2.length
        { groups := erased.1, sortedSymmetries := state.sortedSymmetries } erased.2
          = some final ∧
      result = (final, (candidates.take k).filter (notInSymmetry state.groups parent)
        ++ candidates.drop k) := by
  unfold sortHierarchicalScan at h
  rw [findChildrenLoop_eq parent _ _ _ _ hk] at h
  simp only [List.append_nil] at h
  cases h2 : childLoop (undefinedReads.sub 0) parent
      ((candidates.take k).filter (inSymmetry state.groups parent)).length
      (if k = 0 then state.groups else state.groups.touch parent)
      ((candidates.take k).filter (inSymmetry state.groups parent)) with
  | none =>
    rw [h2] at h
    simp only at h
    cases h
  | some erased =>
    rw [h2] at h
    simp only at h
    cases h3 : hierarchyLoop recurse (undefinedReads.sub 1) erased.2.length
        { groups := erased.1, sortedSymmetries := state.sortedSymmetries } erased.2 with
    | none =>
      rw [h3] at h
      simp only at h
      cases h
    | some final =>
      rw [h3] at h
      simp only [Option.some.injEq] at h
      exact ⟨erased, final, rfl, h3, h.symm⟩

/-- The three steps of `sortHierarchical` return when the second and the third
step return. -/
theorem sortHierarchicalScan_of_some
    (recurse : UndefinedReads → DFTIndependentSymmetries → Nat → List Nat →
      Option (DFTIndependentSymmetries × List Nat))
    (undefinedReads : UndefinedReads)
    (k : Nat) (state : DFTIndependentSymmetries) (parent : Nat) (candidates : List Nat)
    (hk : k ≤ candidates.length) (erased : SymmetryGroups × List Nat)
    (final : DFTIndependentSymmetries)
    (h2 : childLoop (undefinedReads.sub 0) parent
        ((candidates.take k).filter (inSymmetry state.groups parent)).length
        (if k = 0 then state.groups else state.groups.touch parent)
        ((candidates.take k).filter (inSymmetry state.groups parent)) = some erased)
    (h3 : hierarchyLoop recurse (undefinedReads.sub 1) erased.2.length
        { groups := erased.1, sortedSymmetries := state.sortedSymmetries } erased.2
          = some final) :
    sortHierarchicalScan recurse undefinedReads k state parent candidates
      = some (final, (candidates.take k).filter (notInSymmetry state.groups parent)
        ++ candidates.drop k) := by
  unfold sortHierarchicalScan
  rw [findChildrenLoop_eq parent _ _ _ _ hk]
  simp only [List.append_nil]
  rw [h2]
  simp only
  rw [h3]

theorem sortHierarchicalScan_post (fuel : Nat)
    (H : ∀ undefinedReads state parent candidates result,
      sortHierarchical fuel undefinedReads state parent candidates = some result →
      CallPost state parent candidates result)
    (undefinedReads : UndefinedReads) (k : Nat) (state : DFTIndependentSymmetries) (parent : Nat) (candidates : List Nat)
    (hk : k ≤ candidates.length) (result : DFTIndependentSymmetries × List Nat)
    (h : sortHierarchicalScan (sortHierarchical fuel) undefinedReads k state parent candidates
      = some result) :
    ScanPost k state parent candidates result := by
  obtain ⟨erased, final, h2, h3, hres⟩ :=
    sortHierarchicalScan_some _ undefinedReads k state parent candidates hk result h
  subst hres
  obtain ⟨e, he1, he2⟩ := childLoop_perm _ _ _ _ _ erased h2
  obtain ⟨p, hp1, hp2, hp3⟩ := hierarchyLoop_post fuel H _ _ _ _ final h3
  simp only at hp1 hp3
  refine ⟨rfl, p, hp1, ?_, ?_⟩
  · intro c hc
    have hc2 : c ∈ erased.2 ++ e := he2.symm.subset hc
    rw [List.mem_append] at hc2
    rcases hc2 with hc2 | hc2
    · exact hp2 c hc2
    · by_cases hfin : c ∈ final.groups.keys
      · rcases hp3 c hfin with h4 | h4
        · rw [he1, mem_keys_eraseKeys] at h4
          exact absurd hc2 h4.2
        · exact Or.inl h4
      · exact Or.inr hfin
  · intro c hc
    rcases hp3 c hc with h4 | h4
    · rw [he1, mem_keys_eraseKeys] at h4
      by_cases h0 : k = 0
      · rw [if_pos h0] at h4
        exact Or.inl h4.1
      · rw [if_neg h0, mem_keys_touch] at h4
        rcases h4.1 with h5 | h5
        · exact Or.inr (Or.inl h5)
        · exact Or.inl h5
    · exact Or.inr (Or.inr h4)

/-- The postcondition of `sortHierarchical`, for every call that returns. -/
theorem sortHierarchical_callPost :
    ∀ (fuel : Nat) (undefinedReads : UndefinedReads) (state : DFTIndependentSymmetries)
      (parent : Nat) (candidates : List Nat) (result : DFTIndependentSymmetries × List Nat),
      sortHierarchical fuel undefinedReads state parent candidates = some result →
      CallPost state parent candidates result := by
  intro fuel
  induction fuel with
  | zero =>
    intro undefinedReads state parent candidates result h
    rw [sortHierarchical_zero] at h
    cases h
  | succ fuel ih =>
    intro undefinedReads state parent candidates result h
    rw [sortHierarchical_succ] at h
    exact sortHierarchicalScan_post fuel ih undefinedReads _ state parent candidates
      (scanCount_le _) result h

theorem perm_takeDrop_filter (p q : Nat → Bool) (hpq : ∀ c, q c = !p c) (k : Nat) (l : List Nat) :
    List.Perm (((l.take k).filter q ++ l.drop k) ++ (l.take k).filter p) l := by
  rw [List.perm_iff_count]
  intro a
  have h1 : List.count a l = List.count a (l.take k) + List.count a (l.drop k) := by
    rw [← List.count_append, List.take_append_drop]
  have h2 := (List.filter_append_perm p (l.take k)).count_eq a
  have h3 : (l.take k).filter q = (l.take k).filter (fun x => !p x) := by
    apply List.filter_congr
    intro x _
    exact hpq x
  rw [h3]
  simp only [List.count_append] at h2 ⊢
  omega

theorem hierarchyLoop_returns (fuel : Nat) (H : CallReturns fuel)
    (undefinedReads : UndefinedReads) :
    ∀ (n : Nat) (state : DFTIndependentSymmetries) (l : List Nat),
      GoodGroups state.groups → (∀ c ∈ l, c ∈ state.groups.keys) → l.Nodup →
      l.length ≤ fuel → l.length ≤ n →
      ∃ final erased pushed,
        hierarchyLoop (sortHierarchical fuel) undefinedReads n state l = some final ∧
        final.groups = state.groups.eraseKeys erased ∧
        final.sortedSymmetries = state.sortedSymmetries ++ pushed ∧
        List.Perm (pushed ++ erased) l := by
  intro n
  induction n with
  | zero =>
    intro state l _ _ _ _ hn
    have hnil : l = [] := List.eq_nil_of_length_eq_zero (Nat.le_zero.1 hn)
    subst hnil
    exact ⟨state, [], [], rfl, (eraseKeys_nil _).symm, by simp, List.Perm.refl _⟩
  | succ n ih =>
    intro state l hgood hkeys hnd hfuel hn
    rcases List.eq_nil_or_concat l with hl | ⟨init, last, hl⟩
    · subst hl
      exact ⟨state, [], [], hierarchyLoop_nil _ _ _ _, (eraseKeys_nil _).symm, by simp,
        List.Perm.refl _⟩
    · subst hl
      rw [List.concat_eq_append] at hkeys hnd hfuel hn ⊢
      rw [List.length_append, List.length_singleton] at hfuel hn
      have hnd2 := List.nodup_append.1 hnd
      have hlast : last ∉ init := fun hm => hnd2.2.2 hm (List.mem_singleton_self _)
      obtain ⟨r, e1, p1, hr, hg1, hs1, hperm1⟩ := H (undefinedReads.sub n) state last init hgood
        (hkeys last (by simp)) (fun c hc => hkeys c (List.mem_append_left _ hc)) hnd2.1 hlast
        (by omega)
      obtain ⟨k1, k2, k3, k4, k5⟩ := perm_kept_erased hperm1 hnd2.1
      obtain ⟨final, e2, p2, hf, hg2, hs2, hperm2⟩ := ih
        { groups := r.1.groups, sortedSymmetries := r.1.sortedSymmetries ++ [last] } r.2
        (by simp only; rw [hg1]; exact goodGroups_eraseKeys _ _ hgood)
        (by
          intro c hc
          simp only
          rw [hg1, mem_keys_eraseKeys]
          exact ⟨hkeys c (List.mem_append_left _ (k3 c hc).1),
            fun he => (k3 c hc).2 (List.mem_append_right _ he)⟩)
        k1 (by omega) (by omega)
      simp only at hg2 hs2
      refine ⟨final, e1 ++ e2, p1 ++ [last] ++ p2, ?_, ?_, ?_, ?_⟩
      · rw [hierarchyLoop_concat, hr]
        exact hf
      · rw [hg2, hg1, eraseKeys_eraseKeys]
      · rw [hs2, hs1]
        simp
      · rw [List.perm_iff_count] at hperm1 hperm2 ⊢
        intro a
        have h1 := hperm1 a
        have h2 := hperm2 a
        simp only [List.count_append] at h1 h2 ⊢
        omega

theorem sortHierarchicalScan_returns (fuel : Nat) (ih : CallReturns fuel)
    (undefinedReads : UndefinedReads) (k : Nat) (state : DFTIndependentSymmetries) (parent : Nat) (candidates : List Nat)
    (hk : k ≤ candidates.length)
    (hgood : GoodGroups state.groups) (hp : parent ∈ state.groups.keys)
    (hkeys : ∀ c ∈ candidates, c ∈ state.groups.keys) (hnd : candidates.Nodup)
    (hpc : parent ∉ candidates) (hlen : candidates.length < fuel + 1) :
    ∃ result erased pushed,
      sortHierarchicalScan (sortHierarchical fuel) undefinedReads k state parent candidates
        = some result ∧
      result.1.groups = state.groups.eraseKeys erased ∧
      result.1.sortedSymmetries = state.sortedSymmetries ++ pushed ∧
      List.Perm (result.2 ++ (pushed ++ erased)) candidates := by
  have hg1 : (if k = 0 then state.groups else state.groups.touch parent) = state.groups := by
    by_cases h0 : k = 0
    · rw [if_pos h0]
    · rw [if_neg h0, touch_of_mem_keys _ _ hp]
  have hsplit := perm_takeDrop_filter (inSymmetry state.groups parent)
    (notInSymmetry state.groups parent) (fun _ => rfl) k candidates
  obtain ⟨c1, c2, c3, c4, c5⟩ := perm_kept_erased hsplit hnd
  have hclen : ((candidates.take k).filter (inSymmetry state.groups parent)).length
      ≤ candidates.length :=
    (List.length_filter_le _ _).trans (by rw [List.length_take]; exact Nat.min_le_right _ _)
  obtain ⟨r, hr⟩ := childLoop_isSome parent _ (undefinedReads.sub 0) state.groups
    ((candidates.take k).filter (inSymmetry state.groups parent)) hgood hp
    (fun c hc => hkeys c (c4 c hc).1) c2 (fun hm => hpc (c4 parent hm).1) (Nat.le_refl _)
  obtain ⟨e1, he1, hperm1⟩ := childLoop_perm _ _ _ _ _ r hr
  obtain ⟨d1, d2, d3, d4, d5⟩ := perm_kept_erased hperm1 c2
  obtain ⟨final, e2, p, hf, hg2, hs2, hperm2⟩ := hierarchyLoop_returns fuel ih
    (undefinedReads.sub 1) r.2.length
    { groups := r.1, sortedSymmetries := state.sortedSymmetries } r.2
    (by simp only; rw [he1]; exact goodGroups_eraseKeys _ _ hgood)
    (by
      intro c hc
      simp only
      rw [he1, mem_keys_eraseKeys]
      exact ⟨hkeys c (c4 c (d3 c hc).1).1, (d3 c hc).2⟩)
    d1 (by omega) (Nat.le_refl _)
  simp only at hg2 hs2
  have hr2 : childLoop (undefinedReads.sub 0) parent
      ((candidates.take k).filter (inSymmetry state.groups parent)).length
      (if k = 0 then state.groups else state.groups.touch parent)
      ((candidates.take k).filter (inSymmetry state.groups parent)) = some r := by
    rw [hg1]; exact hr
  refine ⟨_, e1 ++ e2, p,
    sortHierarchicalScan_of_some _ undefinedReads k state parent candidates hk r final hr2 hf,
    ?_, hs2, ?_⟩
  · simp only
    rw [hg2, he1, eraseKeys_eraseKeys]
  · simp only
    rw [List.perm_iff_count] at hsplit hperm1 hperm2 ⊢
    intro a
    have h1 := hsplit a
    have h2 := hperm1 a
    have h3 := hperm2 a
    simp only [List.count_append] at h1 h2 h3 ⊢
    omega

/-- The method `sortHierarchical` returns in the recursion of the
constructor. -/
theorem sortHierarchical_returns : ∀ (fuel : Nat), CallReturns fuel := by
  intro fuel
  induction fuel with
  | zero =>
    intro undefinedReads state parent candidates _ _ _ _ _ hlen
    exact absurd hlen (Nat.not_lt_zero _)
  | succ fuel ih =>
    intro undefinedReads state parent candidates hgood hp hkeys hnd hpc hlen
    rw [sortHierarchical_succ]
    exact sortHierarchicalScan_returns fuel ih undefinedReads _ state parent candidates
      (scanCount_le _) hgood hp hkeys hnd hpc hlen

theorem createSymmetry_ragged (undefinedReads : UndefinedReads) (index : Nat) :
    createSymmetry undefinedReads [[1, 2, 3], [4]] [[4, 5]] index = some [] := by
  have h5 : ∀ v : Nat, applySymmetryWith v [[1, 2, 3], [4]] 5 index = some (-1) := by
    intro v
    simp [applySymmetryWith]
  have h4 : ∀ v : Nat, ∃ x, applySymmetryWith v [[1, 2, 3], [4]] 4 index = some x :=
    fun v => applySymmetryWith_isSome v index _ 4 (by decide)
  obtain ⟨x, hx⟩ := h4 (undefinedReads.sub 0 [1])
  unfold createSymmetry createSymmetryLoop createSymmetryClass
  simp only [List.length_cons, List.length_nil]
  rw [hx]
  simp only
  by_cases hge : x ≥ 0
  · rw [if_pos hge]
    unfold createSymmetryClass
    rw [h5]
    simp
  · rw [if_neg hge]

theorem indexLoop_ragged (undefinedReads : UndefinedReads) :
    indexLoop undefinedReads 1 4 3 1 raggedGroups [] = some (raggedGroups, []) := by
  have hp : raggedGroups.mapAt 1 = some [[1, 2, 3], [4]] := by decide
  have hc : raggedGroups.mapAt 4 = some [[4, 5]] := by decide
  unfold indexLoop
  rw [hp]
  simp only [List.length_cons, List.length_nil]
  rw [if_pos (by decide), hc]
  simp only
  rw [createSymmetry_ragged _ 1]
  simp only [eraseCreatedLoop]
  unfold indexLoop
  rw [hp]
  simp only [List.length_cons, List.length_nil]
  rw [if_pos (by decide), hc]
  simp only
  rw [createSymmetry_ragged _ 2]
  simp only [eraseCreatedLoop]
  unfold indexLoop
  rw [hp]
  simp only [List.length_cons, List.length_nil]
  rw [if_neg (by decide)]

theorem sortHierarchical_ragged (undefinedReads : UndefinedReads) :
    sortHierarchical 2 undefinedReads { groups := raggedGroups, sortedSymmetries := [] } 1 [4]
      = some ({ groups := raggedGroups, sortedSymmetries := [4] }, []) := by
  have hchild : childLoop (undefinedReads.sub 0) 1 1 raggedGroups [4]
      = some (raggedGroups, [4]) := by
    unfold childLoop
    have hb : indexBound raggedGroups 1 = 3 := by decide
    rw [hb, indexLoop_ragged]
    rfl
  rw [sortHierarchical_succ]
  exact sortHierarchicalScan_of_some (sortHierarchical 1) undefinedReads 1
    { groups := raggedGroups, sortedSymmetries := [] } 1 [4] (by decide)
    (raggedGroups, [4]) { groups := raggedGroups, sortedSymmetries := [4] } hchild rfl

/-- The constructor on `raggedGroups`, where `applySymmetry` reads `element[1]`
and `element[2]` of the class `[4]`: whatever these reads yield, no key is
erased, and the key 4 is sorted before its parent 1. -/
theorem create_raggedGroups (undefinedReads : UndefinedReads) :
    DFTIndependentSymmetries.create 2 undefinedReads raggedGroups
      = some { groups := raggedGroups, sortedSymmetries := [4, 1] } := by
  have hsort : sortGroupKeys raggedGroups = some [4, 1] := by decide
  unfold DFTIndependentSymmetries.create
  rw [hsort]
  unfold DFTIndependentSymmetries.createFrom
  have hlist : ([4, 1] : List Nat) = [4] ++ [1] := rfl
  rw [hlist]
  simp only [List.length_append, List.length_singleton]
  rw [hierarchyLoop_concat, sortHierarchical_ragged]
  rfl

/-- The constructor on `nestedGroups`: the symmetry of 2 is the image of the
symmetry of 1 under the symmetry of 10, so the key 2 is erased, and 1 is
sorted before its parent 10. -/
theorem create_nestedGroups (undefinedReads : UndefinedReads) :
    DFTIndependentSymmetries.create 3 undefinedReads nestedGroups
      = some { groups := [(1, [[1, 3]]), (10, [[1, 2], [3, 4]])],
               sortedSymmetries := [1, 10] } := by
  rfl

theorem scanCount_long : scanCount (2 ^ 31 + 1) = 0 := by decide

/-- C28 as stated fails for more than `2^31` candidates. The counter of
the loop of line 69 is `int i = candidates.size() - 1`; for the `2^31 + 1`
candidates `0, 1, ..., 2^31` it is negative, the loop does nothing, and the
call returns with all candidates and without a change of the state: the
candidate 7 is in the symmetry of the parent 3, but it is still a candidate, it
is still a key of `groups`, and it is not appended to `sortedSymmetries`. -/
theorem sortHierarchical_long_candidates :
    (∀ undefinedReads : UndefinedReads,
      sortHierarchical 1 undefinedReads { groups := scanGroups, sortedSymmetries := [] } 3
          longCandidates
        = some ({ groups := scanGroups, sortedSymmetries := [] }, longCandidates)) ∧
    7 ∈ longCandidates ∧ inSymmetry scanGroups 3 7 = true ∧ 7 ∈ scanGroups.keys ∧
    longCandidates.length = 2 ^ 31 + 1 := by
  have hlen : longCandidates.length = 2 ^ 31 + 1 := List.length_range _
  refine ⟨?_, List.mem_range.2 (by decide), by decide, by decide, hlen⟩
  intro undefinedReads
  rw [sortHierarchical_succ, hlen, scanCount_long]
  unfold sortHierarchicalScan
  rw [findChildrenLoop]
  simp only [List.length_nil, childLoop, hierarchyLoop]

/-- C28, amended: for at most `2^31` candidates. A call of
`sortHierarchical(parent, candidates)` that returns leaves in `candidates`
exactly the former candidates for which `existsInSymmetry(parent, c)` is false,
in their order, it only appends to `sortedSymmetries`, and every former
candidate for which `existsInSymmetry(parent, c)` is true has been appended
during the call or is no key of `groups` after it; the caller, the loop
`while (!children.empty())`, appends the parent after the call. The call
returns for a map whose symmetries are non-empty lists of non-empty classes, a
parent that is a key and distinct candidates that are keys other than the
parent. All this holds for all values of the reads beyond the end of a
class. -/
theorem sortHierarchical_postcondition (fuel : Nat) (undefinedReads : UndefinedReads)
    (state : DFTIndependentSymmetries)
    (parent : Nat) (candidates : List Nat) (hlen : candidates.length ≤ 2 ^ 31) :
    (∀ result, sortHierarchical fuel undefinedReads state parent candidates = some result →
      result.2 = candidates.filter (notInSymmetry state.groups parent) ∧
      ∃ pushed, result.1.sortedSymmetries = state.sortedSymmetries ++ pushed ∧
        (∀ c ∈ candidates, inSymmetry state.groups parent c = true →
          c ∈ pushed ∨ c ∉ result.1.groups.keys) ∧
        ∀ (n : Nat) (callerReads : UndefinedReads), callerReads.sub n = undefinedReads →
          hierarchyLoop (sortHierarchical fuel) callerReads (n + 1) state
              (candidates ++ [parent])
            = hierarchyLoop (sortHierarchical fuel) callerReads n
                { groups := result.1.groups,
                  sortedSymmetries := state.sortedSymmetries ++ pushed ++ [parent] }
                result.2) ∧
    (GoodGroups state.groups → parent ∈ state.groups.keys →
      (∀ c ∈ candidates, c ∈ state.groups.keys) → candidates.Nodup → parent ∉ candidates →
      candidates.length < fuel →
      ∃ result, sortHierarchical fuel undefinedReads state parent candidates = some result) := by
  constructor
  · intro result h
    obtain ⟨h1, pushed, h2, h3, _⟩ :=
      sortHierarchical_callPost fuel undefinedReads state parent candidates result h
    rw [scanCount_of_le _ hlen, List.take_length, List.drop_length, List.append_nil] at h1
    rw [scanCount_of_le _ hlen, List.take_length] at h3
    refine ⟨h1, pushed, h2, ?_, ?_⟩
    · intro c hc hin
      exact h3 c (List.mem_filter.2 ⟨hc, hin⟩)
    · intro n callerReads hreads
      rw [hierarchyLoop_concat, hreads, h]
      simp only
      rw [h2]
  · intro hgood hp hkeys hnd hpc hfuel
    obtain ⟨result, _, _, hr, _⟩ :=
      sortHierarchical_returns fuel undefinedReads state parent candidates hgood hp hkeys hnd
        hpc hfuel
    exact ⟨result, hr⟩

/-- Witness of C28: the call for the parent 10 and the candidates 1 and 2 in
`nestedGroups`: both are in the symmetry of 10, the key 2 is erased and 1 is
appended. -/
theorem sortHierarchical_postcondition_witness :
    [1, 2].length ≤ 2 ^ 31 ∧
    sortHierarchical 2 (fun _ => 0) { groups := nestedGroups, sortedSymmetries := [] } 10 [1, 2]
      = some ({ groups := [(1, [[1, 3]]), (10, [[1, 2], [3, 4]])], sortedSymmetries := [1] }, []) ∧
    ([] : List Nat) = [1, 2].filter (notInSymmetry nestedGroups 10) ∧
    ∃ pushed, [1] = ([] : List Nat) ++ pushed ∧
      (∀ c ∈ [1, 2], inSymmetry nestedGroups 10 c = true →
        c ∈ pushed ∨ c ∉ SymmetryGroups.keys [(1, [[1, 3]]), (10, [[1, 2], [3, 4]])]) ∧
      ∀ (n : Nat) (callerReads : UndefinedReads), callerReads.sub n = (fun _ => 0) →
        hierarchyLoop (sortHierarchical 2) callerReads (n + 1)
            { groups := nestedGroups, sortedSymmetries := [] } ([1, 2] ++ [10])
          = hierarchyLoop (sortHierarchical 2) callerReads n
              { groups := [(1, [[1, 3]]), (10, [[1, 2], [3, 4]])],
                sortedSymmetries := [] ++ pushed ++ [10] }
              [] :=
  ⟨by decide, by decide,
    (sortHierarchical_postcondition 2 (fun _ => 0)
      { groups := nestedGroups, sortedSymmetries := [] } 10 [1, 2] (by decide)).1
      ({ groups := [(1, [[1, 3]]), (10, [[1, 2], [3, 4]])], sortedSymmetries := [1] }, [])
      (by decide)⟩

/-! ## The choice width in floating point -/

theorem droppedBits_of_lt (n : Nat) (h : n < 2 ^ 53) : droppedBits n = 0 := by
  have h0 : List.range 12 = 0 :: (List.range 11).map Nat.succ := by decide
  unfold droppedBits
  rw [h0, List.find?_cons_of_pos]
  · rfl
  · simpa using h

/-- The values up to `2^53` are doubles. -/
theorem roundToDouble_of_le (n : Nat) (h : n ≤ 2 ^ 53) : roundToDouble n = n := by
  rcases Nat.lt_or_eq_of_le h with h1 | h1
  · unfold roundToDouble
    rw [if_pos (droppedBits_of_lt n h1)]
  · subst h1
    decide

theorem isLeastWidth_unique (n w1 w2 : Nat) (h1 : IsLeastWidth n w1) (h2 : IsLeastWidth n w2) :
    w1 = w2 :=
  Nat.le_antisymm (h1.2 w2 h2.1) (h2.2 w1 h1.1)

theorem isLeastWidth_pow_succ (k : Nat) : IsLeastWidth (2 ^ k + 1) (k + 1) := by
  constructor
  · rw [Nat.pow_succ]
    have : 1 ≤ 2 ^ k := Nat.one_le_two_pow
    omega
  · intro m hm
    by_contra hlt
    have hmk : m ≤ k := by omega
    have : 2 ^ m ≤ 2 ^ k := Nat.pow_le_pow_right (by decide) hmk
    omega

theorem isLeastWidth_pow (k : Nat) : IsLeastWidth (2 ^ k) k := by
  constructor
  · exact Nat.le_refl _
  · intro m hm
    exact (Nat.pow_le_pow_iff_right (by decide)).1 hm

theorem exactLog2_compares (bound : Nat) : LogCompares exactLog2 bound := by
  constructor
  · simp [exactLog2, ceilLog2Exact]
  · intro d k hd _
    unfold exactLog2 ceilLog2Exact
    rw [Nat.cast_lt]
    by_cases h1 : d ≤ 1
    · rw [if_pos h1]
      have hd1 : d = 1 := by omega
      subst hd1
      have : 1 ≤ 2 ^ k := Nat.one_le_two_pow
      omega
    · rw [if_neg h1]
      have hne : d - 1 ≠ 0 := by omega
      rw [Nat.lt_succ_iff, Nat.le_log2 hne]
      omega

/-- The width for a `std::log2` that compares with the integers as the exact
logarithm does, for the values up to `bound ≤ 2^53`. -/
theorem choiceWidth_of_compares (log2 : Nat → ℚ) (bound : Nat) (hlog : LogCompares log2 bound)
    (hbound : bound ≤ 2 ^ 53) (n : Nat) (h1 : 1 ≤ n) (hn : n ≤ bound) :
    ∃ w, choiceWidth log2 n = some w ∧ IsLeastWidth n w := by
  have hround : roundToDouble n = n := roundToDouble_of_le n (by omega)
  have hleast : IsLeastWidth n (Nat.clog 2 n) :=
    ⟨Nat.le_pow_clog (by decide) n, fun m hm => (Nat.le_pow_iff_clog_le (by decide)).1 hm⟩
  have hw53 : Nat.clog 2 n ≤ 53 := hleast.2 53 (by omega)
  have hceil : ⌈log2 n⌉ = ((Nat.clog 2 n : Nat) : Int) := by
    rw [Int.ceil_eq_iff]
    constructor
    · cases hk : Nat.clog 2 n with
      | zero =>
        have hn1 : n = 1 := by
          have := hleast.1
          rw [hk] at this
          omega
        subst hn1
        rw [hlog.1]
        norm_num
      | succ k =>
        have hlt : 2 ^ k < n := by
          by_contra hle
          have := hleast.2 k (by omega)
          omega
        have := (hlog.2 n k h1 hn).2 hlt
        push_cast
        simpa using this
    · have hnot : ¬ 2 ^ Nat.clog 2 n < n := by
        have := hleast.1
        omega
      have := mt (hlog.2 n (Nat.clog 2 n) h1 hn).1 hnot
      push_cast at this ⊢
      exact not_lt.1 this
  refine ⟨Nat.clog 2 n, ?_, hleast⟩
  unfold choiceWidth doubleToUint
  rw [hround, hceil, if_pos]
  · simp
  · constructor
    · exact Int.natCast_nonneg _
    · have : ((Nat.clog 2 n : Nat) : Int) ≤ 53 := by exact_mod_cast hw53
      have h64 : (53 : Int) < 2 ^ 64 := by norm_num
      omega

/-- C7 as stated fails above `2^53`, where several 64 bit values are converted to
the same double: `2^53 + 1` is converted to `2^53`, so for every `std::log2` the
two values get the same width, though the least widths are 54 and 53. With a
`std::log2` that is exact at `2^53` the width of `2^53 + 1` is 53. Below `2^53`
the width is one short where `std::log2` returns an integer for a value above a
power of two, as 49 for `2^49 + 1`. -/
theorem choiceWidth_shared_double :
    roundToDouble (2 ^ 53 + 1) = 2 ^ 53 ∧ roundToDouble (2 ^ 53) = 2 ^ 53 ∧
    IsLeastWidth (2 ^ 53) 53 ∧ IsLeastWidth (2 ^ 53 + 1) 54 ∧
    (∀ log2 : Nat → ℚ, choiceWidth log2 (2 ^ 53 + 1) = choiceWidth log2 (2 ^ 53)) ∧
    (∀ log2 : Nat → ℚ,
      ¬ ∀ n, 1 ≤ n → n < 2 ^ 64 → ∃ w, choiceWidth log2 n = some w ∧ IsLeastWidth n w) ∧
    (∀ log2 : Nat → ℚ, log2 (2 ^ 53) = 53 →
      choiceWidth log2 (2 ^ 53 + 1) = some 53 ∧ ¬ IsLeastWidth (2 ^ 53 + 1) 53) ∧
    (∀ log2 : Nat → ℚ, log2 (2 ^ 49 + 1) = 49 →
      choiceWidth log2 (2 ^ 49 + 1) = some 49 ∧ IsLeastWidth (2 ^ 49 + 1) 50) := by
  have hr1 : roundToDouble (2 ^ 53 + 1) = 2 ^ 53 := by decide
  have hr2 : roundToDouble (2 ^ 53) = 2 ^ 53 := by decide
  have hshare : ∀ log2 : Nat → ℚ,
      choiceWidth log2 (2 ^ 53 + 1) = choiceWidth log2 (2 ^ 53) := by
    intro log2
    unfold choiceWidth
    rw [hr1, hr2]
  refine ⟨hr1, hr2, isLeastWidth_pow 53, isLeastWidth_pow_succ 53, hshare, ?_, ?_, ?_⟩
  · intro log2 hall
    obtain ⟨w1, hw1, hl1⟩ := hall (2 ^ 53) (by norm_num) (by norm_num)
    obtain ⟨w2, hw2, hl2⟩ := hall (2 ^ 53 + 1) (by norm_num) (by norm_num)
    rw [hshare log2, hw1, Option.some.injEq] at hw2
    have e1 := isLeastWidth_unique _ _ _ hl1 (isLeastWidth_pow 53)
    have e2 := isLeastWidth_unique _ _ _ hl2 (isLeastWidth_pow_succ 53)
    omega
  · intro log2 hexact
    constructor
    · unfold choiceWidth doubleToUint
      rw [hr1, hexact]
      norm_num
      rfl
    · intro h
      have := isLeastWidth_unique _ _ _ h (isLeastWidth_pow_succ 53)
      omega
  · intro log2 hexact
    constructor
    · unfold choiceWidth doubleToUint
      rw [roundToDouble_of_le _ (by norm_num), hexact]
      norm_num
      rfl
    · exact isLeastWidth_pow_succ 49

theorem two_rpow_le (x : ℝ) (h0 : 0 ≤ x) (h1 : x ≤ 1) : (2 : ℝ) ^ x ≤ 1 + x := by
  have h := rpow_one_add_le_one_add_mul_self (show (-1 : ℝ) ≤ 1 by norm_num) h0 h1
  norm_num at h
  linarith

theorem inv_pow_mem (k : Nat) : (0 : ℝ) < 1 / 2 ^ k ∧ (1 : ℝ) / 2 ^ k ≤ 1 := by
  have hpos : (0 : ℝ) < 2 ^ k := by positivity
  have hone : (1 : ℝ) ≤ 2 ^ k := one_le_pow₀ (by norm_num)
  exact ⟨by positivity, by rw [div_le_one hpos]; exact hone⟩

/-- The exact logarithm of a natural number above `2^k` is at least
`k + 1 / 2^k`. -/
theorem logb_lower (k d : Nat) (h : 2 ^ k < d) :
    (k : ℝ) + 1 / 2 ^ k ≤ Real.logb 2 d := by
  have hx := inv_pow_mem k
  have hpos : (0 : ℝ) < 2 ^ k := by positivity
  have hd : (0 : ℝ) < d := by
    have : 0 < d := lt_of_le_of_lt (Nat.zero_le _) h
    exact_mod_cast this
  rw [Real.le_logb_iff_rpow_le (by norm_num) hd, Real.rpow_add (by norm_num),
    Real.rpow_natCast]
  have h2 := two_rpow_le (1 / 2 ^ k) hx.1.le hx.2
  have h3 : ((2 : ℝ) ^ k) * (1 + 1 / 2 ^ k) = 2 ^ k + 1 := by
    field_simp
  have h4 : ((2 ^ k + 1 : Nat) : ℝ) ≤ d := by exact_mod_cast h
  push_cast at h4
  calc (2 : ℝ) ^ k * 2 ^ (1 / (2 : ℝ) ^ k) ≤ 2 ^ k * (1 + 1 / 2 ^ k) :=
        mul_le_mul_of_nonneg_left h2 hpos.le
    _ = 2 ^ k + 1 := h3
    _ ≤ d := h4

/-- The exact logarithm of a natural number below `2^k` is at most
`k - 1 / 2^k`. -/
theorem logb_upper (k d : Nat) (h1 : 1 ≤ d) (h : d < 2 ^ k) :
    Real.logb 2 d ≤ (k : ℝ) - 1 / 2 ^ k := by
  have hx := inv_pow_mem k
  have hpos : (0 : ℝ) < 2 ^ k := by positivity
  have hd : (0 : ℝ) < d := by exact_mod_cast h1
  rw [Real.logb_le_iff_le_rpow (by norm_num) hd, Real.rpow_sub (by norm_num),
    Real.rpow_natCast]
  have h2 := two_rpow_le (1 / 2 ^ k) hx.1.le hx.2
  have hrpos : (0 : ℝ) < 2 ^ (1 / (2 : ℝ) ^ k) := Real.rpow_pos_of_pos (by norm_num) _
  rw [le_div_iff₀ hrpos]
  have h4 : ((d + 1 : Nat) : ℝ) ≤ ((2 ^ k : Nat) : ℝ) := by exact_mod_cast h
  push_cast at h4
  have h5 : ((2 : ℝ) ^ k - 1) * (1 + 1 / 2 ^ k) ≤ 2 ^ k := by
    have : ((2 : ℝ) ^ k - 1) * (1 + 1 / 2 ^ k) = 2 ^ k - 1 / 2 ^ k := by
      field_simp
      ring
    rw [this]
    linarith [hx.1]
  have hd0 : (0 : ℝ) ≤ d := hd.le
  calc (d : ℝ) * 2 ^ (1 / (2 : ℝ) ^ k) ≤ d * (1 + 1 / 2 ^ k) :=
        mul_le_mul_of_nonneg_left h2 hd0
    _ ≤ (2 ^ k - 1) * (1 + 1 / 2 ^ k) :=
        mul_le_mul_of_nonneg_right (by linarith) (by linarith [hx.1])
    _ ≤ 2 ^ k := h5

/-- A `std::log2` that is exact at the powers of two and accurate to
`1 / (2 * bound)` compares with the integers as the exact logarithm does. -/
theorem logCompares_of_accurate (log2 : Nat → ℚ) (bound : Nat) (hb : 1 ≤ bound)
    (hacc : LogAccurate log2 bound) : LogCompares log2 bound := by
  have hbpos : (0 : ℝ) < bound := by exact_mod_cast hb
  have herr : ∀ d : Nat, 1 ≤ d → d ≤ bound →
      |((log2 d : ℚ) : ℝ) - Real.logb 2 d| ≤ 1 / (2 * (bound : ℝ)) := by
    intro d h1 h2
    rw [le_div_iff₀ (by positivity)]
    exact hacc.2 d h1 h2
  constructor
  · have := hacc.1 0 (by simpa using hb)
    simpa using this
  · intro d k h1 h2
    have he := abs_le.1 (herr d h1 h2)
    have hk := inv_pow_mem k
    constructor
    · intro hlt
      by_contra hnot
      have hle : d ≤ 2 ^ k := by omega
      have hleast : IsLeastWidth d (Nat.clog 2 d) :=
        ⟨Nat.le_pow_clog (by decide) d, fun m hm => (Nat.le_pow_iff_clog_le (by decide)).1 hm⟩
      have hjk : Nat.clog 2 d ≤ k := hleast.2 k hle
      have hjk2 : ((Nat.clog 2 d : Nat) : ℝ) ≤ (k : ℝ) := by exact_mod_cast hjk
      have hlt2 : (k : ℝ) < ((log2 d : ℚ) : ℝ) := by exact_mod_cast hlt
      rcases Nat.lt_or_eq_of_le hleast.1 with hdlt | hdeq
      · have hup := logb_upper (Nat.clog 2 d) d h1 hdlt
        have hj1 : 1 ≤ Nat.clog 2 d := by
          by_contra h0
          have h00 : Nat.clog 2 d = 0 := by omega
          rw [h00] at hdlt
          omega
        obtain ⟨j, hj⟩ : ∃ j, Nat.clog 2 d = j + 1 := ⟨Nat.clog 2 d - 1, by omega⟩
        have hprev : 2 ^ j < d := by
          by_contra hc
          have := hleast.2 j (by omega)
          omega
        have hbig : (2 : ℝ) ^ (Nat.clog 2 d) < 2 * bound := by
          have h3 : 2 ^ (Nat.clog 2 d) < 2 * bound := by
            rw [hj, Nat.pow_succ]
            omega
          exact_mod_cast h3
        have hpos : (0 : ℝ) < 2 ^ (Nat.clog 2 d) := by positivity
        have hinv : 1 / (2 * (bound : ℝ)) < 1 / 2 ^ (Nat.clog 2 d) :=
          one_div_lt_one_div_of_lt hpos hbig
        linarith [he.2]
      · have hex := hacc.1 (Nat.clog 2 d) (by rw [← hdeq]; exact h2)
        rw [← hdeq] at hex
        have hex2 : ((log2 d : ℚ) : ℝ) = ((Nat.clog 2 d : Nat) : ℝ) := by
          rw [hex]
          norm_cast
        linarith
    · intro hlt
      have hlow := logb_lower k d hlt
      have hbig : (2 : ℝ) ^ k < 2 * bound := by
        have h3 : 2 ^ k < 2 * bound := by omega
        exact_mod_cast h3
      have hpos : (0 : ℝ) < 2 ^ k := by positivity
      have hinv : 1 / (2 * (bound : ℝ)) < 1 / 2 ^ k :=
        one_div_lt_one_div_of_lt hpos hbig
      have : (k : ℝ) < ((log2 d : ℚ) : ℝ) := by linarith [he.1]
      exact_mod_cast this

theorem logb_two_three : (11 : ℝ) / 8 ≤ Real.logb 2 3 ∧ Real.logb 2 3 ≤ 13 / 8 := by
  have h8 : ∀ e : ℝ, ((2 : ℝ) ^ (e / 8)) ^ 8 = 2 ^ e := by
    intro e
    rw [← Real.rpow_natCast, ← Real.rpow_mul (by norm_num)]
    congr 1
    push_cast
    ring
  constructor
  · rw [Real.le_logb_iff_rpow_le (by norm_num) (by norm_num)]
    have hnn : (0 : ℝ) ≤ 2 ^ ((11 : ℝ) / 8) := (Real.rpow_pos_of_pos (by norm_num) _).le
    have hp : ((2 : ℝ) ^ ((11 : ℝ) / 8)) ^ 8 ≤ 3 ^ 8 := by
      rw [h8]
      have : (2 : ℝ) ^ (11 : ℝ) = 2 ^ (11 : ℕ) := by
        rw [← Real.rpow_natCast]; norm_num
      rw [this]
      norm_num
    exact le_of_pow_le_pow_left₀ (by norm_num) (by norm_num) hp
  · rw [Real.logb_le_iff_le_rpow (by norm_num) (by norm_num)]
    have hnn : (0 : ℝ) ≤ 2 ^ ((13 : ℝ) / 8) := (Real.rpow_pos_of_pos (by norm_num) _).le
    have hp : (3 : ℝ) ^ 8 ≤ ((2 : ℝ) ^ ((13 : ℝ) / 8)) ^ 8 := by
      rw [h8]
      have : (2 : ℝ) ^ (13 : ℝ) = 2 ^ (13 : ℕ) := by
        rw [← Real.rpow_natCast]; norm_num
      rw [this]
      norm_num
    exact le_of_pow_le_pow_left₀ (by norm_num) hnn hp

theorem sampleLog2_accurate : LogAccurate sampleLog2 4 := by
  constructor
  · intro k hk
    have hk2 : k ≤ 2 := by
      by_contra hc
      have : 2 ^ 3 ≤ 2 ^ k := Nat.pow_le_pow_right (by decide) (by omega)
      omega
    interval_cases k <;> simp [sampleLog2, exactLog2, ceilLog2Exact, Nat.log2]
  · intro d h1 h4
    interval_cases d
    · simp [sampleLog2, exactLog2, ceilLog2Exact]
    · simp [sampleLog2, exactLog2, ceilLog2Exact, Nat.log2]
    · have h := logb_two_three
      have habs : |((sampleLog2 3 : ℚ) : ℝ) - Real.logb 2 ((3 : Nat) : ℝ)| ≤ 1 / 8 := by
        rw [abs_le]
        simp only [sampleLog2, if_true]
        push_cast
        constructor <;> linarith [h.1, h.2]
      push_cast at habs ⊢
      linarith
    · have h4 : Real.logb 2 ((4 : Nat) : ℝ) = 2 := by
        have : ((4 : Nat) : ℝ) = (2 : ℝ) ^ (2 : ℝ) := by norm_num
        rw [this, Real.logb_rpow (by norm_num) (by norm_num)]
      have hs : sampleLog2 4 = 2 := by
        simp [sampleLog2, exactLog2, ceilLog2Exact, Nat.log2]
      rw [h4, hs]
      norm_num

/-- C7, amended: in the rebuild path of `computeDd` the returned and cached bit
width is the value of `static_cast<uint_fast64_t>(std::ceil(std::log2(n)))` for
the maximal group size `n`. For `1 ≤ n ≤ bound ≤ 2^53`, where the conversion to
`double` is exact, and for a `std::log2` that is exact at the powers of two and
has an absolute error of at most `1 / (2 * bound)` on the doubles up to `bound`,
it is the least natural number `w` with `2^w ≥ n`. -/
theorem computeDd_choiceWidth [DecidableEq Bdd] (svc : Services Expr Bdd)
    (s : AbstractCommand Expr Bdd) (log2 : Nat → ℚ) (bound : Nat) (models : List Model)
    (hfloat : ∀ n w, 1 ≤ n → choiceWidth log2 n = some w → svc.ceilLog2 n = w)
    (hacc : LogAccurate log2 bound) (hbound : bound ≤ 2 ^ 53)
    (hch : relevantPredicatesChanged s (computeRelevantPredicates svc s) = true)
    (hm : svc.allSat (addMissingPredicates svc s (computeRelevantPredicates svc s)).assertions
      (addMissingPredicates svc s (computeRelevantPredicates svc s)).decisionVariables
        = some models)
    (h1 : 1 ≤ rebuildMaximalNumberOfChoices svc s models)
    (h2 : rebuildMaximalNumberOfChoices svc s models ≤ bound) :
    ∃ bdd width, (computeDd svc s).2 = some (bdd, width) ∧
      (computeDd svc s).1.cachedDd = (bdd, width) ∧
      choiceWidth log2 (rebuildMaximalNumberOfChoices svc s models) = some width ∧
      IsLeastWidth (rebuildMaximalNumberOfChoices svc s models) width := by
  have hlog : LogCompares log2 bound :=
    logCompares_of_accurate log2 bound (Nat.le_trans h1 h2) hacc
  obtain ⟨w, hw, hleast⟩ := choiceWidth_of_compares log2 bound hlog hbound _ h1 h2
  have hwidth := hfloat _ _ h1 hw
  refine ⟨buildResultBdd svc.ddInformation w
    (sourceToDistributionsMapOf svc (enumerationState svc s) models), w, ?_, ?_, hw, hleast⟩
  · simp only [computeDd, hch, hm, Bool.not_true, Bool.false_eq_true, if_false]
    rw [← hwidth]
    rfl
  · simp only [computeDd, hch, hm, Bool.not_true, Bool.false_eq_true, if_false]
    rw [← hwidth]
    rfl

/-- Witness of C7: the engine for `guard(y) -> x' = z`, freshly constructed, with
a solver that enumerates two models with the same source state, on a platform
with the `std::log2` of `sampleLog2`, which has an error of `0.085` at 3: the
maximal group size is 2. -/
theorem computeDd_choiceWidth_witness :
    LogAccurate sampleLog2 4 ∧
    rebuildMaximalNumberOfChoices (termServices (floatWidth sampleLog2) [allTrue, allBut12])
      (AbstractCommand.create (termServices (floatWidth sampleLog2) [allTrue, allBut12])
        copyCommand copyPartition 10) [allTrue, allBut12] = 2 ∧
    ∃ bdd width,
      (computeDd (termServices (floatWidth sampleLog2) [allTrue, allBut12])
        (AbstractCommand.create (termServices (floatWidth sampleLog2) [allTrue, allBut12])
          copyCommand copyPartition 10)).2 = some (bdd, width) ∧
      (computeDd (termServices (floatWidth sampleLog2) [allTrue, allBut12])
        (AbstractCommand.create (termServices (floatWidth sampleLog2) [allTrue, allBut12])
          copyCommand copyPartition 10)).1.cachedDd = (bdd, width) ∧
      choiceWidth sampleLog2
        (rebuildMaximalNumberOfChoices (termServices (floatWidth sampleLog2) [allTrue, allBut12])
          (AbstractCommand.create (termServices (floatWidth sampleLog2) [allTrue, allBut12])
            copyCommand copyPartition 10) [allTrue, allBut12]) = some width ∧
      IsLeastWidth
        (rebuildMaximalNumberOfChoices (termServices (floatWidth sampleLog2) [allTrue, allBut12])
          (AbstractCommand.create (termServices (floatWidth sampleLog2) [allTrue, allBut12])
            copyCommand copyPartition 10) [allTrue, allBut12]) width :=
  ⟨sampleLog2_accurate, by rfl,
   computeDd_choiceWidth (termServices (floatWidth sampleLog2) [allTrue, allBut12])
     (AbstractCommand.create (termServices (floatWidth sampleLog2) [allTrue, allBut12])
       copyCommand copyPartition 10) sampleLog2 4 [allTrue, allBut12]
     (by intro n w _ h; simp [termServices, floatWidth, h])
     sampleLog2_accurate (by norm_num) (by rfl) (by rfl)
     (by decide) (by decide)⟩

end Storm
